import Mathlib

/-!
Shallow embedding of `amplifier_module_storage_localfirst` (SQLite local-first
storage engine) and verification of its specification claims.

The embedding follows `src/amplifier_module_storage_localfirst/sqlite.py`
(class `SQLiteLocalFirstStorage`) together with `types.py` and `errors.py`.
Python values crossing the storage boundary are modelled by `PyVal`; SQLite
storage-class values by `SqlVal`.  Wall-clock reads (`datetime.now(...)`) are
modelled by explicit `now` parameters, and `uuid.uuid4()` by an explicit
`fresh` parameter.  Python floats are modelled as rationals: the claims
checked here only move float values around (no rounding arithmetic occurs in
the source), with the single exception of decimal float literals inside JSON
text, which are excluded from the JSON round-trip theorem as genuine
floating-point behaviour.
-/

namespace LocalFirst

/-- Field kinds of `types.FieldType` (a closed enumeration). -/
inductive FieldType where
  | STRING
  | INTEGER
  | FLOAT
  | BOOLEAN
  | DATETIME
  | DATE
  | JSON
deriving DecidableEq, Repr

/-- `types.Schema`: collection name, ordered field map, primary key,
optional indexes and vector field.  The ordered Python dict `fields` is an
association list in declaration order. -/
structure Schema where
  name : String
  fields : List (String × FieldType)
  primary_key : String := "id"
  indexes : Option (List String) := Option.none
  vector_field : Option String := Option.none
deriving DecidableEq, Repr

/-- `types.StorageConfig` (fields irrelevant to the claims are kept for
fidelity but unused). -/
structure StorageConfig where
  db_path : String
  backend_url : Option String := Option.none
  auth_token : Option String := Option.none
  conflict_strategy : String := "last_write_wins"
  auto_sync : Bool := true
  sync_interval : Int := 60
  enable_vectors : Bool := false
  embedding_model : String := "all-MiniLM-L6-v2"
deriving DecidableEq, Repr

/-- Python values reaching the storage layer: `None`, booleans, (unbounded)
integers, floats (as exact rationals), strings, `datetime`/`date` objects
(represented by the text their `isoformat()` produces), lists and
string-keyed dicts. -/
inductive PyVal where
  | noneV
  | boolV (b : Bool)
  | intV (n : Int)
  | floatV (q : ℚ)
  | strV (s : String)
  | datetimeV (iso : String)
  | dateV (iso : String)
  | listV (xs : List PyVal)
  | dictV (kvs : List (String × PyVal))
deriving Repr

/-- SQLite storage-class values: NULL, INTEGER, REAL, TEXT.  (BLOB never
arises in this module.) -/
inductive SqlVal where
  | null
  | int (n : Int)
  | real (q : ℚ)
  | text (s : String)
deriving DecidableEq, Repr

/-- A Python dict whose keys are strings, in insertion order. -/
abbrev Dict := List (String × PyVal)

/-- Dict lookup (`d[k]` / `d.get(k)`). -/
def dictGet (d : Dict) (k : String) : Option PyVal :=
  (d.find? (fun kv => kv.1 = k)).map (·.2)

/-- Dict key-membership test (`k in d`). -/
def dictHas (d : Dict) (k : String) : Bool :=
  (d.find? (fun kv => kv.1 = k)).isSome

/-- Dict update `{**d, k: v}`: an existing key keeps its position, a new key
is appended (Python insertion-order semantics). -/
def dictSet (d : Dict) (k : String) (v : PyVal) : Dict :=
  if dictHas d k then d.map (fun kv => if kv.1 = k then (k, v) else kv)
  else d ++ [(k, v)]

/-- Dict merge `{**a, **b}`. -/
def dictMerge (a b : Dict) : Dict :=
  b.foldl (fun acc kv => dictSet acc kv.1 kv.2) a

/-- Association-list lookup used for schema fields and rows. -/
def alistGet {α : Type} (l : List (String × α)) (k : String) : Option α :=
  (l.find? (fun kv => kv.1 = k)).map (·.2)

/-! ## JSON text: model of Python `json.dumps` / `json.loads`

`_serialize_value` calls `json.dumps` for `FieldType.JSON` fields and
`_track_change` calls it on change payloads; `_deserialize_value` and
`get_pending_changes` call `json.loads`.  The printer below produces the
default `json.dumps` layout (separators `", "` and `": "`, strings quoted
with backslash escapes); the parser is a recursive-descent reader of that
grammar.  Decimal float literals are not modelled (floating-point
representation), so float-valued leaves are excluded from round-trip
statements. -/

/-- Decimal digit character for `n < 10`. -/
def digitChar (n : Nat) : Char := Char.ofNat (48 + n)

/-- Decimal digits of a natural number, most significant first. -/
def natChars (n : Nat) : List Char :=
  if _h : n < 10 then [digitChar n]
  else natChars (n / 10) ++ [digitChar (n % 10)]
decreasing_by exact Nat.div_lt_self (by omega) (by omega)

/-- Decimal rendering of an integer. -/
def intChars (n : Int) : List Char :=
  if n < 0 then '-' :: natChars n.natAbs else natChars n.natAbs

/-- Smallest exponent `k` with `d ∣ 10 ^ k`, when one exists (i.e. when `d`
has only the prime factors 2 and 5). -/
def decExp (d : Nat) : Option Nat :=
  (List.range (d + 1)).find? (fun k => d ≠ 0 && 10 ^ k % d = 0)

/-- Decimal rendering of a float value (exact when the rational is a dyadic,
as every Python float is).  Only used for printing; float text is never
re-parsed in any theorem. -/
def floatChars (q : ℚ) : List Char :=
  match decExp q.den with
  | some k =>
    let s := natChars (q.num.natAbs * (10 ^ k / q.den))
    let s := if s.length ≤ k then List.replicate (k + 1 - s.length) '0' ++ s else s
    let intPart := s.take (s.length - k)
    let fracPart := s.drop (s.length - k)
    let fracPart := if fracPart = [] then ['0'] else fracPart
    (if q.num < 0 then ['-'] else []) ++ intPart ++ '.' :: fracPart
  | Option.none => intChars q.num

/-- JSON string-body escaping: `json.dumps` escapes `"` and `\`. -/
def escChars : List Char → List Char
  | [] => []
  | c :: cs => (if c = '"' || c = '\\' then ['\\', c] else [c]) ++ escChars cs

mutual

/-- Printed JSON text of a Python value (`json.dumps` with default
separators).  `datetime`/`date` leaves are not serializable: they are mapped
to `[]` here, but `jsonDumps` guards them out (TypeError in Python). -/
def printJ : PyVal → List Char
  | .noneV => ['n', 'u', 'l', 'l']
  | .boolV true => ['t', 'r', 'u', 'e']
  | .boolV false => ['f', 'a', 'l', 's', 'e']
  | .intV n => intChars n
  | .floatV q => floatChars q
  | .strV s => '"' :: (escChars s.data ++ ['"'])
  | .datetimeV _ => []
  | .dateV _ => []
  | .listV xs => '[' :: (printItems xs ++ [']'])
  | .dictV kvs => '{' :: (printMembers kvs ++ ['}'])

/-- Comma-separated printed items of a JSON array body. -/
def printItems : List PyVal → List Char
  | [] => []
  | [x] => printJ x
  | x :: y :: xs => printJ x ++ ',' :: ' ' :: printItems (y :: xs)

/-- Comma-separated printed members of a JSON object body. -/
def printMembers : List (String × PyVal) → List Char
  | [] => []
  | [(k, v)] => '"' :: (escChars k.data ++ '"' :: ':' :: ' ' :: printJ v)
  | (k, v) :: m :: ms =>
    '"' :: (escChars k.data ++ '"' :: ':' :: ' ' :: printJ v)
      ++ ',' :: ' ' :: printMembers (m :: ms)

end

mutual

/-- Whether `json.dumps` accepts the value (no `datetime`/`date` anywhere;
Python raises TypeError on those). -/
def jsonReady : PyVal → Bool
  | .noneV | .boolV _ | .intV _ | .floatV _ | .strV _ => true
  | .datetimeV _ | .dateV _ => false
  | .listV xs => jsonReadyItems xs
  | .dictV kvs => jsonReadyMembers kvs

/-- `jsonReady` on every element of a list. -/
def jsonReadyItems : List PyVal → Bool
  | [] => true
  | x :: xs => jsonReady x && jsonReadyItems xs

/-- `jsonReady` on every value of an object. -/
def jsonReadyMembers : List (String × PyVal) → Bool
  | [] => true
  | (_, v) :: kvs => jsonReady v && jsonReadyMembers kvs

end

mutual

/-- A serializable value with no float leaves: the fragment on which the
modelled parser inverts the printer. -/
def jsonValue : PyVal → Bool
  | .noneV | .boolV _ | .intV _ | .strV _ => true
  | .floatV _ | .datetimeV _ | .dateV _ => false
  | .listV xs => jsonValueItems xs
  | .dictV kvs => jsonValueMembers kvs

/-- `jsonValue` on every element of a list. -/
def jsonValueItems : List PyVal → Bool
  | [] => true
  | x :: xs => jsonValue x && jsonValueItems xs

/-- `jsonValue` on every value of an object. -/
def jsonValueMembers : List (String × PyVal) → Bool
  | [] => true
  | (_, v) :: kvs => jsonValue v && jsonValueMembers kvs

end

/-- Model of `json.dumps`: the printed text, or `Option.none` for the
TypeError raised on non-serializable input. -/
def jsonDumps (v : PyVal) : Option String :=
  if jsonReady v then some (String.mk (printJ v)) else Option.none

/-- JSON whitespace. -/
def isWs (c : Char) : Bool := c = ' ' || c = '\t' || c = '\n' || c = '\r'

/-- Drop leading whitespace. -/
def skipWs : List Char → List Char
  | [] => []
  | c :: cs => if isWs c then skipWs cs else c :: cs

/-- ASCII digit test. -/
def isDigitC (c : Char) : Bool := '0' ≤ c && c ≤ '9'

/-- Value of a digit character. -/
def digVal (c : Char) : Nat := c.toNat - 48

/-- Split a maximal run of leading digits. -/
def spanDigits : List Char → List Char × List Char
  | [] => ([], [])
  | c :: cs =>
    if isDigitC c then
      let p := spanDigits cs
      (c :: p.1, p.2)
    else ([], c :: cs)

/-- Numeric value of a digit run. -/
def digitsToNat (ds : List Char) : Nat :=
  ds.foldl (fun a c => a * 10 + digVal c) 0

/-- Read a nonempty run of digits as a natural number. -/
def readNat (s : List Char) : Option (Nat × List Char) :=
  let p := spanDigits s
  if p.1 = [] then Option.none else some (digitsToNat p.1, p.2)

/-- Consume an expected literal character sequence. -/
def expectChars : List Char → List Char → Option (List Char)
  | [], s => some s
  | e :: es, c :: cs => if c = e then expectChars es cs else Option.none
  | _ :: _, [] => Option.none

/-- Map a JSON escape code to the character it denotes (only `"` and `\`
ever occur in printed output). -/
def unescChar (e : Char) : Char :=
  if e = 'n' then '\n' else if e = 't' then '\t' else if e = 'r' then '\r'
  else if e = 'b' then Char.ofNat 8 else if e = 'f' then Char.ofNat 12 else e

/-- Read a JSON string body up to the closing quote, unescaping. -/
def parseStrBody : List Char → Option (List Char × List Char)
  | [] => Option.none
  | c :: cs =>
    if c = '"' then some ([], cs)
    else if c = '\\' then
      match cs with
      | [] => Option.none
      | e :: cs' => (parseStrBody cs').map (fun p => (unescChar e :: p.1, p.2))
    else (parseStrBody cs).map (fun p => (c :: p.1, p.2))

/-- Classification of the first character of a JSON value. -/
inductive Lead where
  | lnull | ltrue | lfalse | lstr | larr | lobj | lneg | ldig | lbad
deriving DecidableEq, Repr

/-- Classify the leading character of a JSON value. -/
def classify (c : Char) : Lead :=
  if c = 'n' then .lnull
  else if c = 't' then .ltrue
  else if c = 'f' then .lfalse
  else if c = '"' then .lstr
  else if c = '[' then .larr
  else if c = '{' then .lobj
  else if c = '-' then .lneg
  else if isDigitC c then .ldig
  else .lbad

mutual

/-- Fueled recursive-descent JSON value reader (model of `json.loads`
applied to one value; fuel bounds the nesting depth). -/
def parseV : Nat → List Char → Option (PyVal × List Char)
  | 0, _ => Option.none
  | f + 1, s =>
    match skipWs s with
    | [] => Option.none
    | c :: cs =>
      match classify c with
      | .lnull => (expectChars ['u', 'l', 'l'] cs).map (fun r => (.noneV, r))
      | .ltrue => (expectChars ['r', 'u', 'e'] cs).map (fun r => (.boolV true, r))
      | .lfalse => (expectChars ['a', 'l', 's', 'e'] cs).map (fun r => (.boolV false, r))
      | .lstr => (parseStrBody cs).map (fun p => (.strV (String.mk p.1), p.2))
      | .larr =>
        match skipWs cs with
        | [] => Option.none
        | d :: ds =>
          if d = ']' then some (.listV [], ds)
          else (parseItems f (d :: ds)).map (fun p => (.listV p.1, p.2))
      | .lobj =>
        match skipWs cs with
        | [] => Option.none
        | d :: ds =>
          if d = '}' then some (.dictV [], ds)
          else (parseMembers f (d :: ds)).map (fun p => (.dictV p.1, p.2))
      | .lneg =>
        match readNat cs with
        | some (m, r) => some (.intV (-(m : Int)), r)
        | Option.none => Option.none
      | .ldig =>
        match readNat (c :: cs) with
        | some (m, r) => some (.intV (m : Int), r)
        | Option.none => Option.none
      | .lbad => Option.none

/-- Read array items `v (, v)* ]` after the opening bracket. -/
def parseItems : Nat → List Char → Option (List PyVal × List Char)
  | 0, _ => Option.none
  | f + 1, s => do
    let (v, r) ← parseV f s
    match skipWs r with
    | [] => Option.none
    | d :: ds =>
      if d = ',' then do
        let (xs, r2) ← parseItems f ds
        pure (v :: xs, r2)
      else if d = ']' then pure ([v], ds)
      else Option.none

/-- Read object members `"k": v (, "k": v)* }` after the opening brace. -/
def parseMembers : Nat → List Char → Option (List (String × PyVal) × List Char)
  | 0, _ => Option.none
  | f + 1, s =>
    match skipWs s with
    | [] => Option.none
    | c :: cs =>
      if c = '"' then do
        let (k, r) ← parseStrBody cs
        match skipWs r with
        | [] => Option.none
        | d :: ds =>
          if d = ':' then do
            let (v, r2) ← parseV f ds
            match skipWs r2 with
            | [] => Option.none
            | e :: es =>
              if e = ',' then do
                let (kvs, r3) ← parseMembers f es
                pure ((String.mk k, v) :: kvs, r3)
              else if e = '}' then pure ([(String.mk k, v)], es)
              else Option.none
          else Option.none
      else Option.none

end

/-- Model of `json.loads`: parse one value and require only trailing
whitespace. -/
def jsonLoads (s : String) : Option PyVal :=
  match parseV (s.data.length + 1) s.data with
  | some (v, rest) => if skipWs rest = [] then some v else Option.none
  | Option.none => Option.none

/-- A tail that cannot extend a decimal literal (empty or non-digit head). -/
def nb : List Char → Bool
  | [] => true
  | c :: _ => !isDigitC c

theorem isDigit_digitChar {n : Nat} (h : n < 10) : isDigitC (digitChar n) = true := by
  interval_cases n <;> decide

theorem digVal_digitChar {n : Nat} (h : n < 10) : digVal (digitChar n) = n := by
  interval_cases n <;> decide

theorem digit_ne {c d : Char} (h : isDigitC c = true) (hd : isDigitC d = false) : c ≠ d := by
  intro e; rw [e, hd] at h; cases h

theorem digit_not_ws {c : Char} (h : isDigitC c = true) : isWs c = false := by
  cases hw : isWs c with
  | false => rfl
  | true =>
    simp only [isWs, Bool.or_eq_true, decide_eq_true_eq] at hw
    rcases hw with ((rfl | rfl) | rfl) | rfl <;> simp [isDigitC] at h

theorem classify_digit {c : Char} (h : isDigitC c = true) : classify c = .ldig := by
  have hn : c ≠ 'n' := digit_ne h (by decide)
  have ht : c ≠ 't' := digit_ne h (by decide)
  have hf : c ≠ 'f' := digit_ne h (by decide)
  have hq : c ≠ '"' := digit_ne h (by decide)
  have ha : c ≠ '[' := digit_ne h (by decide)
  have ho : c ≠ '{' := digit_ne h (by decide)
  have hm : c ≠ '-' := digit_ne h (by decide)
  simp [classify, hn, ht, hf, hq, ha, ho, hm, h]

theorem natChars_ne_nil (n : Nat) : natChars n ≠ [] := by
  rw [natChars]
  split <;> simp

theorem natChars_digits (n : Nat) : ∀ c ∈ natChars n, isDigitC c = true := by
  induction n using Nat.strong_induction_on with
  | _ n IH =>
    rw [natChars]
    split
    · next h =>
      intro c hc
      rcases List.mem_singleton.mp hc with rfl
      exact isDigit_digitChar h
    · next h =>
      intro c hc
      rcases List.mem_append.mp hc with h1 | h2
      · exact IH (n / 10) (Nat.div_lt_self (by omega) (by omega)) c h1
      · rcases List.mem_singleton.mp h2 with rfl
        exact isDigit_digitChar (Nat.mod_lt _ (by omega))

theorem digitsToNat_append (a : List Char) (c : Char) :
    digitsToNat (a ++ [c]) = digitsToNat a * 10 + digVal c := by
  simp [digitsToNat, List.foldl_append]

theorem digitsToNat_natChars (n : Nat) : digitsToNat (natChars n) = n := by
  induction n using Nat.strong_induction_on with
  | _ n IH =>
    rw [natChars]
    split
    · next h => simp [digitsToNat, digVal_digitChar h]
    · next h =>
      rw [digitsToNat_append, IH (n / 10) (Nat.div_lt_self (by omega) (by omega)),
        digVal_digitChar (Nat.mod_lt _ (by omega))]
      omega

theorem spanDigits_append (d rest : List Char) (hd : ∀ c ∈ d, isDigitC c = true)
    (hb : nb rest = true) : spanDigits (d ++ rest) = (d, rest) := by
  induction d with
  | nil =>
    cases rest with
    | nil => rfl
    | cons c cs =>
      simp only [nb, Bool.not_eq_true'] at hb
      simp [spanDigits, hb]
  | cons c cs ih =>
    have hc := hd c (List.mem_cons_self c cs)
    have ih' := ih (fun x hx => hd x (List.mem_cons_of_mem c hx))
    simp [spanDigits, hc, ih']

theorem readNat_natChars (n : Nat) (rest : List Char) (hb : nb rest = true) :
    readNat (natChars n ++ rest) = some (n, rest) := by
  rw [readNat, spanDigits_append _ _ (natChars_digits n) hb]
  simp [natChars_ne_nil, digitsToNat_natChars]

theorem expectChars_self (pat rest : List Char) :
    expectChars pat (pat ++ rest) = some rest := by
  induction pat with
  | nil => rfl
  | cons e es ih => simp [expectChars, ih]

theorem parseStrBody_esc (cs rest : List Char) :
    parseStrBody (escChars cs ++ '"' :: rest) = some (cs, rest) := by
  induction cs with
  | nil => simp [escChars, parseStrBody.eq_def]
  | cons c cs ih =>
    cases h : (c = '"' || c = '\\' : Bool) with
    | true =>
      have hu : unescChar c = c := by
        simp only [Bool.or_eq_true, decide_eq_true_eq] at h
        rcases h with rfl | rfl <;> decide
      simp only [escChars, h, if_true, List.cons_append, List.append_assoc]
      rw [parseStrBody.eq_def]
      simp [ih, hu]
    | false =>
      simp only [escChars, h, Bool.false_eq_true, if_false, List.singleton_append,
        List.cons_append]
      rw [parseStrBody.eq_def]
      simp only [Bool.or_eq_false_iff, decide_eq_false_iff_not] at h
      simp [h.1, h.2, ih]

theorem skipWs_cons_ws {c : Char} (s : List Char) (h : isWs c = true) :
    skipWs (c :: s) = skipWs s := by
  simp [skipWs, h]

theorem skipWs_cons_not {c : Char} (s : List Char) (h : isWs c = false) :
    skipWs (c :: s) = c :: s := by
  simp [skipWs, h]

theorem parseV_ws {c : Char} (f : Nat) (s : List Char) (h : isWs c = true) :
    parseV f (c :: s) = parseV f s := by
  cases f with
  | zero => rfl
  | succ g => simp only [parseV, skipWs_cons_ws s h]

theorem parseItems_ws {c : Char} (f : Nat) (s : List Char) (h : isWs c = true) :
    parseItems f (c :: s) = parseItems f s := by
  cases f with
  | zero => rfl
  | succ g => simp only [parseItems, parseV_ws g s h]

theorem nb_cons (c : Char) (r : List Char) : nb (c :: r) = !isDigitC c := rfl

theorem parseMembers_ws {c : Char} (f : Nat) (s : List Char) (h : isWs c = true) :
    parseMembers f (c :: s) = parseMembers f s := by
  cases f with
  | zero => rfl
  | succ g => simp only [parseMembers, skipWs_cons_ws s h]

theorem one_le_sizeOf_pyval (v : PyVal) : 1 ≤ sizeOf v := by
  cases v <;> simp_arith

theorem printJ_head (v : PyVal) (h : jsonValue v = true) :
    ∃ c cs, printJ v = c :: cs ∧ isWs c = false ∧ c ≠ ']' ∧ c ≠ '}' := by
  cases v with
  | noneV => exact ⟨'n', _, rfl, by decide, by decide, by decide⟩
  | boolV b =>
    cases b
    · exact ⟨'f', _, rfl, by decide, by decide, by decide⟩
    · exact ⟨'t', _, rfl, by decide, by decide, by decide⟩
  | intV n =>
    by_cases hn : n < 0
    · refine ⟨'-', natChars n.natAbs, ?_, by decide, by decide, by decide⟩
      simp [printJ, intChars, hn]
    · obtain ⟨c, cs, hcs⟩ : ∃ c cs, natChars n.natAbs = c :: cs := by
        cases hh : natChars n.natAbs with
        | nil => exact absurd hh (natChars_ne_nil _)
        | cons c cs => exact ⟨c, cs, rfl⟩
      have hd : isDigitC c = true := by
        refine natChars_digits n.natAbs c ?_
        rw [hcs]; exact List.mem_cons_self _ _
      refine ⟨c, cs, ?_, digit_not_ws hd, digit_ne hd (by decide), digit_ne hd (by decide)⟩
      simp [printJ, intChars, hn, hcs]
  | floatV q => simp [jsonValue] at h
  | datetimeV s => simp [jsonValue] at h
  | dateV s => simp [jsonValue] at h
  | strV s => exact ⟨'"', _, rfl, by decide, by decide, by decide⟩
  | listV xs => exact ⟨'[', _, rfl, by decide, by decide, by decide⟩
  | dictV kvs => exact ⟨'{', _, rfl, by decide, by decide, by decide⟩

theorem printItems_decomp (x : PyVal) (t : List PyVal) :
    ∃ z, printItems (x :: t) = printJ x ++ z := by
  cases t with
  | nil => exact ⟨[], by simp [printItems]⟩
  | cons y ys => exact ⟨_, rfl⟩

theorem printMembers_decomp (k : String) (v : PyVal) (t : List (String × PyVal)) :
    ∃ z, printMembers ((k, v) :: t) = '"' :: z := by
  cases t with
  | nil => exact ⟨_, rfl⟩
  | cons m ms => exact ⟨_, rfl⟩

mutual

/-- Fuel needed by `parseV` on the printed text of a value. -/
def needV : PyVal → Nat
  | .listV [] => 1
  | .listV (x :: t) => 1 + needI (x :: t)
  | .dictV [] => 1
  | .dictV (kv :: t) => 1 + needM (kv :: t)
  | .noneV | .boolV _ | .intV _ | .floatV _ | .strV _ | .datetimeV _ | .dateV _ => 1

/-- Fuel needed by `parseItems` on printed array items. -/
def needI : List PyVal → Nat
  | [] => 0
  | x :: t => 1 + needV x + needI t

/-- Fuel needed by `parseMembers` on printed object members. -/
def needM : List (String × PyVal) → Nat
  | [] => 0
  | (_, v) :: t => 1 + needV v + needM t

end

theorem one_le_needV (v : PyVal) : 1 ≤ needV v := by
  cases v with
  | listV xs => cases xs <;> simp [needV]
  | dictV kvs => cases kvs <;> simp [needV]
  | noneV => simp [needV]
  | boolV b => simp [needV]
  | intV n => simp [needV]
  | floatV q => simp [needV]
  | strV s => simp [needV]
  | datetimeV s => simp [needV]
  | dateV s => simp [needV]

theorem parse_print_aux (f : Nat) :
    (∀ v rest, jsonValue v = true → nb rest = true → needV v ≤ f →
      parseV f (printJ v ++ rest) = some (v, rest)) ∧
    (∀ xs rest, jsonValueItems xs = true → xs ≠ [] → needI xs ≤ f →
      parseItems f (printItems xs ++ ']' :: rest) = some (xs, rest)) ∧
    (∀ kvs rest, jsonValueMembers kvs = true → kvs ≠ [] → needM kvs ≤ f →
      parseMembers f (printMembers kvs ++ '}' :: rest) = some (kvs, rest)) := by
  induction f using Nat.strong_induction_on with
  | _ f IH =>
  obtain _ | f := f
  · refine ⟨?_, ?_, ?_⟩
    · intro v _ _ _ hs; have := one_le_needV v; omega
    · intro xs _ _ hne hs
      cases xs with
      | nil => exact absurd rfl hne
      | cons x t => simp [needI] at hs
    · intro kvs _ _ hne hs
      cases kvs with
      | nil => exact absurd rfl hne
      | cons kv t => obtain ⟨k, v⟩ := kv; simp [needM] at hs
  · have IHA := (IH f (Nat.lt_succ_self f)).1
    have IHB := (IH f (Nat.lt_succ_self f)).2.1
    have IHC := (IH f (Nat.lt_succ_self f)).2.2
    refine ⟨?_, ?_, ?_⟩
    · intro v rest hv hb hs
      cases v with
      | noneV =>
        simp only [printJ, List.cons_append, List.nil_append]
        simp [parseV, skipWs, isWs, classify, expectChars]
      | boolV b =>
        cases b <;>
        · simp only [printJ, List.cons_append, List.nil_append]
          simp [parseV, skipWs, isWs, classify, expectChars]
      | intV n =>
        by_cases hn : n < 0
        · have hpr : printJ (.intV n) = '-' :: natChars n.natAbs := by
            simp [printJ, intChars, hn]
          rw [hpr, List.cons_append]
          simp only [parseV]
          rw [skipWs_cons_not _ (by decide)]
          simp [classify]
          rw [readNat_natChars _ _ hb]
          simp [Int.natCast_natAbs, abs_of_nonpos (le_of_lt hn)]
        · obtain ⟨c, cs, hcs⟩ : ∃ c cs, natChars n.natAbs = c :: cs := by
            cases hh : natChars n.natAbs with
            | nil => exact absurd hh (natChars_ne_nil _)
            | cons c cs => exact ⟨c, cs, rfl⟩
          have hd : isDigitC c = true := by
            refine natChars_digits n.natAbs c ?_
            rw [hcs]; exact List.mem_cons_self _ _
          have hpr : printJ (.intV n) = natChars n.natAbs := by
            simp [printJ, intChars, hn]
          rw [hpr, hcs, List.cons_append]
          simp only [parseV]
          rw [skipWs_cons_not _ (digit_not_ws hd)]
          simp only [classify_digit hd]
          rw [show c :: (cs ++ rest) = natChars n.natAbs ++ rest from by rw [hcs]; rfl]
          rw [readNat_natChars _ _ hb]
          simp [Int.natCast_natAbs, abs_of_nonneg (le_of_not_lt hn)]
      | floatV q => simp [jsonValue] at hv
      | datetimeV s => simp [jsonValue] at hv
      | dateV s => simp [jsonValue] at hv
      | strV s =>
        simp only [printJ, List.cons_append, List.append_assoc, List.singleton_append]
        simp only [parseV]
        rw [skipWs_cons_not _ (by decide)]
        simp [classify, parseStrBody_esc]
      | listV xs =>
        cases xs with
        | nil =>
          simp only [printJ, printItems, List.nil_append, List.cons_append]
          simp only [parseV]
          rw [skipWs_cons_not _ (by decide)]
          simp only [classify]
          simp
          rw [skipWs_cons_not _ (by decide)]
          simp
        | cons x t =>
          have hv' : jsonValueItems (x :: t) = true := by simpa [jsonValue] using hv
          have hx : jsonValue x = true := by
            simp only [jsonValueItems, Bool.and_eq_true] at hv'; exact hv'.1
          obtain ⟨z, hz⟩ := printItems_decomp x t
          obtain ⟨c, cs, hhd, hnws, hne1, _hne2⟩ := printJ_head x hx
          have hsz : needI (x :: t) ≤ f := by simp only [needV] at hs; omega
          have harg : printJ (.listV (x :: t)) ++ rest
              = '[' :: (printItems (x :: t) ++ ']' :: rest) := by
            simp [printJ]
          rw [harg]
          simp only [parseV]
          rw [skipWs_cons_not _ (by decide)]
          simp
          have hexp : printItems (x :: t) ++ ']' :: rest = c :: (cs ++ (z ++ ']' :: rest)) := by
            rw [hz, hhd]; simp
          rw [hexp, skipWs_cons_not _ hnws]
          simp only [hne1, if_false, reduceIte]
          rw [← hexp, IHB (x :: t) rest hv' (List.cons_ne_nil x t) hsz]
          rfl
      | dictV kvs =>
        cases kvs with
        | nil =>
          simp only [printJ, printMembers, List.nil_append, List.cons_append]
          simp only [parseV]
          rw [skipWs_cons_not _ (by decide)]
          simp only [classify]
          simp
          rw [skipWs_cons_not _ (by decide)]
          simp
        | cons kv t =>
          obtain ⟨k, v⟩ := kv
          have hv' : jsonValueMembers ((k, v) :: t) = true := by simpa [jsonValue] using hv
          obtain ⟨z, hz⟩ := printMembers_decomp k v t
          have hsz : needM ((k, v) :: t) ≤ f := by simp only [needV] at hs; omega
          have harg : printJ (.dictV ((k, v) :: t)) ++ rest
              = '{' :: (printMembers ((k, v) :: t) ++ '}' :: rest) := by
            simp [printJ]
          rw [harg]
          simp only [parseV]
          rw [skipWs_cons_not _ (by decide)]
          simp
          have hexp : printMembers ((k, v) :: t) ++ '}' :: rest = '"' :: (z ++ '}' :: rest) := by
            rw [hz]; simp
          rw [hexp, skipWs_cons_not _ (by decide)]
          simp only [reduceIte]
          rw [← hexp, IHC ((k, v) :: t) rest hv' (List.cons_ne_nil _ t) hsz]
          rfl
    · intro xs rest hxs hne hs
      cases xs with
      | nil => exact absurd rfl hne
      | cons x t =>
        have hx : jsonValue x = true := by
          simp only [jsonValueItems, Bool.and_eq_true] at hxs; exact hxs.1
        have ht : jsonValueItems t = true := by
          simp only [jsonValueItems, Bool.and_eq_true] at hxs; exact hxs.2
        cases t with
        | nil =>
          have hpi : printItems [x] = printJ x := by simp [printItems]
          rw [hpi]
          simp only [parseItems]
          rw [IHA x (']' :: rest) hx (by rw [nb_cons]; decide)
            (by simp only [needI] at hs; omega)]
          rw [Option.bind_eq_bind, Option.some_bind, skipWs_cons_not _ (by decide)]
          simp
        | cons y ys =>
          have hpi : printItems (x :: y :: ys) ++ ']' :: rest
              = printJ x ++ (',' :: ' ' :: (printItems (y :: ys) ++ ']' :: rest)) := by
            simp [printItems]
          rw [hpi]
          simp only [parseItems]
          rw [IHA x _ hx (by rw [nb_cons]; decide) (by simp only [needI] at hs; omega)]
          rw [Option.bind_eq_bind, Option.some_bind, skipWs_cons_not _ (by decide)]
          simp only [reduceIte]
          rw [parseItems_ws f _ (by decide),
            IHB (y :: ys) rest ht (List.cons_ne_nil y ys)
              (by simp only [needI] at hs ⊢; omega)]
          rfl
    · intro kvs rest hkvs hne hs
      cases kvs with
      | nil => exact absurd rfl hne
      | cons kv t =>
        obtain ⟨k, v⟩ := kv
        have hv' : jsonValue v = true := by
          simp only [jsonValueMembers, Bool.and_eq_true] at hkvs; exact hkvs.1
        have ht : jsonValueMembers t = true := by
          simp only [jsonValueMembers, Bool.and_eq_true] at hkvs; exact hkvs.2
        cases t with
        | nil =>
          have hpm : printMembers [(k, v)] ++ '}' :: rest
              = '"' :: (escChars k.data ++ '"' :: (':' :: ' ' :: (printJ v ++ '}' :: rest))) := by
            simp [printMembers]
          rw [hpm]
          simp only [parseMembers]
          rw [skipWs_cons_not _ (by decide)]
          simp only [reduceIte]
          rw [parseStrBody_esc, Option.bind_eq_bind, Option.some_bind,
            skipWs_cons_not _ (by decide)]
          simp only [reduceIte]
          rw [parseV_ws f _ (by decide),
            IHA v ('}' :: rest) hv' (by rw [nb_cons]; decide)
              (by simp only [needM] at hs; omega)]
          rw [Option.bind_eq_bind, Option.some_bind, skipWs_cons_not _ (by decide)]
          simp
        | cons m ms =>
          have hpm : printMembers ((k, v) :: m :: ms) ++ '}' :: rest
              = '"' :: (escChars k.data ++ '"' :: (':' :: ' ' ::
                  (printJ v ++ (',' :: ' ' :: (printMembers (m :: ms) ++ '}' :: rest))))) := by
            simp [printMembers]
          rw [hpm]
          simp only [parseMembers]
          rw [skipWs_cons_not _ (by decide)]
          simp only [reduceIte]
          rw [parseStrBody_esc, Option.bind_eq_bind, Option.some_bind,
            skipWs_cons_not _ (by decide)]
          simp only [reduceIte]
          rw [parseV_ws f _ (by decide),
            IHA v _ hv' (by rw [nb_cons]; decide) (by simp only [needM] at hs; omega)]
          rw [Option.bind_eq_bind, Option.some_bind, skipWs_cons_not _ (by decide)]
          simp only [reduceIte]
          rw [parseMembers_ws f _ (by decide),
            IHC (m :: ms) rest ht (List.cons_ne_nil m ms)
              (by simp only [needM] at hs ⊢; omega)]
          rfl

theorem need_le_len_aux : ∀ n : Nat,
    (∀ v : PyVal, sizeOf v ≤ n → needV v ≤ (printJ v).length + 1) ∧
    (∀ xs : List PyVal, sizeOf xs ≤ n → xs ≠ [] → needI xs ≤ (printItems xs).length + 2) ∧
    (∀ kvs : List (String × PyVal), sizeOf kvs ≤ n → kvs ≠ [] →
      needM kvs ≤ (printMembers kvs).length + 2) := by
  intro n
  induction n using Nat.strong_induction_on with
  | _ n IH =>
  refine ⟨?_, ?_, ?_⟩
  · intro v hs
    cases v with
    | listV xs =>
      cases xs with
      | nil => simp [needV]
      | cons x t =>
        have h2 := (IH (sizeOf (x :: t)) (by simp at hs ⊢; omega)).2.1 (x :: t) le_rfl
          (List.cons_ne_nil x t)
        simp only [needV, printJ, List.length_cons, List.length_append,
          List.length_singleton]
        omega
    | dictV kvs =>
      cases kvs with
      | nil => simp [needV]
      | cons kv t =>
        have h2 := (IH (sizeOf (kv :: t)) (by simp at hs ⊢; omega)).2.2 (kv :: t) le_rfl
          (List.cons_ne_nil kv t)
        simp only [needV, printJ, List.length_cons, List.length_append,
          List.length_singleton]
        omega
    | noneV => simp [needV]
    | boolV b => simp [needV]
    | intV m => simp [needV]
    | floatV q => simp [needV]
    | strV s => simp [needV]
    | datetimeV s => simp [needV]
    | dateV s => simp [needV]
  · intro xs hs hne
    cases xs with
    | nil => exact absurd rfl hne
    | cons x t =>
      have hx := (IH (sizeOf x) (by simp at hs ⊢; omega)).1 x le_rfl
      cases t with
      | nil =>
        simp only [needI, printItems] at hx ⊢
        omega
      | cons y ys =>
        have ht := (IH (sizeOf (y :: ys)) (by simp at hs ⊢; omega)).2.1 (y :: ys) le_rfl
          (List.cons_ne_nil y ys)
        simp only [needI, printItems, List.length_append, List.length_cons] at ht ⊢
        omega
  · intro kvs hs hne
    cases kvs with
    | nil => exact absurd rfl hne
    | cons kv t =>
      obtain ⟨k, v⟩ := kv
      have hx := (IH (sizeOf v) (by simp at hs ⊢; omega)).1 v le_rfl
      cases t with
      | nil =>
        simp only [needM, printMembers, List.length_cons, List.length_append] at hx ⊢
        omega
      | cons m ms =>
        have ht := (IH (sizeOf (m :: ms)) (by simp at hs ⊢; omega)).2.2 (m :: ms) le_rfl
          (List.cons_ne_nil m ms)
        simp only [needM, printMembers, List.length_append, List.length_cons] at ht ⊢
        omega

theorem jsonValue_ready_aux : ∀ n : Nat,
    (∀ v : PyVal, sizeOf v ≤ n → jsonValue v = true → jsonReady v = true) ∧
    (∀ xs : List PyVal, sizeOf xs ≤ n → jsonValueItems xs = true → jsonReadyItems xs = true) ∧
    (∀ kvs : List (String × PyVal), sizeOf kvs ≤ n →
      jsonValueMembers kvs = true → jsonReadyMembers kvs = true) := by
  intro n
  induction n using Nat.strong_induction_on with
  | _ n IH =>
  refine ⟨?_, ?_, ?_⟩
  · intro v hs hv
    cases v with
    | listV xs =>
      simp only [jsonValue] at hv
      simp only [jsonReady]
      cases xs with
      | nil => rfl
      | cons x t => exact (IH (sizeOf (x :: t)) (by simp at hs ⊢; omega)).2.1 _ le_rfl hv
    | dictV kvs =>
      simp only [jsonValue] at hv
      simp only [jsonReady]
      cases kvs with
      | nil => rfl
      | cons kv t => exact (IH (sizeOf (kv :: t)) (by simp at hs ⊢; omega)).2.2 _ le_rfl hv
    | noneV => rfl
    | boolV b => rfl
    | intV m => rfl
    | floatV q => simp [jsonValue] at hv
    | strV s => rfl
    | datetimeV s => simp [jsonValue] at hv
    | dateV s => simp [jsonValue] at hv
  · intro xs hs hv
    cases xs with
    | nil => rfl
    | cons x t =>
      simp only [jsonValueItems, Bool.and_eq_true] at hv
      simp only [jsonReadyItems, Bool.and_eq_true]
      exact ⟨(IH (sizeOf x) (by simp at hs ⊢; omega)).1 x le_rfl hv.1,
        (IH (sizeOf t) (by simp at hs ⊢; omega)).2.1 t le_rfl hv.2⟩
  · intro kvs hs hv
    cases kvs with
    | nil => rfl
    | cons kv t =>
      obtain ⟨k, v⟩ := kv
      simp only [jsonValueMembers, Bool.and_eq_true] at hv
      simp only [jsonReadyMembers, Bool.and_eq_true]
      exact ⟨(IH (sizeOf v) (by simp at hs ⊢; omega)).1 v le_rfl hv.1,
        (IH (sizeOf t) (by simp at hs ⊢; omega)).2.2 t le_rfl hv.2⟩

/-- A float-free serializable Python value survives the `json.dumps` /
`json.loads` round trip unchanged. -/
theorem jsonLoads_dumps (v : PyVal) (hv : jsonValue v = true) :
    jsonDumps v = some (String.mk (printJ v)) ∧
    jsonLoads (String.mk (printJ v)) = some v := by
  constructor
  · have hr : jsonReady v = true := (jsonValue_ready_aux (sizeOf v)).1 v le_rfl hv
    simp [jsonDumps, hr]
  · have hneed : needV v ≤ (printJ v).length + 1 := (need_le_len_aux (sizeOf v)).1 v le_rfl
    have hmain := (parse_print_aux ((printJ v).length + 1)).1 v [] hv rfl hneed
    rw [List.append_nil] at hmain
    have hdata : (String.mk (printJ v)).data = printJ v := rfl
    simp [jsonLoads, hdata, hmain, skipWs]

/-! ## Storage state machine

One `Storage` value models one initialized `SQLiteLocalFirstStorage`
instance: the registered schema dict, the SQLite tables (each remembering
the schema it was created with, since `CREATE TABLE IF NOT EXISTS` freezes
the column set), the `_pending_changes` table and its AUTOINCREMENT
counter.  Each mutating operation returns its result, the post-state, and
the list of committed transactions (one `List Write` per `conn.commit()`),
so that atomicity claims can be read off the trace.  A raised Python
exception is an `Except.error`; the returned state keeps everything
committed before the raise. -/

/-- Python exceptions that can escape the storage layer.  The first five are
the `errors.py` taxonomy (subclasses of `StorageError`); the rest are
built-in/driver exceptions outside it. -/
inductive DbErr where
  | notFound (collection : String) (entity_id : PyVal)
  | schemaError (msg : String)
  | syncError (msg : String)
  | conflictError (msg : String)
  | notSupported (msg : String)
  | integrityError
  | operationalError (msg : String)
  | typeError
  | keyError
  | valueError

/-- Whether the exception belongs to the documented `StorageError` taxonomy
of `errors.py`. -/
def isStorageTaxonomy : DbErr → Bool
  | .notFound _ _ | .schemaError _ | .syncError _ | .conflictError _ | .notSupported _ => true
  | .integrityError | .operationalError _ | .typeError | .keyError | .valueError => false

/-- One write inside a committed transaction. -/
inductive Write where
  | entityInsert (collection : String)
  | entityUpdate (collection : String)
  | changeAppend (collection : String)
deriving DecidableEq, Repr

/-- A committed transaction: the writes between two `conn.commit()` calls. -/
abbrev Txn := List Write

/-- A physical row of a collection table: stored declared-column values
(absent columns read as NULL) plus the metadata columns. -/
structure Row where
  fields : List (String × SqlVal)
  created_at : String
  updated_at : String
  deleted : Int
  version : Int
deriving DecidableEq, Repr

/-- A collection table.  `createdWith` is the schema the table was created
with; it fixes the column set and the PRIMARY KEY column. -/
structure Table where
  createdWith : Schema
  rows : List Row
deriving DecidableEq, Repr

/-- A row of the `_pending_changes` table. -/
structure PendingRow where
  rowid : Nat
  collection : String
  entity_id : SqlVal
  operation : String
  data : String
  timestamp : String
deriving DecidableEq, Repr

/-- State of one initialized storage instance. -/
structure Storage where
  config : Option StorageConfig
  schemas : List (String × Schema)
  tables : List (String × Table)
  pending : List PendingRow
  nextChangeId : Nat

/-- State right after `initialize(config)` (system tables created, nothing
registered). -/
def initStorage (cfg : StorageConfig) : Storage :=
  ⟨some cfg, [], [], [], 1⟩

/-- Association-list update with Python-dict assignment semantics. -/
def alistSet {α : Type} (l : List (String × α)) (k : String) (v : α) : List (String × α) :=
  if (l.find? (fun kv => kv.1 = k)).isSome then
    l.map (fun kv => if kv.1 = k then (k, v) else kv)
  else l ++ [(k, v)]

/-- How the sqlite3 driver binds a Python parameter.  Lists/dicts are not
bindable in Python (ProgrammingError); the claims never bind them, and they
are mapped to NULL here.  `datetime`/`date` bind through the default text
adapters. -/
def pyToSql : PyVal → SqlVal
  | .noneV => .null
  | .boolV b => .int (if b then 1 else 0)
  | .intV n => .int n
  | .floatV q => .real q
  | .strV s => .text s
  | .datetimeV iso => .text iso
  | .dateV iso => .text iso
  | .listV _ => .null
  | .dictV _ => .null

/-- Python truthiness of a value (`if value:`). -/
def truthy : PyVal → Bool
  | .noneV => false
  | .boolV b => b
  | .intV n => n ≠ 0
  | .floatV q => q ≠ 0
  | .strV s => s ≠ ""
  | .datetimeV _ => true
  | .dateV _ => true
  | .listV xs => !xs.isEmpty
  | .dictV kvs => !kvs.isEmpty

/-- `_serialize_value(value, field_type)`: storage representation, or
`Option.none` for the TypeError `json.dumps` raises on non-serializable
input. -/
def serialize_value (value : PyVal) (field_type : FieldType) : Option SqlVal :=
  match value with
  | .noneV => some .null
  | _ =>
    match field_type with
    | .JSON => (jsonDumps value).map .text
    | .BOOLEAN => some (.int (if truthy value then 1 else 0))
    | .DATETIME =>
      match value with
      | .datetimeV iso => some (.text iso)
      | _ => some (pyToSql value)
    | .DATE =>
      match value with
      | .datetimeV iso => some (.text iso)
      | .dateV iso => some (.text iso)
      | _ => some (pyToSql value)
    | _ => some (pyToSql value)

/-- `int()` truncation toward zero of a rational (CPython `int(float)`). -/
def ratTrunc (q : ℚ) : Int :=
  if q < 0 then -((((-q.num).toNat / q.den : Nat)) : Int) else ((q.num.toNat / q.den : Nat) : Int)

/-- Python truthiness of a stored value (`bool(value)`). -/
def sqlTruthy : SqlVal → Bool
  | .null => false
  | .int n => n ≠ 0
  | .real q => q ≠ 0
  | .text s => s ≠ ""

/-- `int(s)` on text: optional sign, then digits only. -/
def pyIntOfChars (s : List Char) : Option Int :=
  let core : List Char → Option Nat := fun cs =>
    let p := spanDigits cs
    if p.1 ≠ [] && p.2 = [] then some (digitsToNat p.1) else Option.none
  match s with
  | '-' :: r => (core r).map (fun n => -(n : Int))
  | '+' :: r => (core r).map (fun n => (n : Int))
  | _ => (core s).map (fun n => (n : Int))

/-- `_deserialize_value(value, field_type)`: Python value read back, or
`Option.none` when the Python code would raise (bad JSON text, non-numeric
text under `int()`; decimal float literals are outside the model). -/
def deserialize_value (value : SqlVal) (field_type : FieldType) : Option PyVal :=
  match value with
  | .null => some .noneV
  | _ =>
    match field_type with
    | .JSON =>
      match value with
      | .text s => jsonLoads s
      | _ => some (sqlToPy value)
    | .BOOLEAN => some (.boolV (sqlTruthy value))
    | .INTEGER =>
      match value with
      | .int n => some (.intV n)
      | .real q => some (.intV (ratTrunc q))
      | .text s => (pyIntOfChars s.data).map .intV
      | .null => some .noneV
    | .FLOAT =>
      match value with
      | .int n => some (.floatV (n : ℚ))
      | .real q => some (.floatV q)
      | .text _ => Option.none
      | .null => some .noneV
    | _ => some (sqlToPy value)
where
  /-- How the sqlite3 driver surfaces a stored value to Python. -/
  sqlToPy : SqlVal → PyVal
    | .null => .noneV
    | .int n => .intV n
    | .real q => .floatV q
    | .text s => .strV s

/-- Declared column names of a table plus the metadata columns (the keys of
a `SELECT *` row). -/
def columnNames (tbl : Table) : List String :=
  tbl.createdWith.fields.map (·.1) ++ ["_created_at", "_updated_at", "_deleted", "_version"]

/-- Value of a named column in a physical row (absent stored value reads as
NULL). -/
def colValFull (tbl : Table) (row : Row) (f : String) : SqlVal :=
  if (tbl.createdWith.fields.map (·.1)).contains f then (alistGet row.fields f).getD .null
  else if f = "_created_at" then .text row.created_at
  else if f = "_updated_at" then .text row.updated_at
  else if f = "_deleted" then .int row.deleted
  else if f = "_version" then .int row.version
  else .null

/-- SQL `=` comparison as used in WHERE clauses: NULL compares false,
INTEGER and REAL compare numerically, TEXT compares exactly. -/
def sqlEq : SqlVal → SqlVal → Bool
  | .null, _ => false
  | _, .null => false
  | .int a, .int b => a = b
  | .int a, .real b => (a : ℚ) = b
  | .real a, .int b => a = (b : ℚ)
  | .real a, .real b => a = b
  | .text a, .text b => a = b
  | _, _ => false

/-- `_row_to_entity(row, schema)`: deserialized declared fields present
among the row's columns, then `_created_at`, `_updated_at`, `_version`. -/
def row_to_entity (tbl : Table) (sch : Schema) (row : Row) : Option Dict :=
  let base := sch.fields.foldl (fun acc fv =>
    match acc with
    | Option.none => Option.none
    | some d =>
      if (columnNames tbl).contains fv.1 then
        match deserialize_value (colValFull tbl row fv.1) fv.2 with
        | some v => some (d ++ [(fv.1, v)])
        | Option.none => Option.none
      else some d) (some [])
  match base with
  | some d =>
    some (d ++ [("_created_at", .strV row.created_at),
      ("_updated_at", .strV row.updated_at), ("_version", .intV row.version)])
  | Option.none => Option.none

/-- `supports_sync`: true iff initialized with a `backend_url`. -/
def supports_sync (s : Storage) : Bool :=
  match s.config with
  | some cfg => cfg.backend_url.isSome
  | Option.none => false

/-- `_validate_schema(schema)`. -/
def validate_schema (sch : Schema) : Except DbErr Unit :=
  if sch.name = "" then .error (.schemaError "Schema name is required")
  else if sch.fields = [] then .error (.schemaError "Schema must have at least one field")
  else if (sch.fields.map (·.1)).contains sch.primary_key = false then
    .error (.schemaError "Primary key not in fields")
  else
    match sch.vector_field with
    | some vf =>
      if vf ≠ "" && ((sch.fields.map (·.1)).contains vf = false) then
        .error (.schemaError "Vector field not in fields")
      else .ok ()
    | Option.none => .ok ()

/-- `register_collection(schema)`: validate, store the schema in the dict,
`CREATE TABLE IF NOT EXISTS`. -/
def register_collection (s : Storage) (sch : Schema) : Except DbErr Unit × Storage :=
  match validate_schema sch with
  | .error e => (.error e, s)
  | .ok _ =>
    let s1 := { s with schemas := alistSet s.schemas sch.name sch }
    match alistGet s1.tables sch.name with
    | some _ => (.ok (), s1)
    | Option.none => (.ok (), { s1 with tables := s1.tables ++ [(sch.name, ⟨sch, []⟩)] })

/-- `_ensure_collection(collection)`. -/
def ensure_collection (s : Storage) (c : String) : Except DbErr Schema :=
  match alistGet s.schemas c with
  | some sch => .ok sch
  | Option.none => .error (.schemaError ("Collection not registered: " ++ c))

/-- Replace one collection's table. -/
def setTable (s : Storage) (c : String) (tbl : Table) : Storage :=
  { s with tables := s.tables.map (fun ct => if ct.1 = c then (c, tbl) else ct) }

/-- `get(collection, entity_id)`: the first non-deleted row matching the
current schema's primary-key column, as an entity. -/
def getRun (s : Storage) (c : String) (entity_id : PyVal) : Except DbErr (Option Dict) :=
  match ensure_collection s c with
  | .error e => .error e
  | .ok sch =>
    match alistGet s.tables c with
    | Option.none => .error (.operationalError "no such table")
    | some tbl =>
      if (columnNames tbl).contains sch.primary_key = false then
        .error (.operationalError "no such column")
      else
        match tbl.rows.find? (fun r =>
            sqlEq (colValFull tbl r sch.primary_key) (pyToSql entity_id) && r.deleted == 0) with
        | Option.none => .ok Option.none
        | some row =>
          match row_to_entity tbl sch row with
          | some e => .ok (some e)
          | Option.none => .error .valueError

/-- `_track_change(collection, entity_id, operation, data)`: appends one
`_pending_changes` row in its own transaction, but only when
`supports_sync` holds. -/
def track_change (s : Storage) (c : String) (entity_id : PyVal) (operation : String)
    (data : Dict) (now : String) : Except DbErr Unit × Storage × List Txn :=
  if supports_sync s = false then (.ok (), s, [])
  else
    match jsonDumps (.dictV data) with
    | Option.none => (.error .typeError, s, [])
    | some ds =>
      let pr : PendingRow := ⟨s.nextChangeId, c, pyToSql entity_id, operation, ds, now⟩
      (.ok (), { s with pending := s.pending ++ [pr], nextChangeId := s.nextChangeId + 1 },
        [[.changeAppend c]])

/-- Serialized (column, value) pairs for the schema fields present in the
entity, in schema order; `Option.none` when `_serialize_value` raises. -/
def serializeFields (sch : Schema) (entity : Dict) (skipPk : Bool) : Option (List (String × SqlVal)) :=
  sch.fields.foldl (fun acc fv =>
    match acc with
    | Option.none => Option.none
    | some cols =>
      if dictHas entity fv.1 && !(skipPk && fv.1 = sch.primary_key) then
        match dictGet entity fv.1 with
        | some v =>
          match serialize_value v fv.2 with
          | some sv => some (cols ++ [(fv.1, sv)])
          | Option.none => Option.none
        | Option.none => some cols
      else some cols) (some [])

/-- Effect of the INSERT on a table: one appended row with
`_created_at = _updated_at = now`, `_deleted = 0`, `_version = 1`. -/
def insertedTable (tbl : Table) (cols : List (String × SqlVal)) (now : String) : Table :=
  { tbl with rows := tbl.rows ++ [⟨cols, now, now, 0, 1⟩] }

/-- Effect of the UPDATE on a table: every row whose primary-key column
matches gets the SET columns applied, `_updated_at = now` and
`_version = _version + 1`; other rows are untouched. -/
def updatedTable (tbl : Table) (pk : String) (idv : SqlVal)
    (sets : List (String × SqlVal)) (now : String) : Table :=
  { tbl with rows := tbl.rows.map (fun r =>
      if sqlEq (colValFull tbl r pk) idv then
        let fs2 := sets.foldl (fun fs kv => alistSet fs kv.1 kv.2) r.fields
        { r with fields := fs2, updated_at := now, version := r.version + 1 }
      else r) }

/-- `_insert_entity`: one INSERT committed in its own transaction, then
`_track_change("create")` in a second transaction. -/
def insert_entity (s : Storage) (c : String) (entity : Dict) (sch : Schema) (now : String) :
    Except DbErr Unit × Storage × List Txn :=
  match alistGet s.tables c with
  | Option.none => (.error (.operationalError "no such table"), s, [])
  | some tbl =>
    match serializeFields sch entity false with
    | Option.none => (.error .typeError, s, [])
    | some cols =>
      if !(cols.all (fun kv => (columnNames tbl).contains kv.1)) then
        (.error (.operationalError "no such column"), s, [])
      else
        let pkField := tbl.createdWith.primary_key
        let newPk := (alistGet cols pkField).getD .null
        if tbl.rows.any (fun r => sqlEq (colValFull tbl r pkField) newPk) then
          (.error .integrityError, s, [])
        else
          let s1 := setTable s c (insertedTable tbl cols now)
          match dictGet entity sch.primary_key with
          | Option.none => (.error .keyError, s1, [[.entityInsert c]])
          | some pkv =>
            let (r2, s2, tx2) := track_change s1 c pkv "create" entity now
            (r2, s2, [[.entityInsert c]] ++ tx2)

/-- `_update_entity`: one UPDATE committed in its own transaction, then
`_track_change("update")` in a second transaction. -/
def update_entity (s : Storage) (c : String) (entity_id : PyVal) (entity : Dict)
    (sch : Schema) (now : String) : Except DbErr Unit × Storage × List Txn :=
  match alistGet s.tables c with
  | Option.none => (.error (.operationalError "no such table"), s, [])
  | some tbl =>
    match serializeFields sch entity true with
    | Option.none => (.error .typeError, s, [])
    | some sets =>
      if !(sets.all (fun kv => (columnNames tbl).contains kv.1))
          || (columnNames tbl).contains sch.primary_key = false then
        (.error (.operationalError "no such column"), s, [])
      else
        let s1 := setTable s c (updatedTable tbl sch.primary_key (pyToSql entity_id) sets now)
        let (r2, s2, tx2) := track_change s1 c entity_id "update" entity now
        (r2, s2, [[.entityUpdate c]] ++ tx2)

/-- Body of `save` after the id-generation step: update if `get` finds a
live row, else insert. -/
def saveResolved (s : Storage) (c : String) (entity : Dict) (sch : Schema) (now : String) :
    Except DbErr PyVal × Storage × List Txn :=
  let entity_id := (dictGet entity sch.primary_key).getD .noneV
  match getRun s c entity_id with
  | .error e => (.error e, s, [])
  | .ok (some _) =>
    match update_entity s c entity_id entity sch now with
    | (.error e, s1, tx) => (.error e, s1, tx)
    | (.ok _, s1, tx) => (.ok entity_id, s1, tx)
  | .ok Option.none =>
    match insert_entity s c entity sch now with
    | (.error e, s1, tx) => (.error e, s1, tx)
    | (.ok _, s1, tx) => (.ok entity_id, s1, tx)

/-- `save(collection, entity)`: generate an id when missing or None, then
update if `get` finds a live row, else insert. -/
def saveRun (s : Storage) (c : String) (entity : Dict) (now fresh : String) :
    Except DbErr PyVal × Storage × List Txn :=
  match ensure_collection s c with
  | .error e => (.error e, s, [])
  | .ok sch =>
    let needsId := !dictHas entity sch.primary_key ||
      (match dictGet entity sch.primary_key with
       | some .noneV => true
       | _ => false)
    let entity := if needsId then dictSet entity sch.primary_key (.strV fresh) else entity
    saveResolved s c entity sch now

/-- Effect of the soft-delete UPDATE on a table: every row whose
primary-key column matches gets `_deleted = 1` and `_updated_at = now`;
everything else (fields, created-at, version) is untouched. -/
def deleteMark (tbl : Table) (pk : String) (idv : SqlVal) (now : String) : Table :=
  { tbl with rows := tbl.rows.map (fun r =>
      if sqlEq (colValFull tbl r pk) idv then { r with deleted := 1, updated_at := now }
      else r) }

/-- `delete(collection, entity_id)`: soft delete; False when `get` sees no
live row. -/
def deleteRun (s : Storage) (c : String) (entity_id : PyVal) (now : String) :
    Except DbErr Bool × Storage × List Txn :=
  match ensure_collection s c with
  | .error e => (.error e, s, [])
  | .ok sch =>
    match getRun s c entity_id with
    | .error e => (.error e, s, [])
    | .ok Option.none => (.ok false, s, [])
    | .ok (some _) =>
      match alistGet s.tables c with
      | Option.none => (.error (.operationalError "no such table"), s, [])
      | some tbl =>
        let s1 := setTable s c (deleteMark tbl sch.primary_key (pyToSql entity_id) now)
        let (r2, s2, tx2) := track_change s1 c entity_id "delete" [] now
        match r2 with
        | .ok _ => (.ok true, s2, [[.entityUpdate c]] ++ tx2)
        | .error e => (.error e, s2, [[.entityUpdate c]] ++ tx2)

/-- `update(collection, entity_id, changes)`: NotFound when absent, else
merge over the current entity, delegate to `save`, and re-read. -/
def updateRun (s : Storage) (c : String) (entity_id : PyVal) (changes : Dict)
    (now fresh : String) : Except DbErr (Option Dict) × Storage × List Txn :=
  match ensure_collection s c with
  | .error e => (.error e, s, [])
  | .ok _ =>
    match getRun s c entity_id with
    | .error e => (.error e, s, [])
    | .ok Option.none => (.error (.notFound c entity_id), s, [])
    | .ok (some existing) =>
      let updated := dictMerge existing changes
      let (r, s1, tx) := saveRun s c updated now fresh
      match r with
      | .error e => (.error e, s1, tx)
      | .ok _ =>
        match getRun s1 c entity_id with
        | .error e => (.error e, s1, tx)
        | .ok eOpt => (.ok eOpt, s1, tx)

/-- One public mutating operation. -/
inductive Op where
  | register (sch : Schema)
  | save (c : String) (entity : Dict) (now fresh : String)
  | update (c : String) (entity_id : PyVal) (changes : Dict) (now fresh : String)
  | delete (c : String) (entity_id : PyVal) (now : String)

/-- Post-state of one operation (errors keep whatever was committed before
the raise). -/
def step (s : Storage) : Op → Storage
  | .register sch => (register_collection s sch).2
  | .save c e now fresh => (saveRun s c e now fresh).2.1
  | .update c id ch now fresh => (updateRun s c id ch now fresh).2.1
  | .delete c id now => (deleteRun s c id now).2.1

/-- States reachable from an initialized storage by public operations. -/
inductive Reachable : Storage → Prop where
  | init (cfg : StorageConfig) : Reachable (initStorage cfg)
  | step (s : Storage) (op : Op) : Reachable s → Reachable (step s op)

/-! ## Filter translation (`_build_filter_condition`) and query semantics

The SQL fragments produced by `_build_filter_condition` are modelled as a
condition AST plus an evaluator implementing SQLite WHERE semantics:
three-valued comparisons (NULL propagates, and a NULL condition excludes
the row), numeric comparison across INTEGER/REAL, storage-class ordering
NULL < numeric < TEXT, and LIKE with `%`/`_` wildcards and ASCII
case-insensitivity.  `ORDER BY` (and the row order without one) is
relational: SQLite leaves the order of equally-keyed rows undefined, so a
query result is any permutation of the matching rows consistent with the
sort keys, with LIMIT/OFFSET applied after. -/

/-- `str(value)` as interpolated into a LIKE pattern (claims only exercise
string operands). -/
def pyStr : PyVal → List Char
  | .strV s => s.data
  | .intV n => intChars n
  | .boolV true => ['T', 'r', 'u', 'e']
  | .boolV false => ['F', 'a', 'l', 's', 'e']
  | .floatV q => floatChars q
  | .noneV => ['N', 'o', 'n', 'e']
  | .datetimeV iso => iso.data
  | .dateV iso => iso.data
  | .listV xs => printJ (.listV xs)
  | .dictV kvs => printJ (.dictV kvs)

/-- `key.rsplit("__", 1)`: split at the last occurrence of `__`, or
`Option.none` when the key contains none. -/
def rsplitDunder : List Char → Option (List Char × List Char)
  | [] => Option.none
  | c :: rest =>
    match rsplitDunder rest with
    | some p => some (c :: p.1, p.2)
    | Option.none =>
      if c = '_' then
        match rest with
        | '_' :: r2 => some ([], r2)
        | _ => Option.none
      else Option.none

/-- `list(value)` over a sequence operand (`in`/`not_in`); `Option.none`
models the TypeError `len(value)` raises on non-sequences. -/
def pySeq : PyVal → Option (List PyVal)
  | .listV xs => some xs
  | .strV s => some (s.data.map (fun ch => .strV (String.mk [ch])))
  | _ => Option.none

/-- Condition AST produced by `_build_filter_condition`: one constructor per
SQL fragment the source emits. -/
inductive SqlCond where
  | cEq (f : String) (v : PyVal)
  | cNe (f : String) (v : PyVal)
  | cGt (f : String) (v : PyVal)
  | cGte (f : String) (v : PyVal)
  | cLt (f : String) (v : PyVal)
  | cLte (f : String) (v : PyVal)
  | cIn (f : String) (vs : List PyVal)
  | cNotIn (f : String) (vs : List PyVal)
  | cLike (f : String) (pattern : List Char)
  | cIsNull (f : String)
  | cIsNotNull (f : String)

/-- `_build_filter_condition(key, value)`.  `Option.none` models the
TypeError on a non-sequence `in`/`not_in` operand. -/
def buildFilterCondition (key : String) (value : PyVal) : Option SqlCond :=
  match rsplitDunder key.data with
  | Option.none => some (.cEq key value)
  | some p =>
    let field := String.mk p.1
    let op := String.mk p.2
    if op = "eq" then some (.cEq field value)
    else if op = "ne" then some (.cNe field value)
    else if op = "gt" then some (.cGt field value)
    else if op = "gte" then some (.cGte field value)
    else if op = "lt" then some (.cLt field value)
    else if op = "lte" then some (.cLte field value)
    else if op = "in" then (pySeq value).map (.cIn field)
    else if op = "not_in" then (pySeq value).map (.cNotIn field)
    else if op = "contains" then some (.cLike field ('%' :: (pyStr value ++ ['%'])))
    else if op = "starts_with" then some (.cLike field (pyStr value ++ ['%']))
    else if op = "ends_with" then some (.cLike field ('%' :: pyStr value))
    else if op = "is_null" then
      some (if truthy value then .cIsNull field else .cIsNotNull field)
    else some (.cEq key value)

/-- ASCII lower-casing (SQLite's LIKE folds only ASCII). -/
def lowerA (c : Char) : Char :=
  if 'A' ≤ c && c ≤ 'Z' then Char.ofNat (c.toNat + 32) else c

/-- Case-insensitive ASCII character comparison. -/
def charEqI (a b : Char) : Bool := lowerA a = lowerA b

/-- Does the rest of the pattern match some suffix of the text?  (`%`
consumes any run of characters.) -/
def anySuffix (f : List Char → Bool) : List Char → Bool
  | [] => f []
  | c :: s2 => f (c :: s2) || anySuffix f s2

/-- SQLite LIKE pattern matching: `%` matches any run, `_` any single
character, other characters ASCII-case-insensitively. -/
def likeM : List Char → List Char → Bool
  | [], s => s.isEmpty
  | p :: ps, s =>
    if p = '%' then
      anySuffix (likeM ps) s
    else
      match s with
      | [] => false
      | c :: s2 => (p = '_' || charEqI p c) && likeM ps s2

/-- Three-way comparison on a linear order. -/
def cmpv {α : Type} [LinearOrder α] (a b : α) : Ordering :=
  if a < b then .lt else if b < a then .gt else .eq

/-- SQLite storage-class rank: NULL < numeric < TEXT. -/
def sqlClass : SqlVal → Nat
  | .null => 0
  | .int _ => 1
  | .real _ => 1
  | .text _ => 2

/-- Numeric value of an INTEGER/REAL. -/
def numVal : SqlVal → ℚ
  | .int n => (n : ℚ)
  | .real q => q
  | _ => 0

/-- SQLite ordering of stored values (as in ORDER BY and `<`//`>`
comparisons): by storage class, then numerically or textually. -/
def sqlCompare (a b : SqlVal) : Ordering :=
  match cmpv (sqlClass a) (sqlClass b) with
  | .lt => .lt
  | .gt => .gt
  | .eq =>
    match a, b with
    | .text x, .text y => cmpv x y
    | .null, .null => .eq
    | _, _ => cmpv (numVal a) (numVal b)

/-- Text rendering SQLite applies when LIKE receives a non-TEXT operand. -/
def sqlTextOf : SqlVal → List Char
  | .text s => s.data
  | .int n => intChars n
  | .real q => floatChars q
  | .null => []

/-- Evaluate one condition on a row under SQL three-valued logic
(`Option.none` is SQL NULL). -/
def evalCond (tbl : Table) (row : Row) : SqlCond → Option Bool
  | .cEq f v => cmp3 (colValFull tbl row f) (pyToSql v) (fun o => o = .eq)
  | .cNe f v => cmp3 (colValFull tbl row f) (pyToSql v) (fun o => o ≠ .eq)
  | .cGt f v => cmp3 (colValFull tbl row f) (pyToSql v) (fun o => o = .gt)
  | .cGte f v => cmp3 (colValFull tbl row f) (pyToSql v) (fun o => o ≠ .lt)
  | .cLt f v => cmp3 (colValFull tbl row f) (pyToSql v) (fun o => o = .lt)
  | .cLte f v => cmp3 (colValFull tbl row f) (pyToSql v) (fun o => o ≠ .gt)
  | .cIn f vs => in3 (colValFull tbl row f) (vs.map pyToSql)
  | .cNotIn f vs => not3 (in3 (colValFull tbl row f) (vs.map pyToSql))
  | .cLike f pat =>
    match colValFull tbl row f with
    | .null => Option.none
    | a => some (likeM pat (sqlTextOf a))
  | .cIsNull f => some (colValFull tbl row f = .null)
  | .cIsNotNull f => some (colValFull tbl row f ≠ .null)
where
  /-- NULL-propagating comparison. -/
  cmp3 (a b : SqlVal) (k : Ordering → Bool) : Option Bool :=
    if a = .null || b = .null then Option.none else some (k (sqlCompare a b))
  /-- SQL `IN` under three-valued logic. -/
  in3 (a : SqlVal) (bs : List SqlVal) : Option Bool :=
    if a = .null then (if bs.isEmpty then some false else Option.none)
    else if bs.any (fun b => sqlEq a b) then some true
    else if bs.any (fun b => b = .null) then Option.none
    else some false
  /-- SQL NOT under three-valued logic. -/
  not3 : Option Bool → Option Bool
    | some b => some (!b)
    | Option.none => Option.none

/-- Validity of a condition against a table: the field must be an existing
column (else OperationalError), and an `IN`/`NOT IN` list must be nonempty
(an empty placeholder list is a SQL syntax error). -/
def condValid (tbl : Table) : SqlCond → Bool
  | .cEq f _ | .cNe f _ | .cGt f _ | .cGte f _ | .cLt f _ | .cLte f _
  | .cLike f _ | .cIsNull f | .cIsNotNull f => (columnNames tbl).contains f
  | .cIn f vs | .cNotIn f vs => (columnNames tbl).contains f && !vs.isEmpty

/-- Translate every filter item (`Option.none` when any raises). -/
def buildConds : List (String × PyVal) → Option (List SqlCond)
  | [] => some []
  | (k, v) :: rest =>
    match buildFilterCondition k v with
    | some cond => (buildConds rest).map (cond :: ·)
    | Option.none => Option.none

/-- WHERE clause of `query`/`count`: `_deleted = 0` AND all translated
conditions (a NULL conjunct excludes the row). -/
def rowMatches (tbl : Table) (conds : List SqlCond) (row : Row) : Bool :=
  (row.deleted == 0) && conds.all (fun cond => (evalCond tbl row cond).getD false)

/-- LIMIT/OFFSET semantics: negative offset acts as 0, negative limit means
no limit. -/
def applyLimit {α : Type} (limit offset : Int) (l : List α) : List α :=
  let l2 := l.drop offset.toNat
  if limit < 0 then l2 else l2.take limit.toNat

/-- `direction.lower() == "desc"` (lower-casing applied per character; the
directions in play are ASCII). -/
def dirDesc (direction : String) : Bool :=
  String.mk (direction.data.map lowerA) == "desc"

/-- Row comparison under an ORDER BY specification. -/
def cmpSpec (tbl : Table) : List (String × String) → Row → Row → Ordering
  | [], _, _ => .eq
  | (f, dir) :: rest, a, b =>
    let c := sqlCompare (colValFull tbl a f) (colValFull tbl b f)
    let c := if dirDesc dir then c.swap else c
    match c with
    | .eq => cmpSpec tbl rest a b
    | o => o

/-- A list is admissibly ordered for the sort specification (no row strictly
after a greater one; ties may appear in any order, and without ORDER BY
every order is admissible). -/
def sortedBySpec (tbl : Table) (sort : List (String × String)) (l : List Row) : Prop :=
  l.Pairwise (fun a b => cmpSpec tbl sort a b ≠ .gt)

/-- Sort fields must be existing columns. -/
def sortValid (tbl : Table) (sort : List (String × String)) : Bool :=
  sort.all (fun fd => (columnNames tbl).contains fd.1)

/-- `query(collection, filter, sort, limit, offset)` relational semantics:
`out` is a possible row result.  SQLite fixes the multiset of matching rows
and the sort keys but not the order of ties, so `out` is LIMIT/OFFSET of
some admissible ordering of the matching rows. -/
def queryValid (s : Storage) (c : String) (filter : List (String × PyVal))
    (sort : List (String × String)) (limit offset : Int) (out : List Row) : Prop :=
  ∃ sch tbl conds ordered,
    alistGet s.schemas c = some sch ∧
    alistGet s.tables c = some tbl ∧
    buildConds filter = some conds ∧
    conds.all (condValid tbl) = true ∧
    sortValid tbl sort = true ∧
    ordered.Perm (tbl.rows.filter (rowMatches tbl conds)) ∧
    sortedBySpec tbl sort ordered ∧
    out = applyLimit limit offset ordered

/-- `count(collection, filter)`: deterministic `COUNT(*)` over the same
WHERE clause. -/
def countRun (s : Storage) (c : String) (filter : List (String × PyVal)) :
    Except DbErr Int :=
  match ensure_collection s c with
  | .error e => .error e
  | .ok _ =>
    match alistGet s.tables c with
    | Option.none => .error (.operationalError "no such table")
    | some tbl =>
      match buildConds filter with
      | Option.none => .error .typeError
      | some conds =>
        if !(conds.all (condValid tbl)) then .error (.operationalError "bad filter")
        else .ok ((tbl.rows.filter (rowMatches tbl conds)).length : Int)

/-! ## Sync surface -/

/-- `types.Conflict`. -/
structure Conflict where
  collection : String
  entity_id : String
  local_version : Dict
  remote_version : Dict
  local_timestamp : String
  remote_timestamp : String

/-- `types.SyncResult`. -/
structure SyncResult where
  pushed : Int := 0
  pulled : Int := 0
  conflicts : List Conflict := []
  errors : List String := []
  sync_token : Option String := Option.none

/-- Error text used by every sync guard. -/
def noSyncMsg : String := "Sync not available. Configure backend_url."

/-- Rows sorted by the `ORDER BY timestamp` key (TEXT comparison; ties are
unconstrained because the query has no secondary sort key). -/
def tsSorted (l : List PendingRow) : Prop :=
  l.Pairwise (fun a b => a.timestamp ≤ b.timestamp)

/-- `get_pending_changes()` as a relation on results: NotSupportedError
without a backend URL, else some timestamp-ordered permutation of the
`_pending_changes` rows.  (The `Change` objects returned are an
order-preserving map of these rows, so ordering claims are stated on the
rows.) -/
def getPendingResult (s : Storage) (r : Except DbErr (List PendingRow)) : Prop :=
  (supports_sync s = false ∧ r = .error (.notSupported noSyncMsg)) ∨
  (supports_sync s = true ∧ ∃ out, r = .ok out ∧ out.Perm s.pending ∧ tsSorted out)

/-- `sync()`: guard, drain (result unused), fixed placeholder result. -/
def syncRun (s : Storage) : Except DbErr SyncResult × Storage × List Txn :=
  if supports_sync s = false then (.error (.notSupported noSyncMsg), s, [])
  else
    (.ok { errors := ["Sync not yet implemented"] }, s, [])

/-- `force_push(collection, entity_id)`. -/
def forcePushRun (s : Storage) (c : String) (entity_id : PyVal) :
    Except DbErr Unit × Storage × List Txn :=
  if supports_sync s = false then (.error (.notSupported noSyncMsg), s, [])
  else
    match getRun s c entity_id with
    | .error e => (.error e, s, [])
    | .ok Option.none => (.error (.notFound c entity_id), s, [])
    | .ok (some _) => (.error (.notSupported "Force push not yet implemented"), s, [])

/-- `force_pull(collection, entity_id)` (its arguments are unused before
the guard raises). -/
def forcePullRun (s : Storage) (_c : String) (_entity_id : PyVal) :
    Except DbErr Unit × Storage × List Txn :=
  if supports_sync s = false then (.error (.notSupported noSyncMsg), s, [])
  else (.error (.notSupported "Force pull not yet implemented"), s, [])

/-! ## Concrete fixtures used by witnesses and counterexamples -/

/-- A small registered collection schema. -/
def todoSchema : Schema :=
  { name := "todos", fields := [("id", .STRING), ("priority", .INTEGER), ("text", .STRING)] }

/-- Configuration with a remote backend URL. -/
def cfgSync : StorageConfig := { db_path := "p", backend_url := some "http://backend" }

/-- Configuration without a remote backend URL. -/
def cfgLocal : StorageConfig := { db_path := "p" }

/-- Initialized sync-capable storage with `todos` registered. -/
def sSync : Storage := (register_collection (initStorage cfgSync) todoSchema).2

/-- Initialized local-only storage with `todos` registered. -/
def sLocal : Storage := (register_collection (initStorage cfgLocal) todoSchema).2

/-- One saved entity in the local-only storage. -/
def entityA : Dict := [("id", .strV "a"), ("priority", .intV 5), ("text", .strV "Buy milk")]

/-- Local-only storage holding entity "a". -/
def sLocalA : Storage := (saveRun sLocal "todos" entityA "T1" "F1").2.1

/-- Sync-capable storage holding entity "a". -/
def sSyncA : Storage := (saveRun sSync "todos" entityA "T1" "F1").2.1

/-- The sync fixture after deleting entity "a" at time "T2". -/
def sSyncAD : Storage := (deleteRun sSyncA "todos" (.strV "a") "T2").2.1

/-- The serialized columns of `entityA` under `todoSchema`. -/
def colsA : List (String × SqlVal) :=
  [("id", .text "a"), ("priority", .int 5), ("text", .text "Buy milk")]

/-- A second fixture entity. -/
def entityB : Dict := [("id", .strV "b"), ("priority", .intV 7), ("text", .strV "Walk dog")]

/-- Sync fixture after saving "a" and "b" with the same timestamp. -/
def sSyncAB : Storage := (saveRun sSyncA "todos" entityB "T1" "F2").2.1

/-- Sync fixture after saving "a" at "T1" and "b" at "T2". -/
def sSyncAB2 : Storage := (saveRun sSyncA "todos" entityB "T2" "F2").2.1

/-- The pending row recorded for the save of entity "a" at "T1". -/
def prA : PendingRow :=
  ⟨1, "todos", .text "a", "create", String.mk (printJ (.dictV entityA)), "T1"⟩

/-- The pending row recorded for the save of entity "b" at `ts`. -/
def prB (ts : String) : PendingRow :=
  ⟨2, "todos", .text "b", "create", String.mk (printJ (.dictV entityB)), ts⟩

/-- The stored row of entity "a". -/
def rowA : Row := ⟨colsA, "T1", "T1", 0, 1⟩

/-- The serialized columns and stored row of entity "b". -/
def colsB : List (String × SqlVal) :=
  [("id", .text "b"), ("priority", .int 7), ("text", .text "Walk dog")]

def rowB : Row := ⟨colsB, "T2", "T2", 0, 1⟩

/-- The two-row table fixture. -/
def tblAB : Table := ⟨todoSchema, [rowA, rowB]⟩

/-- Ordered by the pair (timestamp, insertion sequence). -/
def pairSorted (l : List PendingRow) : Prop :=
  l.Pairwise (fun a b => a.timestamp < b.timestamp ∨
    (a.timestamp = b.timestamp ∧ a.rowid ≤ b.rowid))

/-- Rows of one collection (empty when the table does not exist). -/
def rowsOf (s : Storage) (c : String) : List Row :=
  ((alistGet s.tables c).map Table.rows).getD []

/-- The entity text that `get` returns for fixture entity "a" (fields in
schema order, then metadata). -/
def entityARead : Dict :=
  [("id", .strV "a"), ("priority", .intV 5), ("text", .strV "Buy milk"),
    ("_created_at", .strV "T1"), ("_updated_at", .strV "T1"), ("_version", .intV 1)]

/-- Claim C4 formalized as written: `delete` on an absent or deleted id is
a no-op returning False; on a live id it returns True, hides the id from
`get`, leaves every version unchanged, makes a second delete return False,
and appends one "delete" Change with an empty JSON payload. -/
def claimC4Statement : Prop :=
  ∀ (s : Storage) (c : String) (id : PyVal) (now : String),
    (getRun s c id = .ok Option.none → deleteRun s c id now = (.ok false, s, [])) ∧
    (∀ e, getRun s c id = .ok (some e) →
      ∃ s' tx pr, deleteRun s c id now = (.ok true, s', tx) ∧
        getRun s' c id = .ok Option.none ∧
        (∀ now2, deleteRun s' c id now2 = (.ok false, s', [])) ∧
        (rowsOf s' c).map Row.version = (rowsOf s c).map Row.version ∧
        s'.pending = s.pending ++ [pr] ∧ pr.operation = "delete" ∧
        pr.data = String.mk ['{', '}'])

/-- Pointwise version monotonicity between two row lists: positions that
survive keep or raise their version, and rows are only added. -/
def versionsMono (old new : List Int) : Prop :=
  old.length ≤ new.length ∧
  ∀ i : Nat, ∀ h1 : i < old.length, ∀ h2 : i < new.length,
    old.get ⟨i, h1⟩ ≤ new.get ⟨i, h2⟩

/-- Claim C1 formalized as written: every successful mutating operation
appends exactly one Change, and some single committed transaction contains
both the entity mutation and the Change append, regardless of
configuration. -/
def claimC1Statement : Prop :=
  ∀ (s : Storage) (c : String),
    (∀ entity now fresh id s' tx, saveRun s c entity now fresh = (.ok id, s', tx) →
      s'.pending.length = s.pending.length + 1 ∧
      ∃ t ∈ tx, (Write.changeAppend c) ∈ t ∧
        ((Write.entityInsert c) ∈ t ∨ (Write.entityUpdate c) ∈ t)) ∧
    (∀ id now s' tx, deleteRun s c id now = (.ok true, s', tx) →
      s'.pending.length = s.pending.length + 1 ∧
      ∃ t ∈ tx, (Write.changeAppend c) ∈ t ∧ (Write.entityUpdate c) ∈ t)

/-- Claim C2 formalized as written: every valid `get_pending_changes`
result on a sync-enabled store is ordered by the pair
(timestamp, insertion sequence). -/
def claimC2Statement : Prop :=
  ∀ (s : Storage) (r : Except DbErr (List PendingRow)),
    supports_sync s = true →
    getPendingResult s r →
    ∃ out, r = .ok out ∧ out.Perm s.pending ∧ pairSorted out

/-- Claim C9 formalized as written: for every page size, the concatenation
of enough successive limit/offset pages over an unchanged data set equals
every admissible full unpaginated result. -/
def claimC9Statement : Prop :=
  ∀ (s : Storage) (c : String) (filter : List (String × PyVal))
    (sort : List (String × String)) (m : Int) (n : Nat)
    (pages : Nat → List Row) (full : List Row),
    0 < m →
    (∀ i, i < n → queryValid s c filter sort m (m * (i : Int)) (pages i)) →
    queryValid s c filter sort (-1) 0 full →
    (full.length : Int) ≤ m * (n : Int) →
    ((List.range n).map pages).flatten = full

/-- A pattern with neither `%` nor `_`. -/
def nowild (p : List Char) : Bool := p.all (fun c => !(c == '%' || c == '_'))

/-- Claim C7 formalized as written: bare keys and unrecognized suffixes
fall back to equality, and `contains` is a (case-sensitive) substring test
on the stored text. -/
def claimC7Statement : Prop :=
  (∀ (key : String) (v : PyVal), rsplitDunder key.data = Option.none →
    buildFilterCondition key v = some (.cEq key v)) ∧
  (∀ (field op : String) (v : PyVal),
    rsplitDunder ('_' :: op.data) = Option.none →
    op ∉ (["eq", "ne", "gt", "gte", "lt", "lte", "in", "not_in", "contains",
      "starts_with", "ends_with", "is_null"] : List String) →
    buildFilterCondition (field ++ "__" ++ op) v
      = some (.cEq (field ++ "__" ++ op) v)) ∧
  (∀ (field sub : String) (tbl : Table) (row : Row) (cond : SqlCond) (cell : String),
    buildFilterCondition (field ++ "__contains") (.strV sub) = some cond →
    colValFull tbl row field = .text cell →
    evalCond tbl row cond = some (decide (sub.data <:+: cell.data)))

/-! ## Helper lemmas about the state machine -/

theorem alistGet_cons {α : Type} (k : String) (v : α) (l : List (String × α)) (c : String) :
    alistGet ((k, v) :: l) c = if k = c then some v else alistGet l c := by
  by_cases h : k = c <;> simp [alistGet, List.find?_cons, h]

theorem alistGet_map_set_self {α : Type} (l : List (String × α)) (c : String) (v : α)
    (h : (alistGet l c).isSome = true) :
    alistGet (l.map (fun kv => if kv.1 = c then (c, v) else kv)) c = some v := by
  induction l with
  | nil => simp [alistGet] at h
  | cons kv rest ih =>
    by_cases hk : kv.1 = c
    · simp [alistGet, List.find?_cons, hk]
    · rw [alistGet_cons] at h
      simp only [List.map_cons, if_neg hk]
      rw [alistGet_cons]
      rw [if_neg hk] at h ⊢
      exact ih h

theorem alistGet_map_set_ne {α : Type} (l : List (String × α)) (c c' : String) (v : α)
    (h : c' ≠ c) :
    alistGet (l.map (fun kv => if kv.1 = c then (c, v) else kv)) c' = alistGet l c' := by
  induction l with
  | nil => rfl
  | cons kv rest ih =>
    by_cases hk : kv.1 = c
    · have : kv.1 ≠ c' := by rw [hk]; exact fun e => h e.symm
      simp only [List.map_cons, if_pos hk]
      rw [alistGet_cons, alistGet_cons, if_neg (fun e => h e.symm), if_neg this, ih]
    · simp only [List.map_cons, if_neg hk]
      rw [alistGet_cons, alistGet_cons, ih]

theorem lookup_setTable_self (s : Storage) (c : String) (tbl tbl' : Table)
    (h : alistGet s.tables c = some tbl) :
    alistGet (setTable s c tbl').tables c = some tbl' := by
  apply alistGet_map_set_self
  rw [h]; rfl

theorem lookup_setTable_ne (s : Storage) (c c' : String) (tbl' : Table) (h : c' ≠ c) :
    alistGet (setTable s c tbl').tables c' = alistGet s.tables c' :=
  alistGet_map_set_ne s.tables c c' tbl' h

theorem setTable_rest (s : Storage) (c : String) (tbl' : Table) :
    (setTable s c tbl').schemas = s.schemas ∧ (setTable s c tbl').config = s.config ∧
    (setTable s c tbl').pending = s.pending ∧
    (setTable s c tbl').nextChangeId = s.nextChangeId :=
  ⟨rfl, rfl, rfl, rfl⟩

/-- Complete case analysis of `_track_change`. -/
theorem track_change_spec (s : Storage) (c : String) (id : PyVal) (op : String)
    (data : Dict) (now : String) :
    (supports_sync s = false → track_change s c id op data now = (.ok (), s, [])) ∧
    (supports_sync s = true →
      (∃ ds, jsonDumps (.dictV data) = some ds ∧
        track_change s c id op data now =
          (.ok (), { s with
            pending := s.pending ++ [⟨s.nextChangeId, c, pyToSql id, op, ds, now⟩],
            nextChangeId := s.nextChangeId + 1 }, [[.changeAppend c]])) ∨
      (jsonDumps (.dictV data) = Option.none ∧
        track_change s c id op data now = (.error .typeError, s, []))) := by
  constructor
  · intro h
    rw [track_change, h]
    rfl
  · intro h
    rw [track_change, h]
    match hd : jsonDumps (.dictV data) with
    | some ds => exact Or.inl ⟨ds, rfl, rfl⟩
    | Option.none => exact Or.inr ⟨rfl, rfl⟩

/-- The payload of a delete change is the empty JSON object. -/
theorem jsonDumps_empty_dict : jsonDumps (.dictV []) = some (String.mk ['{', '}']) := rfl

/-- `get` returning any result implies a registered schema and an existing
table with a valid primary-key column. -/
theorem getRun_ok_elim {s : Storage} {c : String} {id : PyVal} {o : Option Dict}
    (h : getRun s c id = .ok o) :
    ∃ sch tbl, alistGet s.schemas c = some sch ∧ alistGet s.tables c = some tbl ∧
      (columnNames tbl).contains sch.primary_key = true ∧
      ensure_collection s c = .ok sch := by
  unfold getRun ensure_collection at h
  split at h
  · cases h
  · next sch heq =>
    have hsch : alistGet s.schemas c = some sch := by
      split at heq
      · next hs => cases heq; exact hs
      · cases heq
    split at h
    · cases h
    · next tbl htbl =>
      split at h
      · cases h
      · next hcol =>
        exact ⟨sch, tbl, hsch, htbl, by simpa using hcol, by simp [ensure_collection, hsch]⟩

/-- `get = ok none`: no live row matches. -/
theorem getRun_ok_none_elim {s : Storage} {c : String} {id : PyVal}
    (h : getRun s c id = .ok Option.none) :
    ∃ sch tbl, alistGet s.schemas c = some sch ∧ alistGet s.tables c = some tbl ∧
      (columnNames tbl).contains sch.primary_key = true ∧
      tbl.rows.find? (fun r =>
        sqlEq (colValFull tbl r sch.primary_key) (pyToSql id) && r.deleted == 0)
        = Option.none := by
  unfold getRun ensure_collection at h
  split at h
  · cases h
  · next sch heq =>
    have hsch : alistGet s.schemas c = some sch := by
      split at heq
      · next hs => cases heq; exact hs
      · cases heq
    split at h
    · cases h
    · next tbl htbl =>
      split at h
      · cases h
      · next hcol =>
        split at h
        · next hfind => exact ⟨sch, tbl, hsch, htbl, by simpa using hcol, hfind⟩
        · next row hfind => split at h <;> cases h

/-- `get = ok (some e)`: some live row matches and deserializes to `e`. -/
theorem getRun_ok_some_elim {s : Storage} {c : String} {id : PyVal} {e : Dict}
    (h : getRun s c id = .ok (some e)) :
    ∃ sch tbl row, alistGet s.schemas c = some sch ∧ alistGet s.tables c = some tbl ∧
      (columnNames tbl).contains sch.primary_key = true ∧
      tbl.rows.find? (fun r =>
        sqlEq (colValFull tbl r sch.primary_key) (pyToSql id) && r.deleted == 0)
        = some row ∧
      row_to_entity tbl sch row = some e := by
  unfold getRun ensure_collection at h
  split at h
  · cases h
  · next sch heq =>
    have hsch : alistGet s.schemas c = some sch := by
      split at heq
      · next hs => cases heq; exact hs
      · cases heq
    split at h
    · cases h
    · next tbl htbl =>
      split at h
      · cases h
      · next hcol =>
        split at h
        · cases h
        · next row hfind =>
          split at h
          · next e2 hrte =>
            cases h
            exact ⟨sch, tbl, row, hsch, htbl, by simpa using hcol, hfind, hrte⟩
          · cases h

/-- `delete` on an absent or already-deleted id: False and no effect. -/
theorem deleteRun_absent (s : Storage) (c : String) (id : PyVal) (now : String)
    (h : getRun s c id = .ok Option.none) :
    deleteRun s c id now = (.ok false, s, []) := by
  obtain ⟨sch, tbl, hsch, htbl, hcol, hens⟩ := getRun_ok_elim h
  unfold deleteRun
  rw [hens, h]

/-- `delete` on a live id: both fine-grained outcomes, by sync
configuration. -/
theorem deleteRun_present_spec (s : Storage) (c : String) (id : PyVal) (now : String)
    (e : Dict) (h : getRun s c id = .ok (some e)) :
    ∃ sch tbl,
      alistGet s.schemas c = some sch ∧ alistGet s.tables c = some tbl ∧
      ((supports_sync s = false ∧
        deleteRun s c id now =
          (.ok true, setTable s c (deleteMark tbl sch.primary_key (pyToSql id) now),
            [[.entityUpdate c]])) ∨
       (supports_sync s = true ∧
        deleteRun s c id now =
          (.ok true,
            { setTable s c (deleteMark tbl sch.primary_key (pyToSql id) now) with
              pending := s.pending ++
                [⟨s.nextChangeId, c, pyToSql id, "delete", String.mk ['{', '}'], now⟩],
              nextChangeId := s.nextChangeId + 1 },
            [[.entityUpdate c], [.changeAppend c]]))) := by
  obtain ⟨sch, tbl, row, hsch, htbl, hcol, hfind, hrte⟩ := getRun_ok_some_elim h
  have hens : ensure_collection s c = .ok sch := by simp [ensure_collection, hsch]
  refine ⟨sch, tbl, hsch, htbl, ?_⟩
  have hs1 : supports_sync (setTable s c (deleteMark tbl sch.primary_key (pyToSql id) now))
      = supports_sync s := rfl
  cases hsync : supports_sync s with
  | false =>
    left
    refine ⟨rfl, ?_⟩
    have ht := (track_change_spec
      (setTable s c (deleteMark tbl sch.primary_key (pyToSql id) now)) c id "delete" [] now).1
      (hs1.trans hsync)
    unfold deleteRun
    rw [hens, h, htbl]
    dsimp only
    rw [ht]
    rfl
  | true =>
    right
    refine ⟨rfl, ?_⟩
    have ht := (track_change_spec
      (setTable s c (deleteMark tbl sch.primary_key (pyToSql id) now)) c id "delete" [] now).2
      (hs1.trans hsync)
    rcases ht with ⟨ds, hds, heq⟩ | ⟨hds, _⟩
    · have hds' : ds = String.mk ['{', '}'] := by
        rw [jsonDumps_empty_dict] at hds
        exact (Option.some.inj hds).symm
      subst hds'
      unfold deleteRun
      rw [hens, h, htbl]
      dsimp only
      rw [heq]
      rfl
    · rw [jsonDumps_empty_dict] at hds
      cases hds

theorem contains_append_left {l₁ : List String} (l₂ : List String) {a : String}
    (h : l₁.contains a = true) : (l₁ ++ l₂).contains a = true := by
  simp only [List.contains, List.elem_eq_mem, decide_eq_true_eq] at h ⊢
  exact List.mem_append_left l₂ h

theorem colValFull_mark_row (tbl : Table) (r : Row) (f now : String)
    (hf : (tbl.createdWith.fields.map (fun kv => kv.1)).contains f = true) :
    colValFull tbl { r with deleted := 1, updated_at := now } f = colValFull tbl r f := by
  unfold colValFull
  simp only [if_pos hf]

/-- After the soft-delete UPDATE, no row with the deleted primary-key value
is live. -/
theorem find_live_after_mark (tbl : Table) (pk : String) (idv : SqlVal) (now : String) :
    (deleteMark tbl pk idv now).rows.find? (fun r =>
      sqlEq (colValFull (deleteMark tbl pk idv now) r pk) idv && r.deleted == 0)
      = Option.none := by
  have hcv : colValFull (deleteMark tbl pk idv now) = colValFull tbl := rfl
  apply List.find?_eq_none.mpr
  intro r hr
  simp only [deleteMark, List.mem_map] at hr
  obtain ⟨r0, _, rfl⟩ := hr
  by_cases hm : sqlEq (colValFull tbl r0 pk) idv = true
  · rw [if_pos hm, hcv]
    simp
  · rw [if_neg hm, hcv]
    simp [hm]

/-- The soft-delete UPDATE leaves every row's version unchanged. -/
theorem deleteMark_versions (tbl : Table) (pk : String) (idv : SqlVal) (now : String) :
    (deleteMark tbl pk idv now).rows.map Row.version = tbl.rows.map Row.version := by
  simp only [deleteMark, List.map_map]
  induction tbl.rows with
  | nil => rfl
  | cons r rest ih =>
    simp only [List.map_cons, ih]
    by_cases hm : sqlEq (colValFull tbl r pk) idv = true
    · rw [Function.comp_apply, if_pos hm]
    · rw [Function.comp_apply, if_neg hm]

/-- `get` after the soft-delete UPDATE reports the id absent. -/
theorem getRun_after_mark (s : Storage) (c : String) (id : PyVal) (now : String)
    (sch : Schema) (tbl : Table)
    (hsch : alistGet s.schemas c = some sch)
    (hdecl : (tbl.createdWith.fields.map (fun kv => kv.1)).contains sch.primary_key = true)
    (s' : Storage)
    (hs'sch : s'.schemas = s.schemas)
    (hs'tbl : alistGet s'.tables c = some (deleteMark tbl sch.primary_key (pyToSql id) now)) :
    getRun s' c id = .ok Option.none := by
  have hcol : (columnNames tbl).contains sch.primary_key = true :=
    contains_append_left _ hdecl
  unfold getRun ensure_collection
  rw [hs'sch, hsch]
  dsimp only
  rw [hs'tbl]
  dsimp only
  have hcols : columnNames (deleteMark tbl sch.primary_key (pyToSql id) now)
      = columnNames tbl := rfl
  rw [hcols, hcol, find_live_after_mark tbl sch.primary_key (pyToSql id) now]
  simp

/-- Counterexample to C4 as written: in a storage initialized without a
backend URL, deleting the live entity "a" returns True but appends no
Change at all (`_track_change` returns early), so the append conjunct
fails. -/
theorem C4_counterexample : ¬ claimC4Statement := by
  intro hc
  obtain ⟨s', tx, pr, hdel, _, _, _, hpend, _, _⟩ :=
    (hc sLocalA "todos" (.strV "a") "T2").2 entityARead (by rfl)
  have hrun : (deleteRun sLocalA "todos" (.strV "a") "T2").2.1.pending = [] := by rfl
  rw [hdel] at hrun
  dsimp only at hrun
  have hLp : sLocalA.pending = [] := rfl
  rw [hrun, hLp] at hpend
  simp at hpend

/-- C4 amended: as the claim states, except that the "delete" Change is
appended only when a backend URL is configured (`_track_change` is a no-op
otherwise).  The updated table is exactly `deleteMark`: matching rows get
`_deleted = 1` and `_updated_at = now`, and nothing else changes. -/
theorem C4_delete_soft_delete :
    ∀ (s : Storage) (c : String) (id : PyVal) (now : String),
    (getRun s c id = .ok Option.none → deleteRun s c id now = (.ok false, s, [])) ∧
    (∀ e, getRun s c id = .ok (some e) →
      ∃ sch tbl, alistGet s.schemas c = some sch ∧ alistGet s.tables c = some tbl ∧
        ((tbl.createdWith.fields.map (fun kv => kv.1)).contains sch.primary_key = true →
          ∃ s',
            (deleteRun s c id now).1 = .ok true ∧ (deleteRun s c id now).2.1 = s' ∧
            alistGet s'.tables c = some (deleteMark tbl sch.primary_key (pyToSql id) now) ∧
            (rowsOf s' c).map Row.version = (rowsOf s c).map Row.version ∧
            (supports_sync s = true → s'.pending = s.pending ++
              [⟨s.nextChangeId, c, pyToSql id, "delete", String.mk ['{', '}'], now⟩]) ∧
            (supports_sync s = false → s'.pending = s.pending) ∧
            getRun s' c id = .ok Option.none ∧
            (∀ now2, deleteRun s' c id now2 = (.ok false, s', [])))) := by
  intro s c id now
  constructor
  · exact deleteRun_absent s c id now
  · intro e h
    obtain ⟨sch, tbl, hsch, htbl, hcase⟩ := deleteRun_present_spec s c id now e h
    refine ⟨sch, tbl, hsch, htbl, ?_⟩
    intro hdecl
    rcases hcase with ⟨hsync, heq⟩ | ⟨hsync, heq⟩
    · refine ⟨setTable s c (deleteMark tbl sch.primary_key (pyToSql id) now),
        by rw [heq], by rw [heq], ?_, ?_, ?_, ?_, ?_, ?_⟩
      · exact lookup_setTable_self s c tbl _ htbl
      · rw [rowsOf, rowsOf, lookup_setTable_self s c tbl _ htbl, htbl]
        exact deleteMark_versions tbl sch.primary_key (pyToSql id) now
      · intro hs; rw [hs] at hsync; cases hsync
      · intro _; rfl
      · exact getRun_after_mark s c id now sch tbl hsch hdecl _ rfl
          (lookup_setTable_self s c tbl _ htbl)
      · intro now2
        exact deleteRun_absent _ c id now2
          (getRun_after_mark s c id now sch tbl hsch hdecl _ rfl
            (lookup_setTable_self s c tbl _ htbl))
    · refine ⟨{ setTable s c (deleteMark tbl sch.primary_key (pyToSql id) now) with
          pending := s.pending ++
            [⟨s.nextChangeId, c, pyToSql id, "delete", String.mk ['{', '}'], now⟩],
          nextChangeId := s.nextChangeId + 1 },
        by rw [heq], by rw [heq], ?_, ?_, ?_, ?_, ?_, ?_⟩
      · exact lookup_setTable_self s c tbl _ htbl
      · rw [rowsOf, rowsOf, lookup_setTable_self s c tbl _ htbl, htbl]
        exact deleteMark_versions tbl sch.primary_key (pyToSql id) now
      · intro _; rfl
      · intro hs; rw [hs] at hsync; cases hsync
      · exact getRun_after_mark s c id now sch tbl hsch hdecl _ rfl
          (lookup_setTable_self s c tbl _ htbl)
      · intro now2
        exact deleteRun_absent _ c id now2
          (getRun_after_mark s c id now sch tbl hsch hdecl _ rfl
            (lookup_setTable_self s c tbl _ htbl))

/-- Witness for C4 at concrete inputs: deleting the live entity "a" from
the sync-enabled fixture. -/
theorem C4_witness :
    ∃ sch tbl, alistGet sSyncA.schemas "todos" = some sch ∧
      alistGet sSyncA.tables "todos" = some tbl ∧
      ((tbl.createdWith.fields.map (fun kv => kv.1)).contains sch.primary_key = true →
        ∃ s',
          (deleteRun sSyncA "todos" (.strV "a") "T2").1 = .ok true ∧
          (deleteRun sSyncA "todos" (.strV "a") "T2").2.1 = s' ∧
          alistGet s'.tables "todos"
            = some (deleteMark tbl sch.primary_key (pyToSql (.strV "a")) "T2") ∧
          (rowsOf s' "todos").map Row.version = (rowsOf sSyncA "todos").map Row.version ∧
          (supports_sync sSyncA = true → s'.pending = sSyncA.pending ++
            [⟨sSyncA.nextChangeId, "todos", pyToSql (.strV "a"), "delete",
              String.mk ['{', '}'], "T2"⟩]) ∧
          (supports_sync sSyncA = false → s'.pending = sSyncA.pending) ∧
          getRun s' "todos" (.strV "a") = .ok Option.none ∧
          (∀ now2, deleteRun s' "todos" (.strV "a") now2 = (.ok false, s', []))) :=
  (C4_delete_soft_delete sSyncA "todos" (.strV "a") "T2").2 entityARead (by rfl)

/-- Pending-log and transaction effect of a successful `_insert_entity`. -/
theorem insert_entity_ok_changes {s : Storage} {c : String} {entity : Dict} {sch : Schema}
    {now : String} {s' : Storage} {tx : List Txn}
    (h : insert_entity s c entity sch now = (.ok (), s', tx)) :
    (supports_sync s = true → tx = [[.entityInsert c], [.changeAppend c]] ∧
      ∃ pr : PendingRow, pr.collection = c ∧ pr.operation = "create" ∧
        s'.pending = s.pending ++ [pr]) ∧
    (supports_sync s = false → tx = [[.entityInsert c]] ∧ s'.pending = s.pending) := by
  unfold insert_entity at h
  split at h
  · simp at h
  · next tbl htbl =>
    split at h
    · simp at h
    · next cols hser =>
      split at h
      · simp at h
      · next hfree =>
        split at h
        · dsimp only at h
          split at h <;> simp at h
        · next pkv hpkv =>
          dsimp only at h
          split at h
          · simp at h
          · next hconf =>
            set s1 := setTable s c (insertedTable tbl cols now) with hs1
            have hsync1 : supports_sync s1 = supports_sync s := rfl
            have hp1 : s1.pending = s.pending := rfl
            cases hsync : supports_sync s with
            | false =>
              have ht := (track_change_spec s1 c pkv "create" entity now).1 (hsync1.trans hsync)
              rw [ht] at h
              dsimp only at h
              rw [Prod.mk.injEq, Prod.mk.injEq] at h
              obtain ⟨-, hs', htx⟩ := h
              refine ⟨fun hx => absurd hx (by decide), fun _ => ?_⟩
              rw [← hs', ← htx]
              exact ⟨rfl, hp1⟩
            | true =>
              have ht := (track_change_spec s1 c pkv "create" entity now).2 (hsync1.trans hsync)
              rcases ht with ⟨ds, hds, heq⟩ | ⟨hds, heq⟩
              · rw [heq] at h
                dsimp only at h
                rw [Prod.mk.injEq, Prod.mk.injEq] at h
                obtain ⟨-, hs', htx⟩ := h
                refine ⟨fun _ => ⟨htx.symm, ?_⟩, fun hx => absurd hx (by decide)⟩
                refine ⟨⟨s1.nextChangeId, c, pyToSql pkv, "create", ds, now⟩, rfl, rfl, ?_⟩
                rw [← hs']
                exact hp1 ▸ rfl
              · rw [heq] at h
                dsimp only at h
                rw [Prod.mk.injEq] at h
                cases h.1

/-- Pending-log and transaction effect of a successful `_update_entity`. -/
theorem update_entity_ok_changes {s : Storage} {c : String} {id : PyVal} {entity : Dict}
    {sch : Schema} {now : String} {s' : Storage} {tx : List Txn}
    (h : update_entity s c id entity sch now = (.ok (), s', tx)) :
    (supports_sync s = true → tx = [[.entityUpdate c], [.changeAppend c]] ∧
      ∃ pr : PendingRow, pr.collection = c ∧ pr.operation = "update" ∧
        s'.pending = s.pending ++ [pr]) ∧
    (supports_sync s = false → tx = [[.entityUpdate c]] ∧ s'.pending = s.pending) := by
  unfold update_entity at h
  split at h
  · simp at h
  · next tbl htbl =>
    split at h
    · simp at h
    · next sets hser =>
      split at h
      · simp at h
      · next hcols =>
        dsimp only at h
        set s1 := setTable s c
          (updatedTable tbl sch.primary_key (pyToSql id) sets now) with hs1
        have hsync1 : supports_sync s1 = supports_sync s := rfl
        have hp1 : s1.pending = s.pending := rfl
        cases hsync : supports_sync s with
        | false =>
          have ht := (track_change_spec s1 c id "update" entity now).1 (hsync1.trans hsync)
          rw [ht] at h
          dsimp only at h
          rw [Prod.mk.injEq, Prod.mk.injEq] at h
          obtain ⟨-, hs', htx⟩ := h
          refine ⟨fun hx => absurd hx (by decide), fun _ => ?_⟩
          rw [← hs', ← htx]
          exact ⟨rfl, hp1⟩
        | true =>
          have ht := (track_change_spec s1 c id "update" entity now).2 (hsync1.trans hsync)
          rcases ht with ⟨ds, hds, heq⟩ | ⟨hds, heq⟩
          · rw [heq] at h
            dsimp only at h
            rw [Prod.mk.injEq, Prod.mk.injEq] at h
            obtain ⟨-, hs', htx⟩ := h
            refine ⟨fun _ => ⟨htx.symm, ?_⟩, fun hx => absurd hx (by decide)⟩
            refine ⟨⟨s1.nextChangeId, c, pyToSql id, "update", ds, now⟩, rfl, rfl, ?_⟩
            rw [← hs']
            exact hp1 ▸ rfl
          · rw [heq] at h
            dsimp only at h
            rw [Prod.mk.injEq] at h
            cases h.1

/-- Pending-log and transaction effect of a successful resolved `save`. -/
theorem saveResolved_ok_changes {s : Storage} {c : String} {entity : Dict} {sch : Schema}
    {now : String} {id : PyVal} {s' : Storage} {tx : List Txn}
    (h : saveResolved s c entity sch now = (.ok id, s', tx)) :
    ∃ mutw, (mutw = Write.entityInsert c ∨ mutw = Write.entityUpdate c) ∧
      (supports_sync s = true → tx = [[mutw], [.changeAppend c]] ∧
        ∃ pr : PendingRow, pr.collection = c ∧ s'.pending = s.pending ++ [pr]) ∧
      (supports_sync s = false → tx = [[mutw]] ∧ s'.pending = s.pending) := by
  unfold saveResolved at h
  dsimp only at h
  cases hget : getRun s c ((dictGet entity sch.primary_key).getD PyVal.noneV) with
  | error e => rw [hget] at h; simp at h
  | ok o =>
    rw [hget] at h
    cases o with
    | some e0 =>
      dsimp only at h
      split at h
      · simp at h
      · next u s1 tx1 hu =>
        rw [Prod.mk.injEq, Prod.mk.injEq] at h
        obtain ⟨-, hs', htx⟩ := h
        cases u
        have hc := update_entity_ok_changes hu
        refine ⟨.entityUpdate c, Or.inr rfl, fun hy => ?_, by rw [← hs', ← htx]; exact hc.2⟩
        obtain ⟨htx1, pr, hpc, _, hpend⟩ := hc.1 hy
        rw [← hs', ← htx]
        exact ⟨htx1, pr, hpc, hpend⟩
    | none =>
      dsimp only at h
      split at h
      · simp at h
      · next u s1 tx1 hu =>
        rw [Prod.mk.injEq, Prod.mk.injEq] at h
        obtain ⟨-, hs', htx⟩ := h
        cases u
        have hc := insert_entity_ok_changes hu
        refine ⟨.entityInsert c, Or.inl rfl, fun hy => ?_, by rw [← hs', ← htx]; exact hc.2⟩
        obtain ⟨htx1, pr, hpc, _, hpend⟩ := hc.1 hy
        rw [← hs', ← htx]
        exact ⟨htx1, pr, hpc, hpend⟩

/-- Pending-log and transaction effect of a successful `save` (either
path). -/
theorem saveRun_ok_changes {s : Storage} {c : String} {entity : Dict} {now fresh : String}
    {id : PyVal} {s' : Storage} {tx : List Txn}
    (h : saveRun s c entity now fresh = (.ok id, s', tx)) :
    ∃ mutw, (mutw = Write.entityInsert c ∨ mutw = Write.entityUpdate c) ∧
      (supports_sync s = true → tx = [[mutw], [.changeAppend c]] ∧
        ∃ pr : PendingRow, pr.collection = c ∧ s'.pending = s.pending ++ [pr]) ∧
      (supports_sync s = false → tx = [[mutw]] ∧ s'.pending = s.pending) := by
  unfold saveRun at h
  split at h
  · simp at h
  · next sch hens =>
    dsimp only at h
    exact saveResolved_ok_changes h

/-- A delete that returned True saw a live row. -/
theorem deleteRun_true_inv {s : Storage} {c : String} {id : PyVal} {now : String}
    {s' : Storage} {tx : List Txn}
    (h : deleteRun s c id now = (.ok true, s', tx)) :
    ∃ e, getRun s c id = .ok (some e) := by
  unfold deleteRun at h
  split at h
  · simp at h
  · next sch hens =>
    split at h
    · simp at h
    · next hget => simp at h
    · next e0 hget => exact ⟨e0, hget⟩

/-- Pending-log and transaction effect of a successful (True) `delete`. -/
theorem deleteRun_true_changes {s : Storage} {c : String} {id : PyVal} {now : String}
    {s' : Storage} {tx : List Txn}
    (h : deleteRun s c id now = (.ok true, s', tx)) :
    (supports_sync s = true → tx = [[.entityUpdate c], [.changeAppend c]] ∧
      ∃ pr : PendingRow, pr.collection = c ∧ pr.operation = "delete" ∧
        s'.pending = s.pending ++ [pr]) ∧
    (supports_sync s = false → tx = [[.entityUpdate c]] ∧ s'.pending = s.pending) := by
  obtain ⟨e, hget⟩ := deleteRun_true_inv h
  obtain ⟨sch, tbl, hsch, htbl, hcase⟩ := deleteRun_present_spec s c id now e hget
  rcases hcase with ⟨hsync, heq⟩ | ⟨hsync, heq⟩
  · rw [heq] at h
    rw [Prod.mk.injEq, Prod.mk.injEq] at h
    obtain ⟨-, hs', htx⟩ := h
    refine ⟨fun hx => absurd (hsync.symm.trans hx) (by decide), fun _ => ⟨htx.symm, ?_⟩⟩
    rw [← hs']
    rfl
  · rw [heq] at h
    rw [Prod.mk.injEq, Prod.mk.injEq] at h
    obtain ⟨-, hs', htx⟩ := h
    refine ⟨fun _ => ⟨htx.symm, ?_⟩, fun hx => absurd (hsync.symm.trans hx) (by decide)⟩
    refine ⟨⟨s.nextChangeId, c, pyToSql id, "delete", String.mk ['{', '}'], now⟩, rfl, rfl, ?_⟩
    rw [← hs']

theorem versionsMono_refl (l : List Int) : versionsMono l l :=
  ⟨le_refl _, fun _ _ _ => le_refl _⟩

theorem versionsMono_of_eq {a b : List Int} (h : a = b) : versionsMono a b := by
  subst h; exact versionsMono_refl a

theorem versionsMono_trans {a b c : List Int} (h1 : versionsMono a b)
    (h2 : versionsMono b c) : versionsMono a c := by
  refine ⟨le_trans h1.1 h2.1, fun i hi1 hi2 => ?_⟩
  have hib : i < b.length := lt_of_lt_of_le hi1 h1.1
  exact le_trans (h1.2 i hi1 hib) (h2.2 i hib hi2)

theorem versionsMono_append (l t : List Int) : versionsMono l (l ++ t) := by
  refine ⟨by simp, fun i h1 h2 => ?_⟩
  have : (l ++ t).get ⟨i, h2⟩ = l.get ⟨i, h1⟩ := by
    simp [List.getElem_append_left h1]
  rw [this]

theorem versionsMono_map_le {α : Type} (l : List α) (f g : α → Int)
    (h : ∀ a ∈ l, f a ≤ g a) : versionsMono (l.map f) (l.map g) := by
  refine ⟨by simp, fun i h1 h2 => ?_⟩
  have hl : i < l.length := by simpa using h1
  have hf : (l.map f).get ⟨i, h1⟩ = f (l.get ⟨i, hl⟩) := by simp
  have hg : (l.map g).get ⟨i, h2⟩ = g (l.get ⟨i, hl⟩) := by simp
  rw [hf, hg]
  exact h _ (List.get_mem l i hl)

theorem rowsOf_congr_tables {s1 s2 : Storage} (h : s1.tables = s2.tables) (c : String) :
    rowsOf s1 c = rowsOf s2 c := by
  unfold rowsOf; rw [h]

theorem rowsOf_setTable_self (s : Storage) (c : String) (tbl tbl' : Table)
    (h : alistGet s.tables c = some tbl) :
    rowsOf (setTable s c tbl') c = tbl'.rows := by
  unfold rowsOf; rw [lookup_setTable_self s c tbl tbl' h]; rfl

theorem rowsOf_setTable_ne (s : Storage) (c c' : String) (tbl' : Table) (h : c' ≠ c) :
    rowsOf (setTable s c tbl') c' = rowsOf s c' := by
  unfold rowsOf; rw [lookup_setTable_ne s c c' tbl' h]

theorem rowsOf_some (s : Storage) (c : String) (tbl : Table)
    (h : alistGet s.tables c = some tbl) : rowsOf s c = tbl.rows := by
  unfold rowsOf; rw [h]; rfl

theorem alistGet_append_ne {α : Type} (l : List (String × α)) (k : String) (v : α)
    (c : String) (h : c ≠ k) : alistGet (l ++ [(k, v)]) c = alistGet l c := by
  unfold alistGet
  rw [List.find?_append]
  cases hf : l.find? (fun kv => kv.1 = c) with
  | some w => rfl
  | none =>
    have hkv : (List.find? (fun kv => decide (kv.1 = c)) [(k, v)]) = Option.none := by
      have hd : (decide (k = c)) = false := decide_eq_false (fun e => h e.symm)
      simp [List.find?, hd]
    rw [hkv]
    rfl

theorem alistGet_append_self_none {α : Type} (l : List (String × α)) (k : String) (v : α)
    (h : alistGet l k = Option.none) : alistGet (l ++ [(k, v)]) k = some v := by
  unfold alistGet at h ⊢
  have hf : List.find? (fun kv => decide (kv.1 = k)) l = Option.none := by
    cases hx : List.find? (fun kv => decide (kv.1 = k)) l with
    | none => rfl
    | some w => rw [hx] at h; simp at h
  rw [List.find?_append, hf]
  simp [List.find?]

/-- `register_collection` never changes the rows of any collection: it only
stores the schema and possibly creates a fresh empty table. -/
theorem register_rowsOf (s : Storage) (sch : Schema) (c : String) :
    rowsOf (register_collection s sch).2 c = rowsOf s c := by
  unfold register_collection
  split
  · rfl
  · dsimp only
    split
    · rfl
    · next hnone =>
      unfold rowsOf
      dsimp only
      by_cases hc : c = sch.name
      · subst hc
        have hnone' : alistGet s.tables sch.name = Option.none := hnone
        rw [alistGet_append_self_none s.tables sch.name _ hnone', hnone']
        rfl
      · rw [alistGet_append_ne s.tables sch.name _ c hc]

/-- The UPDATE bumps `_version` by exactly 1 on matching rows and leaves
the others' versions unchanged. -/
theorem updatedTable_versions (tbl : Table) (pk : String) (idv : SqlVal)
    (sets : List (String × SqlVal)) (now : String) :
    (updatedTable tbl pk idv sets now).rows.map Row.version =
      tbl.rows.map (fun r =>
        if sqlEq (colValFull tbl r pk) idv then r.version + 1 else r.version) := by
  simp only [updatedTable, List.map_map]
  induction tbl.rows with
  | nil => rfl
  | cons r rest ih =>
    simp only [List.map_cons, ih]
    by_cases hm : sqlEq (colValFull tbl r pk) idv = true
    · simp only [Function.comp_apply, if_pos hm]
    · simp only [Function.comp_apply, if_neg hm]

/-- Whatever `_insert_entity` returns, the post-state tables are the old
ones or the old ones with the new row appended to collection `c`. -/
theorem insert_entity_tables_cases {s : Storage} {c : String} {entity : Dict} {sch : Schema}
    {now : String} {r : Except DbErr Unit} {s' : Storage} {tx : List Txn}
    (h : insert_entity s c entity sch now = (r, s', tx)) :
    s'.tables = s.tables ∨
    ∃ tbl cols, alistGet s.tables c = some tbl ∧
      s'.tables = (setTable s c (insertedTable tbl cols now)).tables := by
  unfold insert_entity at h
  split at h
  · rw [Prod.mk.injEq, Prod.mk.injEq] at h
    exact Or.inl (by rw [← h.2.1])
  · next tbl htbl =>
    split at h
    · rw [Prod.mk.injEq, Prod.mk.injEq] at h
      exact Or.inl (by rw [← h.2.1])
    · next cols hser =>
      split at h
      · rw [Prod.mk.injEq, Prod.mk.injEq] at h
        exact Or.inl (by rw [← h.2.1])
      · next hfree =>
        split at h
        · dsimp only at h
          split at h
          · rw [Prod.mk.injEq, Prod.mk.injEq] at h
            exact Or.inl (by rw [← h.2.1])
          · rw [Prod.mk.injEq, Prod.mk.injEq] at h
            exact Or.inr ⟨tbl, cols, htbl, by rw [← h.2.1]⟩
        · next pkv hpkv =>
          dsimp only at h
          split at h
          · rw [Prod.mk.injEq, Prod.mk.injEq] at h
            exact Or.inl (by rw [← h.2.1])
          · next hconf =>
            set s1 := setTable s c (insertedTable tbl cols now) with hs1
            have hsync1 : supports_sync s1 = supports_sync s := rfl
            refine Or.inr ⟨tbl, cols, htbl, ?_⟩
            rw [← hs1]
            cases hsync : supports_sync s with
            | false =>
              have ht := (track_change_spec s1 c pkv "create" entity now).1
                (hsync1.trans hsync)
              rw [ht] at h
              dsimp only at h
              rw [Prod.mk.injEq, Prod.mk.injEq] at h
              rw [← h.2.1]
            | true =>
              have ht := (track_change_spec s1 c pkv "create" entity now).2
                (hsync1.trans hsync)
              rcases ht with ⟨ds, hds, heq⟩ | ⟨hds, heq⟩ <;>
              · rw [heq] at h
                dsimp only at h
                rw [Prod.mk.injEq, Prod.mk.injEq] at h
                rw [← h.2.1]

/-- Whatever `_update_entity` returns, the post-state tables are the old
ones or the old ones with the UPDATE applied to collection `c`. -/
theorem update_entity_tables_cases {s : Storage} {c : String} {id : PyVal} {entity : Dict}
    {sch : Schema} {now : String} {r : Except DbErr Unit} {s' : Storage} {tx : List Txn}
    (h : update_entity s c id entity sch now = (r, s', tx)) :
    s'.tables = s.tables ∨
    ∃ tbl sets, alistGet s.tables c = some tbl ∧
      s'.tables = (setTable s c
        (updatedTable tbl sch.primary_key (pyToSql id) sets now)).tables := by
  unfold update_entity at h
  split at h
  · rw [Prod.mk.injEq, Prod.mk.injEq] at h
    exact Or.inl (by rw [← h.2.1])
  · next tbl htbl =>
    split at h
    · rw [Prod.mk.injEq, Prod.mk.injEq] at h
      exact Or.inl (by rw [← h.2.1])
    · next sets hser =>
      split at h
      · rw [Prod.mk.injEq, Prod.mk.injEq] at h
        exact Or.inl (by rw [← h.2.1])
      · next hcols =>
        dsimp only at h
        set s1 := setTable s c (updatedTable tbl sch.primary_key (pyToSql id) sets now)
          with hs1
        have hsync1 : supports_sync s1 = supports_sync s := rfl
        refine Or.inr ⟨tbl, sets, htbl, ?_⟩
        rw [← hs1]
        cases hsync : supports_sync s with
        | false =>
          have ht := (track_change_spec s1 c id "update" entity now).1 (hsync1.trans hsync)
          rw [ht] at h
          dsimp only at h
          rw [Prod.mk.injEq, Prod.mk.injEq] at h
          rw [← h.2.1]
        | true =>
          have ht := (track_change_spec s1 c id "update" entity now).2 (hsync1.trans hsync)
          rcases ht with ⟨ds, hds, heq⟩ | ⟨hds, heq⟩ <;>
          · rw [heq] at h
            dsimp only at h
            rw [Prod.mk.injEq, Prod.mk.injEq] at h
            rw [← h.2.1]

/-- A successful `_insert_entity` appends exactly one row to `c`, with
`_version = 1`, `_deleted = 0` and both stamps `now`; other collections are
untouched. -/
theorem insert_entity_ok_rows {s : Storage} {c : String} {entity : Dict} {sch : Schema}
    {now : String} {s' : Storage} {tx : List Txn}
    (h : insert_entity s c entity sch now = (.ok (), s', tx)) :
    ∃ tbl cols, alistGet s.tables c = some tbl ∧
      rowsOf s' c = tbl.rows ++ [⟨cols, now, now, 0, 1⟩] ∧
      ∀ c', c' ≠ c → rowsOf s' c' = rowsOf s c' := by
  unfold insert_entity at h
  split at h
  · simp at h
  · next tbl htbl =>
    split at h
    · simp at h
    · next cols hser =>
      split at h
      · simp at h
      · next hfree =>
        split at h
        · dsimp only at h
          split at h <;> simp at h
        · next pkv hpkv =>
          dsimp only at h
          split at h
          · simp at h
          · next hconf =>
            set s1 := setTable s c (insertedTable tbl cols now) with hs1
            have hsync1 : supports_sync s1 = supports_sync s := rfl
            have key : s'.tables = s1.tables →
                ∃ tbl2 cols2, alistGet s.tables c = some tbl2 ∧
                  rowsOf s' c = tbl2.rows ++ [⟨cols2, now, now, 0, 1⟩] ∧
                  ∀ c', c' ≠ c → rowsOf s' c' = rowsOf s c' := by
              intro hts
              refine ⟨tbl, cols, htbl, ?_, ?_⟩
              · rw [rowsOf_congr_tables hts, hs1,
                  rowsOf_setTable_self s c tbl _ htbl]
                rfl
              · intro c' hc'
                rw [rowsOf_congr_tables hts, hs1, rowsOf_setTable_ne s c c' _ hc']
            cases hsync : supports_sync s with
            | false =>
              have ht := (track_change_spec s1 c pkv "create" entity now).1
                (hsync1.trans hsync)
              rw [ht] at h
              dsimp only at h
              rw [Prod.mk.injEq, Prod.mk.injEq] at h
              exact key (by rw [← h.2.1])
            | true =>
              have ht := (track_change_spec s1 c pkv "create" entity now).2
                (hsync1.trans hsync)
              rcases ht with ⟨ds, hds, heq⟩ | ⟨hds, heq⟩
              · rw [heq] at h
                dsimp only at h
                rw [Prod.mk.injEq, Prod.mk.injEq] at h
                exact key (by rw [← h.2.1])
              · rw [heq] at h
                dsimp only at h
                rw [Prod.mk.injEq] at h
                cases h.1

/-- A successful `_update_entity` bumps `_version` by exactly 1 on the rows
of `c` whose primary-key column matches and leaves every other version
unchanged; other collections are untouched. -/
theorem update_entity_ok_rows {s : Storage} {c : String} {id : PyVal} {entity : Dict}
    {sch : Schema} {now : String} {s' : Storage} {tx : List Txn}
    (h : update_entity s c id entity sch now = (.ok (), s', tx)) :
    ∃ tbl, alistGet s.tables c = some tbl ∧
      (rowsOf s' c).map Row.version = tbl.rows.map (fun r =>
        if sqlEq (colValFull tbl r sch.primary_key) (pyToSql id)
        then r.version + 1 else r.version) ∧
      ∀ c', c' ≠ c → rowsOf s' c' = rowsOf s c' := by
  unfold update_entity at h
  split at h
  · simp at h
  · next tbl htbl =>
    split at h
    · simp at h
    · next sets hser =>
      split at h
      · simp at h
      · next hcols =>
        dsimp only at h
        set s1 := setTable s c (updatedTable tbl sch.primary_key (pyToSql id) sets now)
          with hs1
        have hsync1 : supports_sync s1 = supports_sync s := rfl
        have key : s'.tables = s1.tables →
            ∃ tbl2, alistGet s.tables c = some tbl2 ∧
              (rowsOf s' c).map Row.version = tbl2.rows.map (fun r =>
                if sqlEq (colValFull tbl2 r sch.primary_key) (pyToSql id)
                then r.version + 1 else r.version) ∧
              ∀ c', c' ≠ c → rowsOf s' c' = rowsOf s c' := by
          intro hts
          refine ⟨tbl, htbl, ?_, ?_⟩
          · rw [rowsOf_congr_tables hts, hs1, rowsOf_setTable_self s c tbl _ htbl,
              updatedTable_versions]
          · intro c' hc'
            rw [rowsOf_congr_tables hts, hs1, rowsOf_setTable_ne s c c' _ hc']
        cases hsync : supports_sync s with
        | false =>
          have ht := (track_change_spec s1 c id "update" entity now).1 (hsync1.trans hsync)
          rw [ht] at h
          dsimp only at h
          rw [Prod.mk.injEq, Prod.mk.injEq] at h
          exact key (by rw [← h.2.1])
        | true =>
          have ht := (track_change_spec s1 c id "update" entity now).2 (hsync1.trans hsync)
          rcases ht with ⟨ds, hds, heq⟩ | ⟨hds, heq⟩
          · rw [heq] at h
            dsimp only at h
            rw [Prod.mk.injEq, Prod.mk.injEq] at h
            exact key (by rw [← h.2.1])
          · rw [heq] at h
            dsimp only at h
            rw [Prod.mk.injEq] at h
            cases h.1

/-- Whatever the resolved `save` returns, the post-state tables are the old
ones, an insert into `c`, or an update of `c`. -/
theorem saveResolved_tables_cases {s : Storage} {c : String} {entity : Dict} {sch : Schema}
    {now : String} {r : Except DbErr PyVal} {s' : Storage} {tx : List Txn}
    (h : saveResolved s c entity sch now = (r, s', tx)) :
    s'.tables = s.tables ∨
    (∃ tbl cols, alistGet s.tables c = some tbl ∧
       s'.tables = (setTable s c (insertedTable tbl cols now)).tables) ∨
    (∃ tbl sets pk idv, alistGet s.tables c = some tbl ∧
       s'.tables = (setTable s c (updatedTable tbl pk idv sets now)).tables) := by
  unfold saveResolved at h
  dsimp only at h
  cases hget : getRun s c ((dictGet entity sch.primary_key).getD PyVal.noneV) with
  | error e =>
    rw [hget] at h
    rw [Prod.mk.injEq, Prod.mk.injEq] at h
    exact Or.inl (by rw [← h.2.1])
  | ok o =>
    rw [hget] at h
    cases o with
    | some e0 =>
      dsimp only at h
      split at h <;>
      · next hu =>
        rw [Prod.mk.injEq, Prod.mk.injEq] at h
        rcases update_entity_tables_cases hu with hl | ⟨tbl, sets, htbl, hts⟩
        · exact Or.inl (by rw [← h.2.1]; exact hl)
        · exact Or.inr (Or.inr ⟨tbl, sets, sch.primary_key, _, htbl,
            by rw [← h.2.1]; exact hts⟩)
    | none =>
      dsimp only at h
      split at h <;>
      · next hu =>
        rw [Prod.mk.injEq, Prod.mk.injEq] at h
        rcases insert_entity_tables_cases hu with hl | ⟨tbl, cols, htbl, hts⟩
        · exact Or.inl (by rw [← h.2.1]; exact hl)
        · exact Or.inr (Or.inl ⟨tbl, cols, htbl, by rw [← h.2.1]; exact hts⟩)

/-- Whatever `save` returns, the post-state tables are the old ones, an
insert into `c`, or an update of `c`. -/
theorem saveRun_tables_cases {s : Storage} {c : String} {entity : Dict} {now fresh : String}
    {r : Except DbErr PyVal} {s' : Storage} {tx : List Txn}
    (h : saveRun s c entity now fresh = (r, s', tx)) :
    s'.tables = s.tables ∨
    (∃ tbl cols, alistGet s.tables c = some tbl ∧
       s'.tables = (setTable s c (insertedTable tbl cols now)).tables) ∨
    (∃ tbl sets pk idv, alistGet s.tables c = some tbl ∧
       s'.tables = (setTable s c (updatedTable tbl pk idv sets now)).tables) := by
  unfold saveRun at h
  split at h
  · rw [Prod.mk.injEq, Prod.mk.injEq] at h
    exact Or.inl (by rw [← h.2.1])
  · next sch hens =>
    dsimp only at h
    exact saveResolved_tables_cases h

/-- Whatever `update` returns, the post-state tables are the old ones, an
insert into `c`, or an update of `c`. -/
theorem updateRun_tables_cases {s : Storage} {c : String} {id : PyVal} {changes : Dict}
    {now fresh : String} {r : Except DbErr (Option Dict)} {s' : Storage} {tx : List Txn}
    (h : updateRun s c id changes now fresh = (r, s', tx)) :
    s'.tables = s.tables ∨
    (∃ tbl cols, alistGet s.tables c = some tbl ∧
       s'.tables = (setTable s c (insertedTable tbl cols now)).tables) ∨
    (∃ tbl sets pk idv, alistGet s.tables c = some tbl ∧
       s'.tables = (setTable s c (updatedTable tbl pk idv sets now)).tables) := by
  unfold updateRun at h
  split at h
  · rw [Prod.mk.injEq, Prod.mk.injEq] at h
    exact Or.inl (by rw [← h.2.1])
  · next sch hens =>
    split at h
    · rw [Prod.mk.injEq, Prod.mk.injEq] at h
      exact Or.inl (by rw [← h.2.1])
    · next hget =>
      rw [Prod.mk.injEq, Prod.mk.injEq] at h
      exact Or.inl (by rw [← h.2.1])
    · next existing hget =>
      dsimp only at h
      rcases hsr : saveRun s c (dictMerge existing changes) now fresh with ⟨r2, s1, tx0⟩
      rw [hsr] at h
      dsimp only at h
      have key : s1 = s' →
          (s'.tables = s.tables ∨
           (∃ tbl cols, alistGet s.tables c = some tbl ∧
              s'.tables = (setTable s c (insertedTable tbl cols now)).tables) ∨
           (∃ tbl sets pk idv, alistGet s.tables c = some tbl ∧
              s'.tables = (setTable s c (updatedTable tbl pk idv sets now)).tables)) := by
        intro hs'
        rcases saveRun_tables_cases hsr with hl | ⟨tbl, cols, htbl, hts⟩ |
          ⟨tbl, sets, pk, idv, htbl, hts⟩
        · exact Or.inl (by rw [← hs']; exact hl)
        · exact Or.inr (Or.inl ⟨tbl, cols, htbl, by rw [← hs']; exact hts⟩)
        · exact Or.inr (Or.inr ⟨tbl, sets, pk, idv, htbl, by rw [← hs']; exact hts⟩)
      cases r2 with
      | error e2 =>
        dsimp only at h
        rw [Prod.mk.injEq, Prod.mk.injEq] at h
        exact key h.2.1
      | ok u =>
        dsimp only at h
        split at h <;>
        · rw [Prod.mk.injEq, Prod.mk.injEq] at h
          exact key h.2.1

/-- Whatever `delete` returns, the post-state tables are the old ones or
the old ones with the soft-delete UPDATE applied to `c`. -/
theorem deleteRun_tables_cases {s : Storage} {c : String} {id : PyVal} {now : String}
    {r : Except DbErr Bool} {s' : Storage} {tx : List Txn}
    (h : deleteRun s c id now = (r, s', tx)) :
    s'.tables = s.tables ∨
    ∃ tbl pk, alistGet s.tables c = some tbl ∧
      s'.tables = (setTable s c (deleteMark tbl pk (pyToSql id) now)).tables := by
  unfold deleteRun at h
  split at h
  · rw [Prod.mk.injEq, Prod.mk.injEq] at h
    exact Or.inl (by rw [← h.2.1])
  · next sch hens =>
    split at h
    · rw [Prod.mk.injEq, Prod.mk.injEq] at h
      exact Or.inl (by rw [← h.2.1])
    · next hget =>
      rw [Prod.mk.injEq, Prod.mk.injEq] at h
      exact Or.inl (by rw [← h.2.1])
    · next e0 hget =>
      split at h
      · rw [Prod.mk.injEq, Prod.mk.injEq] at h
        exact Or.inl (by rw [← h.2.1])
      · next tbl htbl =>
        dsimp only at h
        set s1 := setTable s c (deleteMark tbl sch.primary_key (pyToSql id) now) with hs1
        have hsync1 : supports_sync s1 = supports_sync s := rfl
        refine Or.inr ⟨tbl, sch.primary_key, htbl, ?_⟩
        rw [← hs1]
        cases hsync : supports_sync s with
        | false =>
          have ht := (track_change_spec s1 c id "delete" [] now).1 (hsync1.trans hsync)
          rw [ht] at h
          dsimp only at h
          rw [Prod.mk.injEq, Prod.mk.injEq] at h
          rw [← h.2.1]
        | true =>
          have ht := (track_change_spec s1 c id "delete" [] now).2 (hsync1.trans hsync)
          rcases ht with ⟨ds, hds, heq⟩ | ⟨hds, heq⟩ <;>
          · rw [heq] at h
            dsimp only at h
            rw [Prod.mk.injEq, Prod.mk.injEq] at h
            rw [← h.2.1]

/-- `delete` never changes any row version in any collection, whatever it
returns. -/
theorem deleteRun_versions {s : Storage} {c : String} {id : PyVal} {now : String}
    {r : Except DbErr Bool} {s' : Storage} {tx : List Txn}
    (h : deleteRun s c id now = (r, s', tx)) :
    ∀ c', (rowsOf s' c').map Row.version = (rowsOf s c').map Row.version := by
  intro c'
  rcases deleteRun_tables_cases h with hl | ⟨tbl, pk, htbl, hts⟩
  · rw [rowsOf_congr_tables hl]
  · by_cases hc : c' = c
    · subst hc
      rw [rowsOf_congr_tables hts, rowsOf_setTable_self s c' tbl _ htbl,
        deleteMark_versions, rowsOf_some s c' tbl htbl]
    · rw [rowsOf_congr_tables hts, rowsOf_setTable_ne s c c' _ hc]

/-- Row-level effect of a successful resolved `save`: either one appended
row with version 1, or +1 on exactly the rows matching a live primary-key
value. -/
theorem saveResolved_ok_rows {s : Storage} {c : String} {entity : Dict} {sch : Schema}
    {now : String} {id : PyVal} {s' : Storage} {tx : List Txn}
    (hsch : alistGet s.schemas c = some sch)
    (h : saveResolved s c entity sch now = (.ok id, s', tx)) :
    ∃ tbl, alistGet s.tables c = some tbl ∧
      ((∃ cols, rowsOf s' c = tbl.rows ++ [⟨cols, now, now, 0, 1⟩]) ∨
       (∃ pk idv,
         (∃ r ∈ tbl.rows, sqlEq (colValFull tbl r pk) idv = true ∧ r.deleted = 0) ∧
         (rowsOf s' c).map Row.version = tbl.rows.map (fun r =>
           if sqlEq (colValFull tbl r pk) idv then r.version + 1 else r.version))) ∧
      ∀ c', c' ≠ c → rowsOf s' c' = rowsOf s c' := by
  unfold saveResolved at h
  dsimp only at h
  cases hget : getRun s c ((dictGet entity sch.primary_key).getD PyVal.noneV) with
  | error e => rw [hget] at h; simp at h
  | ok o =>
    rw [hget] at h
    cases o with
    | some e0 =>
      dsimp only at h
      split at h
      · simp at h
      · next u s1 tx1 hu =>
        rw [Prod.mk.injEq, Prod.mk.injEq] at h
        obtain ⟨-, hs', htx⟩ := h
        cases u
        obtain ⟨tbl, htbl, hver, hrest⟩ := update_entity_ok_rows hu
        obtain ⟨sch2, tbl2, row, hsch2, htbl2, hcol2, hfind, hrte⟩ := getRun_ok_some_elim hget
        rw [hsch] at hsch2
        have hscheq : sch2 = sch := (Option.some.inj hsch2).symm
        rw [htbl] at htbl2
        have htbleq : tbl2 = tbl := (Option.some.inj htbl2).symm
        rw [hscheq, htbleq] at hfind
        have hrow := List.find?_some hfind
        rw [Bool.and_eq_true] at hrow
        have hmem := List.mem_of_find?_eq_some hfind
        refine ⟨tbl, htbl, Or.inr ⟨sch.primary_key,
          pyToSql ((dictGet entity sch.primary_key).getD PyVal.noneV),
          ⟨row, hmem, hrow.1, by simpa using hrow.2⟩, ?_⟩, ?_⟩
        · rw [← hs']
          exact hver
        · intro c' hc'
          rw [← hs']
          exact hrest c' hc'
    | none =>
      dsimp only at h
      split at h
      · simp at h
      · next u s1 tx1 hu =>
        rw [Prod.mk.injEq, Prod.mk.injEq] at h
        obtain ⟨-, hs', htx⟩ := h
        cases u
        obtain ⟨tbl, cols, htbl, hrows, hrest⟩ := insert_entity_ok_rows hu
        refine ⟨tbl, htbl, Or.inl ⟨cols, by rw [← hs']; exact hrows⟩, ?_⟩
        intro c' hc'
        rw [← hs']
        exact hrest c' hc'

/-- Row-level effect of a successful `save` (either path). -/
theorem saveRun_ok_rows {s : Storage} {c : String} {entity : Dict} {now fresh : String}
    {id : PyVal} {s' : Storage} {tx : List Txn}
    (h : saveRun s c entity now fresh = (.ok id, s', tx)) :
    ∃ tbl, alistGet s.tables c = some tbl ∧
      ((∃ cols, rowsOf s' c = tbl.rows ++ [⟨cols, now, now, 0, 1⟩]) ∨
       (∃ pk idv,
         (∃ r ∈ tbl.rows, sqlEq (colValFull tbl r pk) idv = true ∧ r.deleted = 0) ∧
         (rowsOf s' c).map Row.version = tbl.rows.map (fun r =>
           if sqlEq (colValFull tbl r pk) idv then r.version + 1 else r.version))) ∧
      ∀ c', c' ≠ c → rowsOf s' c' = rowsOf s c' := by
  unfold saveRun at h
  split at h
  · simp at h
  · next sch hens =>
    have hsch : alistGet s.schemas c = some sch := by
      unfold ensure_collection at hens
      split at hens
      · next hs0 => cases hens; exact hs0
      · cases hens
    dsimp only at h
    exact saveResolved_ok_rows hsch h

/-- Row-list shape of any one public operation, per collection: unchanged,
one appended version-1 row, an UPDATE, or a soft-delete mark. -/
theorem step_rowsOf_cases (s : Storage) (op : Op) (c : String) :
    rowsOf (step s op) c = rowsOf s c ∨
    (∃ cols now0, rowsOf (step s op) c = rowsOf s c ++ [⟨cols, now0, now0, 0, 1⟩]) ∨
    (∃ tbl pk idv sets now0, alistGet s.tables c = some tbl ∧
       rowsOf (step s op) c = (updatedTable tbl pk idv sets now0).rows) ∨
    (∃ tbl pk idv now0, alistGet s.tables c = some tbl ∧
       rowsOf (step s op) c = (deleteMark tbl pk idv now0).rows) := by
  cases op with
  | register sch => exact Or.inl (register_rowsOf s sch c)
  | save c0 e now fresh =>
    rcases hsr : saveRun s c0 e now fresh with ⟨r2, s1, tx0⟩
    have hstep : step s (.save c0 e now fresh) = s1 := by
      show (saveRun s c0 e now fresh).2.1 = s1
      rw [hsr]
    rcases saveRun_tables_cases hsr with hl | ⟨tbl, cols, htbl, hts⟩ |
      ⟨tbl, sets, pk, idv, htbl, hts⟩
    · exact Or.inl (by rw [hstep, rowsOf_congr_tables hl])
    · by_cases hc : c = c0
      · subst hc
        refine Or.inr (Or.inl ⟨cols, now, ?_⟩)
        rw [hstep, rowsOf_congr_tables hts, rowsOf_setTable_self s c tbl _ htbl,
          rowsOf_some s c tbl htbl]
        rfl
      · exact Or.inl (by
          rw [hstep, rowsOf_congr_tables hts, rowsOf_setTable_ne s c0 c _ hc])
    · by_cases hc : c = c0
      · subst hc
        exact Or.inr (Or.inr (Or.inl ⟨tbl, pk, idv, sets, now, htbl, by
          rw [hstep, rowsOf_congr_tables hts, rowsOf_setTable_self s c tbl _ htbl]⟩))
      · exact Or.inl (by
          rw [hstep, rowsOf_congr_tables hts, rowsOf_setTable_ne s c0 c _ hc])
  | update c0 id ch now fresh =>
    rcases hur : updateRun s c0 id ch now fresh with ⟨r2, s1, tx0⟩
    have hstep : step s (.update c0 id ch now fresh) = s1 := by
      show (updateRun s c0 id ch now fresh).2.1 = s1
      rw [hur]
    rcases updateRun_tables_cases hur with hl | ⟨tbl, cols, htbl, hts⟩ |
      ⟨tbl, sets, pk, idv, htbl, hts⟩
    · exact Or.inl (by rw [hstep, rowsOf_congr_tables hl])
    · by_cases hc : c = c0
      · subst hc
        refine Or.inr (Or.inl ⟨cols, now, ?_⟩)
        rw [hstep, rowsOf_congr_tables hts, rowsOf_setTable_self s c tbl _ htbl,
          rowsOf_some s c tbl htbl]
        rfl
      · exact Or.inl (by
          rw [hstep, rowsOf_congr_tables hts, rowsOf_setTable_ne s c0 c _ hc])
    · by_cases hc : c = c0
      · subst hc
        exact Or.inr (Or.inr (Or.inl ⟨tbl, pk, idv, sets, now, htbl, by
          rw [hstep, rowsOf_congr_tables hts, rowsOf_setTable_self s c tbl _ htbl]⟩))
      · exact Or.inl (by
          rw [hstep, rowsOf_congr_tables hts, rowsOf_setTable_ne s c0 c _ hc])
  | delete c0 id now =>
    rcases hdr : deleteRun s c0 id now with ⟨r2, s1, tx0⟩
    have hstep : step s (.delete c0 id now) = s1 := by
      show (deleteRun s c0 id now).2.1 = s1
      rw [hdr]
    rcases deleteRun_tables_cases hdr with hl | ⟨tbl, pk, htbl, hts⟩
    · exact Or.inl (by rw [hstep, rowsOf_congr_tables hl])
    · by_cases hc : c = c0
      · subst hc
        exact Or.inr (Or.inr (Or.inr ⟨tbl, pk, pyToSql id, now, htbl, by
          rw [hstep, rowsOf_congr_tables hts, rowsOf_setTable_self s c tbl _ htbl]⟩))
      · exact Or.inl (by
          rw [hstep, rowsOf_congr_tables hts, rowsOf_setTable_ne s c0 c _ hc])

/-- One public operation never lowers any surviving row's version and only
appends rows. -/
theorem step_versionsMono (s : Storage) (op : Op) (c : String) :
    versionsMono ((rowsOf s c).map Row.version)
      ((rowsOf (step s op) c).map Row.version) := by
  rcases step_rowsOf_cases s op c with h | ⟨cols, n0, h⟩ |
    ⟨tbl, pk, idv, sets, n0, htbl, h⟩ | ⟨tbl, pk, idv, n0, htbl, h⟩
  · rw [h]
    exact versionsMono_refl _
  · rw [h, List.map_append]
    exact versionsMono_append _ _
  · rw [h, updatedTable_versions, rowsOf_some s c tbl htbl]
    refine versionsMono_map_le _ _ _ ?_
    intro r _
    by_cases hm : sqlEq (colValFull tbl r pk) idv = true
    · simp only [if_pos hm]
      omega
    · simp only [if_neg hm]
      omega
  · rw [h, deleteMark_versions, rowsOf_some s c tbl htbl]
    exact versionsMono_refl _

/-- In every reachable state, every stored row's version is at least 1. -/
theorem reachable_versions_pos {s : Storage} (h : Reachable s) :
    ∀ c, ∀ r ∈ rowsOf s c, 1 ≤ r.version := by
  induction h with
  | init cfg =>
    intro c r hr
    simp [rowsOf, initStorage, alistGet] at hr
  | step s0 op hr ih =>
    intro c r hmem
    rcases step_rowsOf_cases s0 op c with hcase | ⟨cols, n0, hcase⟩ |
      ⟨tbl, pk, idv, sets, n0, htbl, hcase⟩ | ⟨tbl, pk, idv, n0, htbl, hcase⟩
    · rw [hcase] at hmem
      exact ih c r hmem
    · rw [hcase] at hmem
      rcases List.mem_append.mp hmem with hold | hnew
      · exact ih c r hold
      · have hr1 : r = ⟨cols, n0, n0, 0, 1⟩ := by simpa using hnew
        rw [hr1]
    · rw [hcase] at hmem
      simp only [updatedTable, List.mem_map] at hmem
      obtain ⟨r0, hr0, rfl⟩ := hmem
      have hpos := ih c r0 (by rw [rowsOf_some s0 c tbl htbl]; exact hr0)
      by_cases hm : sqlEq (colValFull tbl r0 pk) idv = true
      · rw [if_pos hm]
        show 1 ≤ r0.version + 1
        omega
      · rw [if_neg hm]
        exact hpos
    · rw [hcase] at hmem
      simp only [deleteMark, List.mem_map] at hmem
      obtain ⟨r0, hr0, rfl⟩ := hmem
      have hpos := ih c r0 (by rw [rowsOf_some s0 c tbl htbl]; exact hr0)
      by_cases hm : sqlEq (colValFull tbl r0 pk) idv = true
      · rw [if_pos hm]
        exact hpos
      · rw [if_neg hm]
        exact hpos

/-- Across any sequence of public operations, versions never decrease. -/
theorem foldl_step_versionsMono (s : Storage) (ops : List Op) (c : String) :
    versionsMono ((rowsOf s c).map Row.version)
      ((rowsOf (ops.foldl step s) c).map Row.version) := by
  induction ops generalizing s with
  | nil => exact versionsMono_refl _
  | cons op rest ih =>
    exact versionsMono_trans (step_versionsMono s op c) (ih (step s op))

theorem sqlEq_symm {a b : SqlVal} (h : sqlEq a b = true) : sqlEq b a = true := by
  cases a <;> cases b <;> simp_all [sqlEq, eq_comm]

theorem sqlEq_trans {a b c : SqlVal} (h1 : sqlEq a b = true) (h2 : sqlEq b c = true) :
    sqlEq a c = true := by
  cases a <;> cases b <;> cases c <;> simp_all [sqlEq]

theorem dictHas_of_get {entity : Dict} {k : String} {v : PyVal}
    (h : dictGet entity k = some v) : dictHas entity k = true := by
  unfold dictHas
  unfold dictGet at h
  cases hf : entity.find? (fun kv => kv.1 = k) with
  | none => rw [hf] at h; simp at h
  | some kv => simp

/-- When the entity already carries a non-None primary key, `save` skips id
generation and goes straight to the resolved body. -/
theorem saveRun_resolved_of_has {s : Storage} {c : String} {entity : Dict}
    {now fresh : String} {sch : Schema} {idpy : PyVal}
    (hens : ensure_collection s c = .ok sch)
    (hdg : dictGet entity sch.primary_key = some idpy)
    (hnone : idpy ≠ .noneV) :
    saveRun s c entity now fresh = saveResolved s c entity sch now := by
  have hhas : dictHas entity sch.primary_key = true := dictHas_of_get hdg
  unfold saveRun
  rw [hens]
  dsimp only
  rw [hhas, hdg]
  cases idpy <;> first | (exact absurd rfl hnone) | rfl

/-- Counterexample to C1 as written: with no backend URL configured, a
successful insert commits the entity but appends no Change at all. -/
theorem C1_counterexample : ¬ claimC1Statement := by
  intro hc
  have h := (hc sLocal "todos").1 entityA "T1" "F1" (.strV "a") sLocalA
    [[.entityInsert "todos"]] (by rfl)
  have h0 : sLocalA.pending.length = 0 := rfl
  have h1 : sLocal.pending.length = 0 := rfl
  rw [h0, h1] at h
  exact absurd h.1 (by decide)

/-- C1 amended: when a backend URL is configured, each successful mutating
operation (save-insert, save-update, delete) appends exactly one Change
row; with no backend URL it appends none.  The entity mutation and the
Change append are committed as two separate consecutive transactions (the
mutation's `conn.commit()` precedes `_track_change`'s), not as one atomic
unit. -/
theorem C1_change_tracking :
    ∀ (s : Storage) (c : String),
    (∀ entity now fresh id s' tx, saveRun s c entity now fresh = (.ok id, s', tx) →
      ∃ mutw, (mutw = Write.entityInsert c ∨ mutw = Write.entityUpdate c) ∧
        (supports_sync s = true →
          s'.pending.length = s.pending.length + 1 ∧
          (∃ pr : PendingRow, pr.collection = c ∧ s'.pending = s.pending ++ [pr]) ∧
          tx = [[mutw], [Write.changeAppend c]]) ∧
        (supports_sync s = false → s'.pending = s.pending ∧ tx = [[mutw]])) ∧
    (∀ id now s' tx, deleteRun s c id now = (.ok true, s', tx) →
      (supports_sync s = true →
        s'.pending.length = s.pending.length + 1 ∧
        (∃ pr : PendingRow, pr.collection = c ∧ pr.operation = "delete" ∧
          s'.pending = s.pending ++ [pr]) ∧
        tx = [[Write.entityUpdate c], [Write.changeAppend c]]) ∧
      (supports_sync s = false →
        s'.pending = s.pending ∧ tx = [[Write.entityUpdate c]])) := by
  intro s c
  constructor
  · intro entity now fresh id s' tx h
    obtain ⟨mutw, hmut, hT, hF⟩ := saveRun_ok_changes h
    refine ⟨mutw, hmut, fun hy => ?_, fun hy => ⟨(hF hy).2, (hF hy).1⟩⟩
    obtain ⟨htx, pr, hpc, hpend⟩ := hT hy
    exact ⟨by rw [hpend]; simp, ⟨pr, hpc, hpend⟩, htx⟩
  · intro id now s' tx h
    have hc := deleteRun_true_changes h
    refine ⟨fun hy => ?_, fun hy => ⟨(hc.2 hy).2, (hc.2 hy).1⟩⟩
    obtain ⟨htx, pr, hpc, hop, hpend⟩ := hc.1 hy
    exact ⟨by rw [hpend]; simp, ⟨pr, hpc, hop, hpend⟩, htx⟩

/-- Witness for C1 at concrete inputs: inserting entity "a" into the
sync-enabled fixture appends one "create" Change in its own transaction. -/
theorem C1_witness :
    ∃ mutw, (mutw = Write.entityInsert "todos" ∨ mutw = Write.entityUpdate "todos") ∧
      (supports_sync sSync = true →
        sSyncA.pending.length = sSync.pending.length + 1 ∧
        (∃ pr : PendingRow, pr.collection = "todos" ∧
          sSyncA.pending = sSync.pending ++ [pr]) ∧
        [[Write.entityInsert "todos"], [Write.changeAppend "todos"]]
          = [[mutw], [Write.changeAppend "todos"]]) ∧
      (supports_sync sSync = false →
        sSyncA.pending = sSync.pending ∧
        [[Write.entityInsert "todos"], [Write.changeAppend "todos"]] = [[mutw]]) :=
  (C1_change_tracking sSync "todos").1 entityA "T1" "F1" (.strV "a") sSyncA
    [[Write.entityInsert "todos"], [Write.changeAppend "todos"]] (by rfl)

/-- C3.  Version lifecycle: the insert performed by `save` stamps the new
row with `_version = 1`; a `save` that resolves to an update adds exactly 1
to the version of every row matching the live primary-key value (and of no
other row); `delete` never changes any version; every row of a reachable
state has version ≥ 1; and across any sequence of public operations the
version at each surviving row position never decreases. -/
theorem C3_version_lifecycle :
    (∀ (s : Storage) (c : String) (entity : Dict) (now fresh : String) (id : PyVal)
       (s' : Storage) (tx : List Txn), saveRun s c entity now fresh = (.ok id, s', tx) →
       ∃ tbl, alistGet s.tables c = some tbl ∧
         ((∃ cols, rowsOf s' c = tbl.rows ++ [⟨cols, now, now, 0, 1⟩]) ∨
          (∃ pk idv,
            (∃ r ∈ tbl.rows, sqlEq (colValFull tbl r pk) idv = true ∧ r.deleted = 0) ∧
            (rowsOf s' c).map Row.version = tbl.rows.map (fun r =>
              if sqlEq (colValFull tbl r pk) idv then r.version + 1 else r.version))) ∧
         ∀ c', c' ≠ c → rowsOf s' c' = rowsOf s c') ∧
    (∀ (s : Storage) (c : String) (id : PyVal) (now : String) (b : Bool)
       (s' : Storage) (tx : List Txn), deleteRun s c id now = (.ok b, s', tx) →
       ∀ c', (rowsOf s' c').map Row.version = (rowsOf s c').map Row.version) ∧
    (∀ s : Storage, Reachable s → ∀ c : String, ∀ r ∈ rowsOf s c, 1 ≤ r.version) ∧
    (∀ (s : Storage) (ops : List Op) (c : String),
       versionsMono ((rowsOf s c).map Row.version)
         ((rowsOf (ops.foldl step s) c).map Row.version)) :=
  ⟨fun _ _ _ _ _ _ _ _ h => saveRun_ok_rows h,
   fun _ _ _ _ _ _ _ h => deleteRun_versions h,
   fun _ h => reachable_versions_pos h,
   foldl_step_versionsMono⟩

/-- Witness for C3 at concrete inputs: the first save into the registered
sync fixture takes the insert path and stamps version 1, and the resulting
reachable state has only rows with version ≥ 1. -/
theorem C3_witness :
    (∃ tbl, alistGet sSync.tables "todos" = some tbl ∧
      ((∃ cols, rowsOf sSyncA "todos" = tbl.rows ++ [⟨cols, "T1", "T1", 0, 1⟩]) ∨
       (∃ pk idv,
         (∃ r ∈ tbl.rows, sqlEq (colValFull tbl r pk) idv = true ∧ r.deleted = 0) ∧
         (rowsOf sSyncA "todos").map Row.version = tbl.rows.map (fun r =>
           if sqlEq (colValFull tbl r pk) idv then r.version + 1 else r.version))) ∧
      ∀ c', c' ≠ "todos" → rowsOf sSyncA c' = rowsOf sSync c') ∧
    (∀ r ∈ rowsOf sSyncA "todos", 1 ≤ r.version) := by
  constructor
  · exact C3_version_lifecycle.1 sSync "todos" entityA "T1" "F1" (.strV "a") sSyncA
      [[Write.entityInsert "todos"], [Write.changeAppend "todos"]] (by rfl)
  · have h1 : Reachable (initStorage cfgSync) := Reachable.init cfgSync
    have h2 : Reachable sSync := Reachable.step (initStorage cfgSync) (.register todoSchema) h1
    have h3 : Reachable sSyncA := Reachable.step sSync (.save "todos" entityA "T1" "F1") h2
    exact C3_version_lifecycle.2.2.1 sSyncA h3 "todos"

/-- C6.  Field coding contract per field type: JSON values round-trip
equal through dumps/loads; Boolean stores as 0/1 and reads back as the
operand's truthiness; DateTime/Date native temporal values encode to their
canonical ISO text while already-encoded text passes through; Integer and
Float stored representations come back as the correct numeric type,
including INTEGER-stored values read under Float. -/
theorem C6_field_coding :
    (∀ v : PyVal, jsonValue v = true →
      ∃ sv, serialize_value v .JSON = some sv ∧ deserialize_value sv .JSON = some v) ∧
    (∀ v : PyVal, v ≠ .noneV →
      serialize_value v .BOOLEAN = some (.int (if truthy v then 1 else 0)) ∧
      deserialize_value (.int (if truthy v then 1 else 0)) .BOOLEAN
        = some (.boolV (truthy v))) ∧
    (∀ iso : String, serialize_value (.datetimeV iso) .DATETIME = some (.text iso)) ∧
    (∀ s : String, serialize_value (.strV s) .DATETIME = some (.text s)) ∧
    (∀ s : String, deserialize_value (.text s) .DATETIME = some (.strV s)) ∧
    (∀ iso : String, serialize_value (.datetimeV iso) .DATE = some (.text iso)) ∧
    (∀ iso : String, serialize_value (.dateV iso) .DATE = some (.text iso)) ∧
    (∀ s : String, deserialize_value (.text s) .DATE = some (.strV s)) ∧
    (∀ n : Int, serialize_value (.intV n) .INTEGER = some (.int n) ∧
      deserialize_value (.int n) .INTEGER = some (.intV n)) ∧
    (∀ q : ℚ, serialize_value (.floatV q) .FLOAT = some (.real q) ∧
      deserialize_value (.real q) .FLOAT = some (.floatV q)) ∧
    (∀ n : Int, deserialize_value (.int n) .FLOAT = some (.floatV (n : ℚ))) := by
  refine ⟨?_, ?_, fun iso => rfl, fun s => rfl, fun s => rfl, fun iso => rfl,
    fun iso => rfl, fun s => rfl, fun n => ⟨rfl, rfl⟩, fun q => ⟨rfl, rfl⟩, fun n => rfl⟩
  · intro v hv
    have h := jsonLoads_dumps v hv
    by_cases hn : v = .noneV
    · subst hn
      exact ⟨.null, rfl, rfl⟩
    · have hser : serialize_value v .JSON = (jsonDumps v).map SqlVal.text := by
        cases v <;> first | (exact absurd rfl hn) | rfl
      refine ⟨.text (String.mk (printJ v)), ?_, h.2⟩
      rw [hser, h.1]
      rfl
  · intro v hn
    constructor
    · cases v <;> first | (exact absurd rfl hn) | rfl
    · cases htv : truthy v <;> simp [htv, deserialize_value, sqlTruthy]

/-- Witness for C6 at concrete inputs: a nested JSON list round-trips
equal, and the integer 5 stores as boolean 1 and reads back as True. -/
theorem C6_witness :
    (∃ sv, serialize_value (.listV [.intV 3, .strV "x"]) .JSON = some sv ∧
      deserialize_value sv .JSON = some (.listV [.intV 3, .strV "x"])) ∧
    (serialize_value (.intV 5) .BOOLEAN
       = some (.int (if truthy (.intV 5) then 1 else 0)) ∧
     deserialize_value (.int (if truthy (.intV 5) then 1 else 0)) .BOOLEAN
       = some (.boolV (truthy (.intV 5)))) :=
  ⟨C6_field_coding.1 (.listV [.intV 3, .strV "x"]) (by rfl),
   C6_field_coding.2.1 (.intV 5) (by intro h; exact PyVal.noConfusion h)⟩

theorem applyLimit_subset {α : Type} {limit offset : Int} {l : List α} {a : α}
    (h : a ∈ applyLimit limit offset l) : a ∈ l := by
  unfold applyLimit at h
  dsimp only at h
  split at h
  · exact List.mem_of_mem_drop h
  · exact List.mem_of_mem_drop (List.mem_of_mem_take h)

theorem applyLimit_unbounded {α : Type} (l : List α) : applyLimit (-1) 0 l = l := by
  simp [applyLimit]

/-- Every row of any valid query result is live. -/
theorem queryValid_no_deleted {s : Storage} {c : String} {filter : List (String × PyVal)}
    {sort : List (String × String)} {limit offset : Int} {out : List Row}
    (hq : queryValid s c filter sort limit offset out) :
    ∀ r ∈ out, r.deleted = 0 := by
  intro r hr
  obtain ⟨sch, tbl, conds, ordered, hsch, htbl, hbc, hcv, hsv, hperm, hsort, hout⟩ := hq
  rw [hout] at hr
  have hr2 : r ∈ ordered := applyLimit_subset hr
  have hr3 : r ∈ tbl.rows.filter (rowMatches tbl conds) := hperm.mem_iff.mp hr2
  have hm := (List.mem_filter.mp hr3).2
  unfold rowMatches at hm
  rw [Bool.and_eq_true] at hm
  simpa using hm.1

/-- Inversion of a successful `count`. -/
theorem countRun_ok_elim {s : Storage} {c : String} {filter : List (String × PyVal)}
    {n : Int} (h : countRun s c filter = .ok n) :
    ∃ sch tbl conds,
      alistGet s.schemas c = some sch ∧ alistGet s.tables c = some tbl ∧
      buildConds filter = some conds ∧ conds.all (condValid tbl) = true ∧
      n = ((tbl.rows.filter (rowMatches tbl conds)).length : Int) := by
  unfold countRun ensure_collection at h
  split at h
  · cases h
  · next sch heq =>
    have hsch : alistGet s.schemas c = some sch := by
      split at heq
      · next hs => cases heq; exact hs
      · cases heq
    split at h
    · cases h
    · next tbl htbl =>
      split at h
      · cases h
      · next conds hbc =>
        split at h
        · cases h
        · next hval =>
          cases h
          refine ⟨sch, tbl, conds, hsch, htbl, hbc, ?_, rfl⟩
          simpa using hval

/-- C8.  `query` and `count` never include soft-deleted entities, and a
successful `count` equals the length of any unlimited `query` result over
the same unchanged data set and filter. -/
theorem C8_query_count :
    (∀ (s : Storage) (c : String) (filter : List (String × PyVal))
       (sort : List (String × String)) (limit offset : Int) (out : List Row),
       queryValid s c filter sort limit offset out →
       ∀ r ∈ out, r.deleted = 0) ∧
    (∀ (s : Storage) (c : String) (filter : List (String × PyVal))
       (sort : List (String × String)) (n : Int) (out : List Row),
       countRun s c filter = .ok n →
       queryValid s c filter sort (-1) 0 out →
       (out.length : Int) = n ∧ ∀ r ∈ out, r.deleted = 0) := by
  constructor
  · intro s c filter sort limit offset out hq
    exact queryValid_no_deleted hq
  · intro s c filter sort n out hcount hq
    refine ⟨?_, queryValid_no_deleted hq⟩
    obtain ⟨sch, tbl, conds, ordered, hsch, htbl, hbc, hcv, hsv, hperm, hsort, hout⟩ := hq
    obtain ⟨sch2, tbl2, conds2, hsch2, htbl2, hbc2, hcv2, hn⟩ := countRun_ok_elim hcount
    rw [htbl] at htbl2
    have htbleq : tbl2 = tbl := (Option.some.inj htbl2).symm
    rw [hbc] at hbc2
    have hceq : conds2 = conds := (Option.some.inj hbc2).symm
    rw [htbleq, hceq] at hn
    rw [hout, applyLimit_unbounded, hperm.length_eq, hn]

/-- Witness for C8 at concrete inputs: on the one-row fixture, the
unfiltered unlimited query returns exactly the one live row counted by
`count`. -/
theorem C8_witness :
    ((rowsOf sSyncA "todos").length : Int) = 1 ∧
    ∀ r ∈ rowsOf sSyncA "todos", r.deleted = 0 := by
  have hq : queryValid sSyncA "todos" [] [] (-1) 0 (rowsOf sSyncA "todos") := by
    refine ⟨todoSchema, ⟨todoSchema, rowsOf sSyncA "todos"⟩, [], rowsOf sSyncA "todos",
      rfl, rfl, rfl, rfl, rfl, List.Perm.refl _, ?_, rfl⟩
    show List.Pairwise _ _
    decide
  have hc : countRun sSyncA "todos" [] = .ok 1 := rfl
  exact C8_query_count.2 sSyncA "todos" [] [] 1 (rowsOf sSyncA "todos") hc hq

/-- C5.  After a successful soft delete, saving an entity carrying the same
primary-key value neither updates nor resurrects the tombstone: `get` hides
the deleted row, so `save` takes the insert path, and the INSERT collides
with the physically retained row's primary key, raising `IntegrityError` —
which is outside the documented StorageError taxonomy — committing nothing
and leaving the state unchanged. -/
theorem C5_save_after_delete
    (s : Storage) (c : String) (id : PyVal) (now0 : String)
    (s1 : Storage) (tx0 : List Txn) (sch : Schema) (entity : Dict)
    (now fresh : String) (idpy : PyVal) (cols : List (String × SqlVal))
    (h1 : deleteRun s c id now0 = (.ok true, s1, tx0))
    (hsch : alistGet s.schemas c = some sch)
    (hwf : ∀ tbl0, alistGet s.tables c = some tbl0 → tbl0.createdWith = sch)
    (hdecl : (sch.fields.map (fun f => f.1)).contains sch.primary_key = true)
    (hdg : dictGet entity sch.primary_key = some idpy)
    (hnone : idpy ≠ .noneV)
    (hser : serializeFields sch entity false = some cols)
    (hkeys : cols.all (fun kv => (sch.fields.map (fun f => f.1)).contains kv.1) = true)
    (hpk : (alistGet cols sch.primary_key).getD SqlVal.null = pyToSql idpy)
    (hsame : sqlEq (pyToSql idpy) (pyToSql id) = true) :
    saveRun s1 c entity now fresh = (.error .integrityError, s1, []) ∧
    isStorageTaxonomy .integrityError = false := by
  refine ⟨?_, rfl⟩
  obtain ⟨e, hget⟩ := deleteRun_true_inv h1
  obtain ⟨sch2, tbl2, row, hsch2, htbl2, hcol2, hfind, hrte⟩ := getRun_ok_some_elim hget
  rw [hsch] at hsch2
  have hscheq : sch2 = sch := (Option.some.inj hsch2).symm
  rw [hscheq] at hfind hcol2
  obtain ⟨sch3, tbl3, hsch3, htbl3, hcase⟩ := deleteRun_present_spec s c id now0 e hget
  rw [hsch] at hsch3
  have h3 : sch3 = sch := (Option.some.inj hsch3).symm
  rw [htbl2] at htbl3
  have ht3 : tbl3 = tbl2 := (Option.some.inj htbl3).symm
  have hCW : tbl2.createdWith = sch := hwf tbl2 htbl2
  have hdeclT : (tbl2.createdWith.fields.map (fun kv => kv.1)).contains sch.primary_key
      = true := by
    rw [hCW]
    exact hdecl
  set tblD := deleteMark tbl2 sch.primary_key (pyToSql id) now0 with htblD
  have hS : s1.tables = (setTable s c tblD).tables ∧ s1.schemas = s.schemas := by
    rcases hcase with ⟨hsy, heq⟩ | ⟨hsy, heq⟩ <;>
    · rw [h3, ht3] at heq
      rw [heq] at h1
      rw [Prod.mk.injEq, Prod.mk.injEq] at h1
      obtain ⟨-, hs1, -⟩ := h1
      rw [← hs1]
      exact ⟨rfl, rfl⟩
  have hs1tbl : alistGet s1.tables c = some tblD := by
    rw [hS.1]
    exact lookup_setTable_self s c tbl2 tblD htbl2
  have hs1sch : alistGet s1.schemas c = some sch := by
    rw [hS.2]
    exact hsch
  have hens1 : ensure_collection s1 c = .ok sch := by
    unfold ensure_collection
    rw [hs1sch]
  have hrowmatch := List.find?_some hfind
  rw [Bool.and_eq_true] at hrowmatch
  have hrowmem := List.mem_of_find?_eq_some hfind
  have hcvD : colValFull tblD = colValFull tbl2 := rfl
  have hfind1 : tblD.rows.find? (fun r =>
      sqlEq (colValFull tblD r sch.primary_key) (pyToSql idpy) && r.deleted == 0)
      = Option.none := by
    apply List.find?_eq_none.mpr
    intro r hr
    rw [htblD] at hr
    simp only [deleteMark, List.mem_map] at hr
    obtain ⟨r0, hr0, rfl⟩ := hr
    by_cases hm : sqlEq (colValFull tbl2 r0 sch.primary_key) (pyToSql id) = true
    · rw [if_pos hm, hcvD]
      simp
    · rw [if_neg hm, hcvD]
      have hX : sqlEq (colValFull tbl2 r0 sch.primary_key) (pyToSql idpy) = false := by
        cases hx : sqlEq (colValFull tbl2 r0 sch.primary_key) (pyToSql idpy) with
        | false => rfl
        | true => exact absurd (sqlEq_trans hx hsame) hm
      simp [hX]
  have hget1 : getRun s1 c ((dictGet entity sch.primary_key).getD PyVal.noneV)
      = .ok Option.none := by
    rw [hdg]
    rw [show (some idpy).getD PyVal.noneV = idpy from rfl]
    unfold getRun ensure_collection
    rw [hs1sch]
    dsimp only
    rw [hs1tbl]
    dsimp only
    have hcolsD : columnNames tblD = columnNames tbl2 := rfl
    rw [hcolsD, hcol2, hfind1]
    simp
  have hCWD : tblD.createdWith = sch := hCW
  have hins : insert_entity s1 c entity sch now = (.error .integrityError, s1, []) := by
    unfold insert_entity
    rw [hs1tbl]
    dsimp only
    rw [hser]
    dsimp only
    have hallc : cols.all (fun kv => (columnNames tblD).contains kv.1) = true := by
      have hc2 : columnNames tblD = sch.fields.map (fun f => f.1) ++
          ["_created_at", "_updated_at", "_deleted", "_version"] := by
        unfold columnNames
        rw [hCWD]
      rw [List.all_eq_true] at hkeys ⊢
      intro kv hkv
      have hk := hkeys kv hkv
      rw [hc2]
      exact contains_append_left _ hk
    split
    · next hcnd =>
      rw [hallc] at hcnd
      simp at hcnd
    · split
      · rfl
      · next hany =>
        exfalso
        apply hany
        rw [List.any_eq_true]
        refine ⟨{ row with deleted := 1, updated_at := now0 }, ?_, ?_⟩
        · rw [htblD]
          simp only [deleteMark, List.mem_map]
          exact ⟨row, hrowmem, by rw [if_pos hrowmatch.1]⟩
        · rw [hcvD, hCWD, colValFull_mark_row tbl2 row sch.primary_key now0 hdeclT, hpk]
          exact sqlEq_trans hrowmatch.1 (sqlEq_symm hsame)
  rw [saveRun_resolved_of_has hens1 hdg hnone]
  unfold saveResolved
  dsimp only
  rw [hget1]
  dsimp only
  rw [hins]

/-- Witness for C5 at concrete inputs: after deleting entity "a" from the
sync fixture, saving `entityA` (same id) raises `IntegrityError` and
changes nothing. -/
theorem C5_witness :
    saveRun sSyncAD "todos" entityA "T3" "F3" = (.error .integrityError, sSyncAD, []) ∧
    isStorageTaxonomy .integrityError = false :=
  C5_save_after_delete sSyncA "todos" (.strV "a") "T2" sSyncAD
    [[.entityUpdate "todos"], [.changeAppend "todos"]] todoSchema entityA "T3" "F3"
    (.strV "a") colsA
    (by rfl)
    (by rfl)
    (fun tbl0 h0 => by
      rw [show alistGet sSyncA.tables "todos"
          = some (⟨todoSchema, rowsOf sSyncA "todos"⟩ : Table) from rfl] at h0
      rw [← Option.some.inj h0])
    (by rfl)
    (by rfl)
    (by intro hx; cases hx)
    (by rfl)
    (by rfl)
    (by rfl)
    (by rfl)

/-- A timestamp-sorted permutation of a list with pairwise-distinct
timestamps is unique. -/
theorem sorted_perm_eq {l1 l2 : List PendingRow}
    (hperm : l1.Perm l2) (h1 : tsSorted l1) (h2 : tsSorted l2)
    (hdist : l1.Pairwise (fun a b => a.timestamp ≠ b.timestamp)) : l1 = l2 := by
  induction l1 generalizing l2 with
  | nil => exact (List.Perm.eq_nil hperm.symm).symm
  | cons a t1 ih =>
    cases l2 with
    | nil => exact absurd (List.Perm.eq_nil hperm) (by simp)
    | cons b t2 =>
      by_cases hab : a = b
      · subst hab
        have ht : t1 = t2 := ih hperm.cons_inv (List.pairwise_cons.mp h1).2
          (List.pairwise_cons.mp h2).2 (List.pairwise_cons.mp hdist).2
        rw [ht]
      · exfalso
        have hbmem : b ∈ a :: t1 := hperm.mem_iff.mpr (List.mem_cons_self b t2)
        have hamem : a ∈ b :: t2 := hperm.mem_iff.mp (List.mem_cons_self a t1)
        have hbt1 : b ∈ t1 := by
          rcases List.mem_cons.mp hbmem with hba | hm
          · exact absurd hba.symm hab
          · exact hm
        have hat2 : a ∈ t2 := by
          rcases List.mem_cons.mp hamem with hba | hm
          · exact absurd hba hab
          · exact hm
        have hle1 : a.timestamp ≤ b.timestamp := (List.pairwise_cons.mp h1).1 b hbt1
        have hle2 : b.timestamp ≤ a.timestamp := (List.pairwise_cons.mp h2).1 a hat2
        exact (List.pairwise_cons.mp hdist).1 b hbt1 (le_antisymm hle1 hle2)

/-- Counterexample to C2 as written: with two pending changes sharing one
timestamp, the query `ORDER BY timestamp` (no tiebreaker) admits the
reversed insertion order, which is not (timestamp, rowid)-sorted. -/
theorem C2_counterexample : ¬ claimC2Statement := by
  intro hc
  have hpr : sSyncAB.pending.reverse = [prB "T1", prA] := by rfl
  have hts : tsSorted sSyncAB.pending.reverse := by
    rw [hpr]
    unfold tsSorted
    refine List.Pairwise.cons ?_
      (List.Pairwise.cons (fun c hc0 => absurd hc0 (List.not_mem_nil c)) List.Pairwise.nil)
    intro x hx
    rw [List.mem_singleton.mp hx]
    exact le_refl _
  have hgp : getPendingResult sSyncAB (.ok sSyncAB.pending.reverse) :=
    Or.inr ⟨by rfl, sSyncAB.pending.reverse, rfl, List.reverse_perm _, hts⟩
  obtain ⟨out, hout, hperm, hps⟩ := hc sSyncAB (.ok sSyncAB.pending.reverse) (by rfl) hgp
  have hrev : pairSorted sSyncAB.pending.reverse := by
    rw [Except.ok.inj hout]
    exact hps
  rw [hpr] at hrev
  unfold pairSorted at hrev
  have hrel := (List.pairwise_cons.mp hrev).1 _ (List.mem_cons_self _ _)
  rcases hrel with hlt | ⟨-, hle⟩
  · exact absurd hlt (lt_irrefl _)
  · exact absurd hle (by decide)

/-- C2 amended: `get_pending_changes` returns all pending Change entries
ordered by timestamp, but the query has no tiebreaker, so equal timestamps
may come back in any order.  When all pending timestamps are pairwise
distinct, the result is unique and is exactly the
(timestamp, insertion sequence)-keyed order. -/
theorem C2_pending_order :
    (∀ (s : Storage) (r : Except DbErr (List PendingRow)),
       getPendingResult s r → supports_sync s = true →
       ∃ out, r = .ok out ∧ out.Perm s.pending ∧ tsSorted out) ∧
    (∀ (s : Storage) (out1 out2 : List PendingRow),
       getPendingResult s (.ok out1) → getPendingResult s (.ok out2) →
       s.pending.Pairwise (fun a b => a.timestamp ≠ b.timestamp) →
       out1 = out2) ∧
    (∀ (s : Storage) (out : List PendingRow),
       getPendingResult s (.ok out) →
       s.pending.Pairwise (fun a b => a.timestamp ≠ b.timestamp) →
       pairSorted out) := by
  have hvalid : ∀ (s : Storage) (out : List PendingRow),
      getPendingResult s (.ok out) → out.Perm s.pending ∧ tsSorted out := by
    intro s out hg
    rcases hg with ⟨_, hr⟩ | ⟨_, out', hr, hperm, hs⟩
    · cases hr
    · rw [Except.ok.inj hr]
      exact ⟨hperm, hs⟩
  refine ⟨?_, ?_, ?_⟩
  · intro s r hg hsy
    rcases hg with ⟨hf, _⟩ | ⟨_, out, hr, hperm, hs⟩
    · rw [hf] at hsy
      cases hsy
    · exact ⟨out, hr, hperm, hs⟩
  · intro s out1 out2 hg1 hg2 hdist
    obtain ⟨hperm1, hs1⟩ := hvalid s out1 hg1
    obtain ⟨hperm2, hs2⟩ := hvalid s out2 hg2
    have hdist1 : out1.Pairwise (fun a b => a.timestamp ≠ b.timestamp) :=
      ((hperm1.pairwise_iff (fun hxy => hxy.symm)).mpr hdist)
    exact sorted_perm_eq (hperm1.trans hperm2.symm) hs1 hs2 hdist1
  · intro s out hg hdist
    obtain ⟨hperm, hs⟩ := hvalid s out hg
    have hdist1 : out.Pairwise (fun a b => a.timestamp ≠ b.timestamp) :=
      ((hperm.pairwise_iff (fun hxy => hxy.symm)).mpr hdist)
    exact (hs.and hdist1).imp (fun hx => Or.inl (lt_of_le_of_ne hx.1 hx.2))

/-- Witness for C2 at concrete inputs: with the two distinct-timestamp
pending rows of the fixture, the actual insertion-order result is
(timestamp, rowid)-sorted. -/
theorem C2_witness : pairSorted sSyncAB2.pending := by
  have hp2 : sSyncAB2.pending = [prA, prB "T2"] := by rfl
  have hts : tsSorted sSyncAB2.pending := by
    rw [hp2]
    unfold tsSorted
    refine List.Pairwise.cons ?_
      (List.Pairwise.cons (fun c hc0 => absurd hc0 (List.not_mem_nil c)) List.Pairwise.nil)
    intro x hx
    rw [List.mem_singleton.mp hx]
    exact String.le_iff_toList_le.mpr (by decide)
  have hg : getPendingResult sSyncAB2 (.ok sSyncAB2.pending) :=
    Or.inr ⟨by rfl, sSyncAB2.pending, rfl, List.Perm.refl _, hts⟩
  refine C2_pending_order.2.2 sSyncAB2 sSyncAB2.pending hg ?_
  rw [hp2]
  refine List.Pairwise.cons ?_
    (List.Pairwise.cons (fun c hc0 => absurd hc0 (List.not_mem_nil c)) List.Pairwise.nil)
  intro x hx
  rw [List.mem_singleton.mp hx]
  intro hteq
  have : "T1" = "T2" := hteq
  simp at this

/-- An ORDER BY-sorted permutation is unique when the comparator never ties
distinct elements of the list. -/
theorem sorted_perm_eq_of_strict {tbl : Table} {sort : List (String × String)}
    {l1 l2 : List Row} (hperm : l1.Perm l2)
    (h1 : sortedBySpec tbl sort l1) (h2 : sortedBySpec tbl sort l2)
    (hstrict : ∀ a ∈ l1, ∀ b ∈ l1, cmpSpec tbl sort a b ≠ .gt →
      cmpSpec tbl sort b a ≠ .gt → a = b) :
    l1 = l2 := by
  unfold sortedBySpec at h1 h2
  induction l1 generalizing l2 with
  | nil => exact (List.Perm.eq_nil hperm.symm).symm
  | cons x t1 ih =>
    cases l2 with
    | nil => exact absurd (List.Perm.eq_nil hperm) (by simp)
    | cons y t2 =>
      by_cases hxy : x = y
      · subst hxy
        have ht : t1 = t2 := ih hperm.cons_inv (List.pairwise_cons.mp h1).2
          (List.pairwise_cons.mp h2).2
          (fun a ha b hb => hstrict a (List.mem_cons_of_mem x ha) b
            (List.mem_cons_of_mem x hb))
        rw [ht]
      · exfalso
        have hymem : y ∈ x :: t1 := hperm.mem_iff.mpr (List.mem_cons_self y t2)
        have hxmem : x ∈ y :: t2 := hperm.mem_iff.mp (List.mem_cons_self x t1)
        have hyt1 : y ∈ t1 := by
          rcases List.mem_cons.mp hymem with h0 | h0
          · exact absurd h0.symm hxy
          · exact h0
        have hxt2 : x ∈ t2 := by
          rcases List.mem_cons.mp hxmem with h0 | h0
          · exact absurd h0 hxy
          · exact h0
        have hr1 : cmpSpec tbl sort x y ≠ .gt := (List.pairwise_cons.mp h1).1 y hyt1
        have hr2 : cmpSpec tbl sort y x ≠ .gt := (List.pairwise_cons.mp h2).1 x hxt2
        exact hxy (hstrict x (List.mem_cons_self x t1) y hymem hr1 hr2)

/-- Fixed-size slices starting at multiples of `m` concatenate to a prefix. -/
theorem join_pages {α : Type} (l : List α) (m : Nat) (n : Nat) :
    ((List.range n).map (fun i => ((l.drop (m * i)).take m))).flatten = l.take (m * n) := by
  induction n with
  | zero => simp
  | succ k ih =>
    rw [List.range_succ, List.map_append, List.flatten_append]
    simp only [List.map_cons, List.map_nil, List.flatten_cons, List.flatten_nil, List.append_nil]
    rw [ih, Nat.mul_succ, List.take_add]

theorem applyLimit_cast {α : Type} (a : Nat) (off : Int) (l : List α) :
    applyLimit (a : Int) off l = (l.drop off.toNat).take a := by
  unfold applyLimit
  rw [if_neg (not_lt.mpr (Int.natCast_nonneg a)), Int.toNat_natCast]

/-- Counterexample to C9 as written: with two rows tied under the empty
sort specification, each page may independently pick a different admissible
ordering, so page 0 and page 1 of size 1 can both return the same row and
the concatenation repeats it. -/
theorem C9_counterexample : ¬ claimC9Statement := by
  intro hc
  have hq0 : queryValid sSyncAB2 "todos" [] [] 1 (1 * ((0 : Nat) : Int)) [rowA] := by
    refine ⟨todoSchema, tblAB, [], [rowA, rowB], rfl, rfl, rfl, rfl, rfl,
      List.Perm.refl _, ?_, rfl⟩
    show List.Pairwise _ _
    decide
  have hq1 : queryValid sSyncAB2 "todos" [] [] 1 (1 * ((1 : Nat) : Int)) [rowA] := by
    refine ⟨todoSchema, tblAB, [], [rowB, rowA], rfl, rfl, rfl, rfl, rfl,
      List.Perm.swap rowA rowB [], ?_, rfl⟩
    show List.Pairwise _ _
    decide
  have hfull : queryValid sSyncAB2 "todos" [] [] (-1) 0 [rowA, rowB] := by
    refine ⟨todoSchema, tblAB, [], [rowA, rowB], rfl, rfl, rfl, rfl, rfl,
      List.Perm.refl _, ?_, rfl⟩
    show List.Pairwise _ _
    decide
  have hbad := hc sSyncAB2 "todos" [] [] 1 2 (fun _ => [rowA]) [rowA, rowB]
    (by decide)
    (by
      intro i hi
      match i with
      | 0 => exact hq0
      | 1 => exact hq1
      | (k+2) => exact absurd hi (by omega))
    hfull
    (by decide)
  have hbad2 : ([rowA, rowA] : List Row) = [rowA, rowB] := hbad
  injection hbad2 with h1 hrest
  injection hrest with h2 hrest2
  exact absurd h2 (by decide)

/-- C9 amended: limit/offset apply after filter and sort are resolved, and
pagination is stable and exhaustive provided the sort specification never
ties two distinct matching rows (with ties, each page may pick a different
admissible order).  Under that hypothesis, enough pages of any fixed size
concatenate to the full unpaginated result. -/
theorem C9_pagination :
    ∀ (s : Storage) (c : String) (filter : List (String × PyVal))
      (sort : List (String × String)) (m : Int) (n : Nat)
      (pages : Nat → List Row) (full : List Row),
      0 < m →
      (∀ i, i < n → queryValid s c filter sort m (m * (i : Int)) (pages i)) →
      queryValid s c filter sort (-1) 0 full →
      (full.length : Int) ≤ m * (n : Int) →
      (∀ sch tbl conds, alistGet s.schemas c = some sch →
        alistGet s.tables c = some tbl → buildConds filter = some conds →
        ∀ a ∈ tbl.rows.filter (rowMatches tbl conds),
        ∀ b ∈ tbl.rows.filter (rowMatches tbl conds),
          cmpSpec tbl sort a b ≠ .gt → cmpSpec tbl sort b a ≠ .gt → a = b) →
      ((List.range n).map pages).flatten = full := by
  intro s c filter sort m n pages full hm hpages hfull hcov hstrict
  obtain ⟨a, rfl⟩ : ∃ a : Nat, m = (a : Int) :=
    ⟨m.toNat, (Int.toNat_of_nonneg hm.le).symm⟩
  obtain ⟨sch, tbl, conds, ordF, hsch, htbl, hbc, hcv, hsv, hpermF, hsortF, houtF⟩ := hfull
  have hstrict' := hstrict sch tbl conds hsch htbl hbc
  have hfulleq : full = ordF := by
    rw [houtF, applyLimit_unbounded]
  have hpage : ∀ i, i < n → pages i = (ordF.drop (a * i)).take a := by
    intro i hi
    obtain ⟨sch2, tbl2, conds2, ordI, hsch2, htbl2, hbc2, hcv2, hsv2, hpermI, hsortI, houtI⟩ :=
      hpages i hi
    rw [htbl] at htbl2
    have ht2 : tbl2 = tbl := (Option.some.inj htbl2).symm
    rw [hbc] at hbc2
    have hc2 : conds2 = conds := (Option.some.inj hbc2).symm
    rw [ht2, hc2] at hpermI
    rw [ht2] at hsortI
    have hordeq : ordI = ordF := sorted_perm_eq_of_strict (hpermI.trans hpermF.symm)
      hsortI hsortF
      (fun x hx y hy hxy hyx =>
        hstrict' x (hpermI.mem_iff.mp hx) y (hpermI.mem_iff.mp hy) hxy hyx)
    rw [houtI, hordeq, applyLimit_cast,
      show ((a : Int) * (i : Int)).toNat = a * i from by
        rw [← Int.natCast_mul, Int.toNat_natCast]]
  have hmap : (List.range n).map pages
      = (List.range n).map (fun i => (ordF.drop (a * i)).take a) := by
    apply List.map_congr_left
    intro i hi
    exact hpage i (List.mem_range.mp hi)
  rw [hmap, join_pages, hfulleq]
  apply List.take_of_length_le
  have hcast : (full.length : Int) ≤ ((a * n : Nat) : Int) := by
    rw [Int.natCast_mul]
    exact hcov
  have hlen : full.length ≤ a * n := by exact_mod_cast hcast
  rw [← hfulleq]
  exact hlen

/-- Witness for C9 at concrete inputs: sorting the two-row fixture by the
integer `priority` column (no ties), pages of size 1 at offsets 0 and 1
concatenate to the full result. -/
theorem C9_witness :
    ((List.range 2).map (fun i => if i = 0 then [rowA] else [rowB])).flatten
      = [rowA, rowB] := by
  refine C9_pagination sSyncAB2 "todos" [] [("priority", "asc")] 1 2
    (fun i => if i = 0 then [rowA] else [rowB]) [rowA, rowB] (by decide) ?_ ?_ (by decide) ?_
  · intro i hi
    match i with
    | 0 =>
      refine ⟨todoSchema, tblAB, [], [rowA, rowB], rfl, rfl, rfl, rfl, rfl,
        List.Perm.refl _, ?_, rfl⟩
      show List.Pairwise _ _
      decide
    | 1 =>
      refine ⟨todoSchema, tblAB, [], [rowA, rowB], rfl, rfl, rfl, rfl, rfl,
        List.Perm.refl _, ?_, rfl⟩
      show List.Pairwise _ _
      decide
    | (k+2) => exact absurd hi (by omega)
  · refine ⟨todoSchema, tblAB, [], [rowA, rowB], rfl, rfl, rfl, rfl, rfl,
      List.Perm.refl _, ?_, rfl⟩
    show List.Pairwise _ _
    decide
  · intro sch tbl conds hs ht hb
    have ht' : tblAB = tbl := Option.some.inj ht
    have hb' : ([] : List SqlCond) = conds := Option.some.inj hb
    rw [← ht', ← hb']
    decide

/-- `rsplit("__", 1)` on `field ++ "__" ++ op` splits at that junction when
`op` holds no later split point. -/
theorem rsplitDunder_append (field op : List Char)
    (hop : rsplitDunder ('_' :: op) = Option.none) :
    rsplitDunder (field ++ '_' :: '_' :: op) = some (field, op) := by
  induction field with
  | nil =>
    rw [List.nil_append]
    show (match rsplitDunder ('_' :: op) with
      | some p => some ('_' :: p.1, p.2)
      | Option.none =>
        if ('_' : Char) = '_' then
          match ('_' :: op : List Char) with
          | '_' :: r2 => some (([] : List Char), r2)
          | _ => Option.none
        else Option.none) = some ([], op)
    rw [hop]
    rfl
  | cons c restf ih =>
    rw [List.cons_append]
    show (match rsplitDunder (restf ++ '_' :: '_' :: op) with
      | some p => some (c :: p.1, p.2)
      | Option.none =>
        if c = '_' then
          match restf ++ '_' :: '_' :: op with
          | '_' :: r2 => some (([] : List Char), r2)
          | _ => Option.none
        else Option.none) = some (c :: restf, op)
    rw [ih]

/-- Splitting a key of the shape `field ++ "__" ++ op`. -/
theorem rsplit_key (field op : String)
    (hop : rsplitDunder ('_' :: op.data) = Option.none) :
    rsplitDunder (field ++ "__" ++ op).data = some (field.data, op.data) := by
  rw [String.data_append, String.data_append, List.append_assoc]
  rw [show ("__" : String).data ++ op.data = '_' :: '_' :: op.data from rfl]
  exact rsplitDunder_append field.data op.data hop

/-- Splitting a key of the shape `field ++ "__op"` for a literal suffix. -/
theorem rsplit_key2 (field : String) (opc : List Char) (suffix : String)
    (hop : rsplitDunder ('_' :: opc) = Option.none)
    (hsuf : suffix.data = '_' :: '_' :: opc) :
    rsplitDunder (field ++ suffix).data = some (field.data, opc) := by
  rw [String.data_append, hsuf]
  exact rsplitDunder_append field.data opc hop

theorem nowild_cons {q : Char} {ps : List Char} (h : nowild (q :: ps) = true) :
    ¬ q = '%' ∧ ¬ q = '_' ∧ nowild ps = true := by
  unfold nowild at h ⊢
  rw [List.all_cons, Bool.and_eq_true] at h
  have h1 := h.1
  simp only [Bool.not_eq_true', Bool.or_eq_false_iff, beq_eq_false_iff_ne] at h1
  exact ⟨h1.1, h1.2, h.2⟩

theorem likeM_perc (ps s : List Char) :
    likeM ('%' :: ps) s = anySuffix (likeM ps) s := rfl

theorem likeM_cons {p : Char} (hp : ¬ p = '%') (ps s : List Char) :
    likeM (p :: ps) s = (match s with
      | [] => false
      | c :: s2 => (p = '_' || charEqI p c) && likeM ps s2) := by
  rw [likeM.eq_def]
  dsimp only
  rw [if_neg hp]

/-- Wildcard-free patterns match exactly the case-folded-equal texts. -/
theorem likeM_lit {p : List Char} (hp : nowild p = true) (s : List Char) :
    likeM p s = true ↔ s.map lowerA = p.map lowerA := by
  induction p generalizing s with
  | nil =>
    rw [show likeM [] s = s.isEmpty from rfl]
    cases s <;> simp
  | cons q ps ih =>
    obtain ⟨hq1, hq2, hps⟩ := nowild_cons hp
    rw [likeM_cons hq1]
    cases s with
    | nil => simp
    | cons c s2 =>
      simp only [List.map_cons]
      rw [Bool.and_eq_true, Bool.or_eq_true]
      constructor
      · intro h
        rcases h.1 with h1 | h1
        · exact absurd (of_decide_eq_true h1) hq2
        · have hcq : lowerA q = lowerA c := of_decide_eq_true h1
          rw [List.cons.injEq]
          exact ⟨hcq.symm, (ih hps s2).mp h.2⟩
      · intro h
        rw [List.cons.injEq] at h
        exact ⟨Or.inr (decide_eq_true h.1.symm), (ih hps s2).mpr h.2⟩

theorem anySuffix_nilpat (s : List Char) : anySuffix (likeM []) s = true := by
  induction s with
  | nil => rfl
  | cons c s2 ih =>
    show (likeM [] (c :: s2) || anySuffix (likeM []) s2) = true
    rw [ih, Bool.or_true]

/-- `LIKE 'lit%'` is the ASCII-case-insensitive prefix test. -/
theorem likeM_starts {p : List Char} (hp : nowild p = true) (s : List Char) :
    likeM (p ++ ['%']) s = true ↔ p.map lowerA <+: s.map lowerA := by
  induction p generalizing s with
  | nil =>
    rw [List.nil_append, likeM_perc, anySuffix_nilpat]
    simp
  | cons q ps ih =>
    obtain ⟨hq1, hq2, hps⟩ := nowild_cons hp
    rw [List.cons_append, likeM_cons hq1]
    cases s with
    | nil => simp
    | cons c s2 =>
      simp only [List.map_cons]
      rw [Bool.and_eq_true, Bool.or_eq_true, List.cons_prefix_cons]
      constructor
      · intro h
        rcases h.1 with h1 | h1
        · exact absurd (of_decide_eq_true h1) hq2
        · exact ⟨of_decide_eq_true h1, (ih hps s2).mp h.2⟩
      · intro h
        exact ⟨Or.inr (decide_eq_true h.1), (ih hps s2).mpr h.2⟩

/-- `LIKE '%lit'` is the ASCII-case-insensitive suffix test. -/
theorem likeM_suffix {p : List Char} (hp : nowild p = true) (s : List Char) :
    likeM ('%' :: p) s = true ↔ p.map lowerA <:+ s.map lowerA := by
  rw [likeM_perc]
  induction s with
  | nil =>
    show (likeM p [] = true) ↔ _
    rw [likeM_lit hp]
    simp [eq_comm]
  | cons c s2 ih =>
    show ((likeM p (c :: s2) || anySuffix (likeM p) s2) = true) ↔ _
    rw [Bool.or_eq_true, likeM_lit hp, ih, List.map_cons, List.suffix_cons_iff]
    constructor
    · rintro (h1 | h1)
      · exact Or.inl h1.symm
      · exact Or.inr h1
    · rintro (h1 | h1)
      · exact Or.inl h1.symm
      · exact Or.inr h1

/-- `LIKE '%lit%'` is the ASCII-case-insensitive substring test. -/
theorem likeM_contains {p : List Char} (hp : nowild p = true) (s : List Char) :
    likeM ('%' :: (p ++ ['%'])) s = true ↔ p.map lowerA <:+: s.map lowerA := by
  rw [likeM_perc]
  induction s with
  | nil =>
    show (likeM (p ++ ['%']) [] = true) ↔ _
    rw [likeM_starts hp]
    simp
  | cons c s2 ih =>
    show ((likeM (p ++ ['%']) (c :: s2) || anySuffix (likeM (p ++ ['%'])) s2) = true) ↔ _
    rw [Bool.or_eq_true, likeM_starts hp, ih, List.map_cons, List.infix_cons_iff]

/-- Counterexample to C7 as written: `contains` compiles to SQL LIKE, which
folds ASCII case, so `text__contains "A"` matches the cell "xax" although
"A" is not a substring of "xax". -/
theorem C7_counterexample : ¬ claimC7Statement := by
  intro hc
  have h := hc.2.2 "text" "A" (⟨todoSchema, []⟩ : Table)
    (⟨[("text", .text "xax")], "T", "T", 0, 1⟩ : Row)
    (.cLike "text" ('%' :: ("A".data ++ ['%']))) "xax" (by rfl) (by rfl)
  have hL : evalCond (⟨todoSchema, []⟩ : Table)
      (⟨[("text", .text "xax")], "T", "T", 0, 1⟩ : Row)
      (.cLike "text" ('%' :: ("A".data ++ ['%']))) = some true := by rfl
  have hdec : true = decide (("A" : String).data <:+: ("xax" : String).data) :=
    Option.some.inj (hL.symm.trans h)
  have hP : ("A" : String).data <:+: ("xax" : String).data :=
    of_decide_eq_true hdec.symm
  obtain ⟨s, t, hst⟩ := hP
  have hA : 'A' ∈ ("A" : String).data := by decide
  have hmem : 'A' ∈ ("xax" : String).data := by
    rw [← hst]
    exact List.mem_append_left t (List.mem_append_right s hA)
  exact absurd hmem (by decide)

/-- C7 amended: the translator implements the documented operator table —
bare key and unrecognized suffix mean whole-key equality, the twelve
recognized suffixes yield the corresponding conditions — but the
`contains`/`starts_with`/`ends_with` operators compile to SQL LIKE, which
is an ASCII-case-insensitive wildcard match: for operands free of `%`/`_`
they are the substring/prefix/suffix tests on the case-folded text, not the
case-sensitive ones. -/
theorem C7_filter_operator_table :
    (∀ (key : String) (v : PyVal), rsplitDunder key.data = Option.none →
      buildFilterCondition key v = some (.cEq key v)) ∧
    (∀ (field : String) (v : PyVal),
      buildFilterCondition (field ++ "__eq") v = some (.cEq field v) ∧
      buildFilterCondition (field ++ "__ne") v = some (.cNe field v) ∧
      buildFilterCondition (field ++ "__gt") v = some (.cGt field v) ∧
      buildFilterCondition (field ++ "__gte") v = some (.cGte field v) ∧
      buildFilterCondition (field ++ "__lt") v = some (.cLt field v) ∧
      buildFilterCondition (field ++ "__lte") v = some (.cLte field v) ∧
      buildFilterCondition (field ++ "__contains") v
        = some (.cLike field ('%' :: (pyStr v ++ ['%']))) ∧
      buildFilterCondition (field ++ "__starts_with") v
        = some (.cLike field (pyStr v ++ ['%'])) ∧
      buildFilterCondition (field ++ "__ends_with") v
        = some (.cLike field ('%' :: pyStr v)) ∧
      (∀ xs : List PyVal, buildFilterCondition (field ++ "__in") (.listV xs)
        = some (.cIn field xs)) ∧
      (∀ xs : List PyVal, buildFilterCondition (field ++ "__not_in") (.listV xs)
        = some (.cNotIn field xs)) ∧
      buildFilterCondition (field ++ "__is_null") v
        = some (if truthy v then .cIsNull field else .cIsNotNull field)) ∧
    (∀ (field op : String) (v : PyVal),
      rsplitDunder ('_' :: op.data) = Option.none →
      op ∉ (["eq", "ne", "gt", "gte", "lt", "lte", "in", "not_in", "contains",
        "starts_with", "ends_with", "is_null"] : List String) →
      buildFilterCondition (field ++ "__" ++ op) v
        = some (.cEq (field ++ "__" ++ op) v)) ∧
    (∀ (p s : List Char), nowild p = true →
      (likeM ('%' :: (p ++ ['%'])) s = true ↔ p.map lowerA <:+: s.map lowerA) ∧
      (likeM (p ++ ['%']) s = true ↔ p.map lowerA <+: s.map lowerA) ∧
      (likeM ('%' :: p) s = true ↔ p.map lowerA <:+ s.map lowerA)) := by
  refine ⟨?_, ?_, ?_, ?_⟩
  · intro key v h
    unfold buildFilterCondition
    rw [h]
  · intro field v
    refine ⟨?_, ?_, ?_, ?_, ?_, ?_, ?_, ?_, ?_, ?_, ?_, ?_⟩
    · unfold buildFilterCondition
      rw [rsplit_key2 field ['e', 'q'] "__eq" (by rfl) (by rfl)]
      rfl
    · unfold buildFilterCondition
      rw [rsplit_key2 field ['n', 'e'] "__ne" (by rfl) (by rfl)]
      rfl
    · unfold buildFilterCondition
      rw [rsplit_key2 field ['g', 't'] "__gt" (by rfl) (by rfl)]
      rfl
    · unfold buildFilterCondition
      rw [rsplit_key2 field ['g', 't', 'e'] "__gte" (by rfl) (by rfl)]
      rfl
    · unfold buildFilterCondition
      rw [rsplit_key2 field ['l', 't'] "__lt" (by rfl) (by rfl)]
      rfl
    · unfold buildFilterCondition
      rw [rsplit_key2 field ['l', 't', 'e'] "__lte" (by rfl) (by rfl)]
      rfl
    · unfold buildFilterCondition
      rw [rsplit_key2 field ['c', 'o', 'n', 't', 'a', 'i', 'n', 's'] "__contains"
        (by rfl) (by rfl)]
      rfl
    · unfold buildFilterCondition
      rw [rsplit_key2 field ['s', 't', 'a', 'r', 't', 's', '_', 'w', 'i', 't', 'h']
        "__starts_with" (by rfl) (by rfl)]
      rfl
    · unfold buildFilterCondition
      rw [rsplit_key2 field ['e', 'n', 'd', 's', '_', 'w', 'i', 't', 'h']
        "__ends_with" (by rfl) (by rfl)]
      rfl
    · intro xs
      unfold buildFilterCondition
      rw [rsplit_key2 field ['i', 'n'] "__in" (by rfl) (by rfl)]
      rfl
    · intro xs
      unfold buildFilterCondition
      rw [rsplit_key2 field ['n', 'o', 't', '_', 'i', 'n'] "__not_in" (by rfl) (by rfl)]
      rfl
    · unfold buildFilterCondition
      rw [rsplit_key2 field ['i', 's', '_', 'n', 'u', 'l', 'l'] "__is_null"
        (by rfl) (by rfl)]
      rfl
  · intro field op v hop hnot
    unfold buildFilterCondition
    rw [rsplit_key field op hop]
    dsimp only
    rw [show String.mk op.data = op from rfl]
    simp only [List.mem_cons, List.not_mem_nil, or_false, not_or] at hnot
    obtain ⟨h1, h2, h3, h4, h5, h6, h7, h8, h9, h10, h11, h12⟩ := hnot
    rw [if_neg h1, if_neg h2, if_neg h3, if_neg h4, if_neg h5, if_neg h6, if_neg h7,
      if_neg h8, if_neg h9, if_neg h10, if_neg h11, if_neg h12]
  · intro p s hp
    exact ⟨likeM_contains hp s, likeM_starts hp s, likeM_suffix hp s⟩

/-- Witness for C7 at concrete inputs: a bare key compiles to equality, and
the `%A%` LIKE pattern characterizes case-insensitive substring search. -/
theorem C7_witness :
    buildFilterCondition "name" (.strV "x") = some (.cEq "name" (.strV "x")) ∧
    (likeM ('%' :: (("A" : String).data ++ ['%'])) ("xax" : String).data = true ↔
      ("A" : String).data.map lowerA <:+: ("xax" : String).data.map lowerA) :=
  ⟨C7_filter_operator_table.1 "name" (.strV "x") (by rfl),
   (C7_filter_operator_table.2.2.2 ("A" : String).data ("xax" : String).data (by rfl)).1⟩

/-- C10.  `supports_sync` is true iff a remote backend URL is configured,
and when it is false each of `sync`, `get_pending_changes`, `force_push`
and `force_pull` fails with NotSupportedError, leaving the state unchanged
and committing nothing. -/
theorem C10_supports_sync_iff_and_guards :
    (∀ s : Storage, supports_sync s = true ↔
      ∃ cfg url, s.config = some cfg ∧ cfg.backend_url = some url) ∧
    (∀ s : Storage, supports_sync s = false →
      syncRun s = (.error (.notSupported noSyncMsg), s, []) ∧
      (∀ r, getPendingResult s r → r = .error (.notSupported noSyncMsg)) ∧
      (∀ c id, forcePushRun s c id = (.error (.notSupported noSyncMsg), s, []) ∧
        forcePullRun s c id = (.error (.notSupported noSyncMsg), s, []))) := by
  constructor
  · intro s
    constructor
    · intro h
      match hc : s.config with
      | Option.none => simp [supports_sync, hc] at h
      | some cfg =>
        simp only [supports_sync, hc] at h
        match hu : cfg.backend_url with
        | Option.none => simp [hu] at h
        | some url => exact ⟨cfg, url, rfl, hu⟩
    · rintro ⟨cfg, url, hc, hu⟩
      simp [supports_sync, hc, hu]
  · intro s h
    refine ⟨?_, ?_, ?_⟩
    · rw [syncRun, h]; rfl
    · intro r hr
      rcases hr with ⟨_, hq⟩ | ⟨hsup, _⟩
      · exact hq
      · rw [h] at hsup; cases hsup
    · intro c id
      constructor
      · rw [forcePushRun, h]; rfl
      · rw [forcePullRun, h]; rfl

/-- Witness for C10 at concrete inputs: the local-only fixture has
`supports_sync` false and its sync entry points all raise
NotSupportedError without touching state; the sync fixture satisfies the
iff. -/
theorem C10_witness :
    supports_sync sSync = true ∧
    syncRun sLocal = (.error (.notSupported noSyncMsg), sLocal, []) := by
  constructor
  · exact (C10_supports_sync_iff_and_guards.1 sSync).mpr ⟨cfgSync, "http://backend", rfl, rfl⟩
  · exact (C10_supports_sync_iff_and_guards.2 sLocal rfl).1

end LocalFirst
